import Mathlib

/-!
# Task reactor: a verification development

A shallow embedding of the reactor engine (`node.go`, `reactor.go`,
`engine_backend.go`, `engine_frontend.go`) and theorems about it.

Modelling conventions.

* A Go `error` interface value is a `GoError`; `GoError.nil` is the nil interface.
  `errors.New(s)` and `fmt.Errorf` without a wrapping verb both build an
  `errorString`.
* A Go `map[string]node` is an association list with at most one entry per key
  (`mapSet` replaces in place), `e.nodes[id]` with the comma-ok form is `mapGet`,
  the plain index expression (zero value for an absent key) is `mapIndex`.
* `watching map[string]bool` is the list of its keys.  The iteration order of
  `range e.watching` is not fixed by the language, so `walk` takes the order of
  that iteration as an argument.
* The effects the loop has on the outside world are recorded in three logs kept
  in the engine record: `notified` (events handed to `notify`), `spawned`
  (worker goroutines started by `dispatch`) and `sent` (values sent on waiter
  channels).
* `walkChildren` recurses through the Go call stack; here it carries a fuel
  argument and returns `none` when the fuel is exhausted.  `walk` supplies one
  more than the number of entries of `nodes`, which is shown to be enough.
-/

namespace Reactor

/-! ## node.go -/

/-- The `state` constants of `node.go`, in declaration order (`submitted` is the zero value). -/
inductive state where
  | submitted
  | dispatched
  | running
  | done
  | missingDependency
  | errored
  | blocked
  deriving DecidableEq, Repr

/-- The method `state.String` of `node.go`. -/
def state.name : state → String
  | .submitted => "Submitted"
  | .dispatched => "Dispatched"
  | .running => "Running"
  | .done => "Done"
  | .missingDependency => "MissDependency"
  | .errored => "Errored"
  | .blocked => "Blocked"

/-- The method `state.needsEvaluation` of `node.go`. -/
def state.needsEvaluation (s : state) : Bool :=
  s == state.submitted || s == state.missingDependency

/-- The method `state.blocking` of `node.go`. -/
def state.blocking (s : state) : Bool :=
  s == state.errored || s == state.blocked

/-- Values of the Go interface type `error` that occur in the package. -/
inductive GoError where
  | nil
  | errorString (s : String)
  | ErrCycleDetected (Path : List String)
  | ErrMissingDependency (Ids : List String)
  | CompositeError (Errors : List GoError)

mutual
/-- Equality of error values is decidable. -/
def GoError.decEq : (a b : GoError) → Decidable (a = b)
  | .nil, .nil => isTrue rfl
  | .errorString s, .errorString t =>
    if h : s = t then isTrue (by rw [h]) else isFalse (by intro c; cases c; exact h rfl)
  | .ErrCycleDetected s, .ErrCycleDetected t =>
    if h : s = t then isTrue (by rw [h]) else isFalse (by intro c; cases c; exact h rfl)
  | .ErrMissingDependency s, .ErrMissingDependency t =>
    if h : s = t then isTrue (by rw [h]) else isFalse (by intro c; cases c; exact h rfl)
  | .CompositeError s, .CompositeError t =>
    match GoError.decEqList s t with
    | isTrue h => isTrue (by rw [h])
    | isFalse h => isFalse (by intro c; cases c; exact h rfl)
  | .nil, .errorString _ => isFalse (by intro c; cases c)
  | .nil, .ErrCycleDetected _ => isFalse (by intro c; cases c)
  | .nil, .ErrMissingDependency _ => isFalse (by intro c; cases c)
  | .nil, .CompositeError _ => isFalse (by intro c; cases c)
  | .errorString _, .nil => isFalse (by intro c; cases c)
  | .errorString _, .ErrCycleDetected _ => isFalse (by intro c; cases c)
  | .errorString _, .ErrMissingDependency _ => isFalse (by intro c; cases c)
  | .errorString _, .CompositeError _ => isFalse (by intro c; cases c)
  | .ErrCycleDetected _, .nil => isFalse (by intro c; cases c)
  | .ErrCycleDetected _, .errorString _ => isFalse (by intro c; cases c)
  | .ErrCycleDetected _, .ErrMissingDependency _ => isFalse (by intro c; cases c)
  | .ErrCycleDetected _, .CompositeError _ => isFalse (by intro c; cases c)
  | .ErrMissingDependency _, .nil => isFalse (by intro c; cases c)
  | .ErrMissingDependency _, .errorString _ => isFalse (by intro c; cases c)
  | .ErrMissingDependency _, .ErrCycleDetected _ => isFalse (by intro c; cases c)
  | .ErrMissingDependency _, .CompositeError _ => isFalse (by intro c; cases c)
  | .CompositeError _, .nil => isFalse (by intro c; cases c)
  | .CompositeError _, .errorString _ => isFalse (by intro c; cases c)
  | .CompositeError _, .ErrCycleDetected _ => isFalse (by intro c; cases c)
  | .CompositeError _, .ErrMissingDependency _ => isFalse (by intro c; cases c)
/-- Equality of lists of error values is decidable. -/
def GoError.decEqList : (a b : List GoError) → Decidable (a = b)
  | [], [] => isTrue rfl
  | [], _ :: _ => isFalse (by intro c; cases c)
  | _ :: _, [] => isFalse (by intro c; cases c)
  | x :: xs, y :: ys =>
    match GoError.decEq x y, GoError.decEqList xs ys with
    | isTrue h, isTrue h2 => isTrue (by rw [h, h2])
    | isFalse h, _ => isFalse (by intro c; cases c; exact h rfl)
    | _, isFalse h => isFalse (by intro c; cases c; exact h rfl)
end

instance : DecidableEq GoError := GoError.decEq

instance : Inhabited GoError := ⟨GoError.nil⟩

/-- The struct `node` of `node.go`.  `task ()` is the error the task function returns when
it is called. -/
structure node where
  id : String
  state : state
  err : GoError
  task : Unit → GoError
  dependencies : List String

/-- The zero value of `node`, which indexing a map at an absent key yields. -/
def node.zero : node :=
  { id := "", state := state.submitted, err := GoError.nil, task := fun _ => GoError.nil,
    dependencies := [] }

/-! ## reactor.go -/

/-- The `EventType` constants of `reactor.go`. -/
inductive EventType where
  | Submit
  | Execute
  | Wait
  | Close
  | StateChange
  | TaskStart
  | TaskExit
  deriving DecidableEq, Repr

/-- The struct `Event` of `reactor.go`.  A channel is identified by a number. -/
structure Event where
  Typ : EventType
  NodeId : String
  NodeIds : List String
  PrevState : String
  State : String
  Err : GoError
  node : node
  channel : Nat

/-- The zero value of `Event`. -/
def Event.zero : Event :=
  { Typ := EventType.Submit, NodeId := "", NodeIds := [], PrevState := "", State := "",
    Err := GoError.nil, node := node.zero, channel := 0 }

/-! ## engine_backend.go -/

/-- `strings.Join(elems, sep)`. -/
def stringsJoin : List String → String → String
  | [], _ => ""
  | [a], _ => a
  | a :: b :: rest, sep => a ++ sep ++ stringsJoin (b :: rest) sep

mutual
/-- The `Error()` methods.  Calling the method on the nil interface panics (`none`). -/
def GoError.Error : GoError → Option String
  | .nil => none
  | .errorString s => some s
  | .ErrCycleDetected Path => some ("Cycle detected " ++ stringsJoin Path ",")
  | .ErrMissingDependency Ids => some ("Missing dependencies: " ++ stringsJoin Ids ", ")
  | .CompositeError Errors => GoError.writeAll Errors ""
/-- The loop of `CompositeError.Error` over the children, `buf` being the buffer so far. -/
def GoError.writeAll : List GoError → String → Option String
  | [], buf => some buf
  | e :: rest, buf =>
    match GoError.Error e with
    | none => none
    | some msg =>
      if buf.length = 0 then GoError.writeAll rest (buf ++ msg)
      else GoError.writeAll rest ((buf ++ ", ") ++ msg)
end

/-- The function `composeError`. -/
def composeError (errors : List GoError) : GoError :=
  if errors.length = 0 then GoError.nil
  else if errors.length = 1 then errors.headD GoError.nil
  else GoError.CompositeError errors

/-- A worker goroutine started by `dispatch`: the node value it captured, and the
`nodes` map as it stood when `dispatch` was entered. -/
structure Worker where
  node : node
  seen : List (String × Reactor.node)

/-- The struct `engine`.  `events`, `listeners`, `pending` and the mutex are left out;
`notified`, `spawned` and `sent` record the effects of the loop. -/
structure engine where
  started : Bool
  watching : List String
  waiting : List Event
  nodes : List (String × node)
  notified : List Event
  spawned : List Worker
  sent : List (Nat × GoError)

/-- The comma-ok map read `n, ok := m[k]`. -/
def mapGet (m : List (String × node)) (k : String) : Option node :=
  m.lookup k

/-- The map read `m[k]`, the zero value when `k` is absent. -/
def mapIndex (m : List (String × node)) (k : String) : node :=
  (mapGet m k).getD node.zero

/-- The map write `m[k] = v`. -/
def mapSet : List (String × node) → String → node → List (String × node)
  | [], k, v => [(k, v)]
  | (k1, v1) :: m, k, v => if k1 = k then (k, v) :: m else (k1, v1) :: mapSet m k v

/-- The method `engine.notify`: the event is handed to every listener. -/
def notify (e : engine) (event : Event) : engine :=
  { e with notified := e.notified ++ [event] }

/-- The method `engine.stop`. -/
def stop (e : engine) : engine :=
  { e with started := false }

/-- The method `engine.setState`. -/
def setState (e : engine) (id : String) (s : state) : engine :=
  let n := mapIndex e.nodes id
  let prevState := n.state
  let e1 := { e with nodes := mapSet e.nodes id { n with state := s } }
  notify e1 { Event.zero with
    Typ := EventType.StateChange, NodeId := id, PrevState := prevState.name, State := s.name }

/-- The method `engine.setError`. -/
def setError (e : engine) (id : String) (err : GoError) : engine :=
  let n := mapIndex e.nodes id
  { e with nodes := mapSet e.nodes id { n with err := err } }

/-- The method `engine.dispatch`: the state change, and the worker that will send
`TaskStart` and then `TaskExit` with the result of `node.task()`. -/
def dispatch (e : engine) (n : node) : engine :=
  let e1 := setState e n.id state.dispatched
  { e1 with spawned := e1.spawned ++ [{ node := n, seen := e.nodes }] }

/-- The four accumulators of the dependency loop of `walkChildren`. -/
structure Flags where
  missingDep : Bool
  isBlocked : Bool
  allDone : Bool
  blockingErrors : List GoError
  deriving DecidableEq

/-- The accumulators as initialised before the loop. -/
def Flags.init : Flags :=
  { missingDep := false, isBlocked := false, allDone := true, blockingErrors := [] }

/-- The two `if` statements of the loop body that inspect a dependency that is present. -/
def Flags.observe (f : Flags) (depNode : node) : Flags :=
  let f1 := if depNode.state.blocking then
      { f with isBlocked := true, blockingErrors := f.blockingErrors ++ [depNode.err] }
    else f
  if depNode.state ≠ state.done then { f1 with allDone := false } else f1

/-- The `else` branch of the loop body: the dependency is absent from `nodes`. -/
def Flags.absent (f : Flags) : Flags :=
  { f with allDone := false, missingDep := true }

/-- The loop `for _, depId := range node.dependencies` of `walkChildren`; `recur` is the
recursive call. -/
def scanDeps (recur : node → engine × List String → Option (engine × List String)) :
    List String → engine × List String → Flags → Option ((engine × List String) × Flags)
  | [], st, f => some (st, f)
  | depId :: rest, st, f =>
    match mapGet st.1.nodes depId with
    | some depNode =>
      if depId ∈ st.2 then
        scanDeps recur rest st (f.observe depNode)
      else
        match recur depNode st with
        | none => none
        | some st1 => scanDeps recur rest st1 (f.observe (mapIndex st1.1.nodes depId))
    | none => scanDeps recur rest st f.absent

/-- The statements of `walkChildren` after the loop. -/
def conclude (e : engine) (n : node) (f : Flags) : engine :=
  let e1 :=
    if f.missingDep then setState e n.id state.missingDependency
    else if f.isBlocked then
      setError (setState e n.id state.blocked) n.id (composeError f.blockingErrors)
    else e
  if f.allDone then dispatch e1 n else e1

/-- The method `engine.walkChildren`.  The second component of the pair is the `visited`
map; the `path` argument, which the source only ever appends to, is left out. -/
def walkChildren : Nat → node → engine × List String → Option (engine × List String)
  | 0, _, _ => none
  | fuel + 1, n, st =>
    let visited := n.id :: st.2
    if n.state.needsEvaluation = false then some (st.1, visited)
    else
      match scanDeps (walkChildren fuel) n.dependencies (st.1, visited) Flags.init with
      | none => none
      | some (st1, f) => some (conclude st1.1 n f, st1.2)

/-- The loop of `engine.walk` over the watched ids, taken in the given order. -/
def walkFrom (fuel : Nat) : List String → engine × List String → Option (engine × List String)
  | [], st => some st
  | id :: ids, st =>
    match mapGet st.1.nodes id with
    | some n =>
      match walkChildren fuel n st with
      | none => none
      | some st1 => walkFrom fuel ids st1
    | none => walkFrom fuel ids st

/-- The method `engine.walk`, `order` being the order in which `range e.watching`
yields the watched ids. -/
def walk (e : engine) (order : List String) : Option engine :=
  (walkFrom (e.nodes.length + 1) order (e, [])).map Prod.fst

/-- The inner `missing` list of `checkDone`. -/
def missingIds (nodes : List (String × node)) : List String → List String
  | [] => []
  | dep :: rest =>
    match mapGet nodes dep with
    | some _ => missingIds nodes rest
    | none => dep :: missingIds nodes rest

/-- The loop of `checkDone` over the target ids of one waiter, with the locals
`errors` and `isDone`. -/
def checkTargets (nodes : List (String × node)) :
    List String → List GoError → Bool → List GoError × Bool
  | [], errors, isDone => (errors, isDone)
  | id :: ids, errors, isDone =>
    match mapGet nodes id with
    | some n =>
      match n.state with
      | .missingDependency =>
        checkTargets nodes ids
          (errors ++ [GoError.ErrMissingDependency (missingIds nodes n.dependencies)]) isDone
      | .errored => checkTargets nodes ids (errors ++ [n.err]) isDone
      | .blocked => checkTargets nodes ids (errors ++ [n.err]) isDone
      | .done => checkTargets nodes ids errors isDone
      | _ => checkTargets nodes ids errors false
    | none =>
      checkTargets nodes ids (errors ++ [GoError.errorString ("Failed to find task " ++ id)]) isDone

/-- The outer loop of `checkDone`: `filtered` and the values sent so far. -/
def checkWaiters (nodes : List (String × node)) :
    List Event → List Event → List (Nat × GoError) → List Event × List (Nat × GoError)
  | [], filtered, sent => (filtered, sent)
  | waiting :: rest, filtered, sent =>
    let r := checkTargets nodes waiting.NodeIds [] true
    if r.2 then checkWaiters nodes rest filtered (sent ++ [(waiting.channel, composeError r.1)])
    else checkWaiters nodes rest (filtered ++ [waiting]) sent

/-- The method `engine.checkDone`. -/
def checkDone (e : engine) : engine :=
  let r := checkWaiters e.nodes e.waiting [] e.sent
  { e with waiting := r.1, sent := r.2 }

/-- The `for _, id := range event.NodeIds` loop of the `Execute` case. -/
def watchAll : List String → List String → List String
  | watching, [] => watching
  | watching, id :: ids => watchAll (if id ∈ watching then watching else watching ++ [id]) ids

/-- The `switch event.Type` of `engine.loop`, the `Close` case apart. -/
def applyEvent (e : engine) (event : Event) : engine :=
  match event.Typ with
  | .Submit => { e with nodes := mapSet e.nodes event.node.id event.node }
  | .Close => e
  | .Execute => { e with watching := watchAll e.watching event.NodeIds }
  | .TaskStart => setState e event.NodeId state.running
  | .TaskExit =>
    if event.Err = GoError.nil then setState e event.NodeId state.done
    else setError (setState e event.NodeId state.errored) event.NodeId event.Err
  | .Wait => { e with waiting := e.waiting ++ [event] }
  | .StateChange => e

/-- One iteration of the `for event := range e.events` loop of `engine.loop`.  On `Close`
the engine stops and the loop returns before walking or notifying. -/
def loopStep (e : engine) (event : Event) (order : List String) : Option engine :=
  if event.Typ = EventType.Close then some (stop e)
  else
    match walk (applyEvent e event) order with
    | none => none
    | some e1 => some (notify (checkDone e1) event)

/-- The method `engine.loop` on a queue of events, each paired with the iteration order
of the watch set used by its walker pass; it ends at the first `Close`. -/
def loop : engine → List (Event × List String) → Option engine
  | e, [] => some e
  | e, (event, order) :: rest =>
    if event.Typ = EventType.Close then some (stop e)
    else
      match loopStep e event order with
      | none => none
      | some e1 => loop e1 rest

/-! ## engine_frontend.go -/

/-- The engine built by `NewDefault`, started. -/
def NewDefault : engine :=
  { started := true, watching := [], waiting := [], nodes := [], notified := [],
    spawned := [], sent := [] }

/-- The event enqueued by `engine.Submit`. -/
def Submit (id : String) (task : Unit → GoError) (dependencies : List String) : Event :=
  { Event.zero with
    Typ := EventType.Submit, NodeId := id,
    node := { node.zero with id := id, task := task, dependencies := dependencies } }

/-- The event enqueued by `engine.Execute`. -/
def Execute (ids : List String) : Event :=
  { Event.zero with Typ := EventType.Execute, NodeIds := ids }

/-- The event enqueued by `engine.Wait`, `c` being the channel it made. -/
def Wait (ids : List String) (c : Nat) : Event :=
  { Event.zero with Typ := EventType.Wait, NodeIds := ids, channel := c }

/-- The first event a worker spawned for `id` enqueues. -/
def TaskStart (id : String) : Event :=
  { Event.zero with Typ := EventType.TaskStart, NodeId := id }

/-- The second event a worker spawned for `id` enqueues, `err` being the task's result. -/
def TaskExit (id : String) (err : GoError) : Event :=
  { Event.zero with Typ := EventType.TaskExit, NodeId := id, Err := err }

/-! ## Well-formed node maps -/

/-- Every node that still needs evaluation is stored under its own id.  `Submit` stores a
node under `event.node.id`, and the only other writes are `setState` and `setError`. -/
def wellKeyed (m : List (String × node)) : Prop :=
  ∀ p ∈ m, p.2.state.needsEvaluation = true → p.2.id = p.1

instance (m : List (String × node)) : Decidable (wellKeyed m) := by
  unfold wellKeyed; infer_instance

/-- Every node is stored under its own id.  This holds as long as `TaskStart` and
`TaskExit` only name ids that are present, as those sent by workers do. -/
def selfKeyed (m : List (String × node)) : Prop :=
  ∀ p ∈ m, p.2.id = p.1

instance (m : List (String × node)) : Decidable (selfKeyed m) := by
  unfold selfKeyed; infer_instance

/-! ## Settlement, per waiter -/

/-- Whether `checkDone` finds every target of the waiter settled (`isDone` after the
inner loop). -/
def settled (nodes : List (String × node)) (w : Event) : Bool :=
  (checkTargets nodes w.NodeIds [] true).2

/-- The value `checkDone` sends to a waiter it finds settled. -/
def verdict (nodes : List (String × node)) (w : Event) : GoError :=
  composeError (checkTargets nodes w.NodeIds [] true).1

/-- What one target id adds to `errors` in the inner loop of `checkDone`, as the
specification words it: nothing for `done`, the node's `err` for `errored` and `blocked`,
an `ErrMissingDependency` for `missingDependency`, a lookup error for an absent id. -/
def contribution (nodes : List (String × node)) (id : String) : List GoError :=
  match mapGet nodes id with
  | some n =>
    match n.state with
    | .missingDependency =>
      [GoError.ErrMissingDependency (n.dependencies.filter (fun d => (mapGet nodes d).isNone))]
    | .errored => [n.err]
    | .blocked => [n.err]
    | _ => []
  | none => [GoError.errorString ("Failed to find task " ++ id)]

/-- Whether one target id leaves `isDone` as it is: the id is absent, or its node is
`done`, `errored`, `blocked` or `missingDependency`. -/
def settles (nodes : List (String × node)) (id : String) : Bool :=
  match mapGet nodes id with
  | some n =>
    match n.state with
    | .submitted => false
    | .dispatched => false
    | .running => false
    | _ => true
  | none => true

/-! ## What a walker pass may do -/

/-- How the record `n1` found under a key after some walker activity relates to the record
`n` found there before: identity, task and dependencies are kept, and the record is either
untouched or was awaiting evaluation and is now `missingDependency`, `blocked` or
`dispatched`, its `err` rewritten only on becoming `blocked`. -/
def nodeMoved (n n1 : node) : Prop :=
  n1.id = n.id ∧ n1.dependencies = n.dependencies ∧ n1.task = n.task ∧
    (n1 = n ∨
      (n.state.needsEvaluation = true ∧
        (n1.state = state.missingDependency ∨ n1.state = state.blocked ∨
          n1.state = state.dispatched) ∧
        (n1.state ≠ state.blocked → n1.err = n.err)))

/-- What is known of a worker started between the engine states `a` and `b`: its node was
awaiting evaluation in `a`, is `dispatched` in `b`, and each of its declared dependencies
was present and `done` in the map the worker saw when it was dispatched, and is the same
record in `b`. -/
def workerOK (a b : engine) (w : Worker) : Prop :=
  (∃ n, mapGet a.nodes w.node.id = some n ∧ n.state.needsEvaluation = true ∧
      n.dependencies = w.node.dependencies) ∧
    (∃ n1, mapGet b.nodes w.node.id = some n1 ∧ n1.state = state.dispatched) ∧
    ∀ d ∈ w.node.dependencies,
      ∃ m, mapGet w.seen d = some m ∧ m.state = state.done ∧ mapGet b.nodes d = some m

/-- The relation between the walker state (engine and `visited`) before and after any
stretch of a walker pass. -/
structure Walked (a b : engine × List String) : Prop where
  keys : b.1.nodes.map Prod.fst = a.1.nodes.map Prod.fst
  wk : wellKeyed a.1.nodes → wellKeyed b.1.nodes
  sk : selfKeyed a.1.nodes → selfKeyed b.1.nodes
  visited : ∀ k ∈ a.2, k ∈ b.2
  started : b.1.started = a.1.started
  watching : b.1.watching = a.1.watching
  waiting : b.1.waiting = a.1.waiting
  sent : b.1.sent = a.1.sent
  absent : ∀ k, mapGet a.1.nodes k = none → mapGet b.1.nodes k = none
  moved : ∀ k n, mapGet a.1.nodes k = some n →
    ∃ n1, mapGet b.1.nodes k = some n1 ∧ nodeMoved n n1
  spawned : ∃ new, b.1.spawned = a.1.spawned ++ new ∧
    (new.map (fun w => w.node.id)).Nodup ∧ ∀ w ∈ new, workerOK a.1 b.1 w

/-- The contract of one call of `walkChildren` on the node `n`, from walker state `a` to
walker state `b`: a node that does not need evaluation leaves the engine alone, and no
record under a key already visited at entry, other than the node's own, is touched. -/
structure Called (n : node) (a b : engine × List String) : Prop where
  walked : Walked a b
  idle : n.state.needsEvaluation = false → b.1 = a.1
  kept : ∀ k ∈ a.2, k ≠ n.id → mapGet b.1.nodes k = mapGet a.1.nodes k
  marked : n.id ∈ b.2

/-- The accumulators of the dependency loop of `walkChildren` as a function of a fixed node
map: every dependency is looked up in `m`, no recursion taking place. -/
def foldFlags (m : List (String × node)) : List String → Flags → Flags
  | [], f => f
  | d :: ds, f =>
    match mapGet m d with
    | some p => foldFlags m ds (f.observe p)
    | none => foldFlags m ds f.absent

/-- The contract of the dependency loop of `walkChildren` over `deps`, the accumulators
going from `f` to `f1`: records under keys visited at entry are untouched, and the
accumulators are those obtained by reading every dependency in the map the loop ends
with. -/
structure Scanned (deps : List String) (a b : engine × List String) (f f1 : Flags) : Prop where
  walked : Walked a b
  kept : ∀ k ∈ a.2, mapGet b.1.nodes k = mapGet a.1.nodes k
  flags : f1 = foldFlags b.1.nodes deps f

/-- The number of entries of the map whose key is not in `visited`: the measure that
bounds the depth of the recursion of `walkChildren`. -/
def unvisited (m : List (String × node)) (visited : List String) : Nat :=
  ((m.map Prod.fst).filter (fun k => decide (k ∉ visited))).length

/-! ## Events and runs -/

/-- The event names the key `k` in a way that makes the `switch` of `engine.loop` write
the record under `k`: a `Submit` of a node with that id, or a `TaskStart` or `TaskExit`
for that id. -/
def Event.writes (ev : Event) (k : String) : Prop :=
  (ev.Typ = EventType.Submit ∧ ev.node.id = k) ∨
    (ev.Typ = EventType.TaskStart ∧ ev.NodeId = k) ∨
    (ev.Typ = EventType.TaskExit ∧ ev.NodeId = k)

instance (ev : Event) (k : String) : Decidable (ev.writes k) := by
  unfold Event.writes; infer_instance

/-- The ids for which `dispatch` has started a worker, in the order of the calls. -/
def engine.dispatchedIds (e : engine) : List String :=
  e.spawned.map (fun w => w.node.id)

/-- The events the loop can be handed in engine state `e`: those the public API builds, and
`TaskStart` and `TaskExit` for an id whose worker `dispatch` has started. -/
inductive Admissible (e : engine) : Event → Prop
  | submit (id : String) (task : Unit → GoError) (deps : List String) :
      Admissible e (Submit id task deps)
  | execute (ids : List String) : Admissible e (Execute ids)
  | wait (ids : List String) (c : Nat) : Admissible e (Wait ids c)
  | taskStart (id : String) : id ∈ e.dispatchedIds → Admissible e (TaskStart id)
  | taskExit (id : String) (err : GoError) : id ∈ e.dispatchedIds →
      Admissible e (TaskExit id err)

/-- `Reaches ok e0 e`: the loop gets from engine state `e0` to `e` by processing admissible
events that also satisfy `ok`, the walker pass of each event iterating the watch set in
some order. -/
inductive Reaches (ok : engine → Event → Prop) : engine → engine → Prop
  | refl (e : engine) : Reaches ok e e
  | step {e0 e e1 : engine} {ev : Event} {order : List String} :
      Reaches ok e0 e → Admissible e ev → ok e ev →
      order.Perm (applyEvent e ev).watching → loopStep e ev order = some e1 →
      Reaches ok e0 e1

/-- The event does not submit an id that `nodes` already holds. -/
def firstSubmit (e : engine) (ev : Event) : Prop :=
  ev.Typ = EventType.Submit → mapGet e.nodes ev.node.id = none

/-- What is known of the workers started so far when no id is submitted twice: no two
belong to the same id, and the node of each has left the states awaiting evaluation. -/
def dispatchedOnce (e : engine) : Prop :=
  wellKeyed e.nodes ∧ e.dispatchedIds.Nodup ∧
    ∀ w ∈ e.spawned, ∃ n, mapGet e.nodes w.node.id = some n ∧ n.state.needsEvaluation = false

/-- `DepReach m roots k`: the id `k` is one of `roots` or a transitive declared dependency of
one, the dependency lists being read in the map `m`. -/
inductive DepReach (m : List (String × node)) (roots : List String) : String → Prop
  | root {k : String} : k ∈ roots → DepReach m roots k
  | dep {p d : String} {n : node} :
      DepReach m roots p → mapGet m p = some n → d ∈ n.dependencies → DepReach m roots d

/-- Once the event is applied, `x` is neither watched nor a transitive declared dependency
of a watched id. -/
def unreached (x : String) (e : engine) (ev : Event) : Prop :=
  ¬ DepReach (applyEvent e ev).nodes (applyEvent e ev).watching x

/-- The walker invariant behind the frame property, relative to the engine `e0` the pass
started from: a key that is not reachable from `roots` holds the record it held in `e0`,
and every worker for it was already there in `e0`. -/
def framed (e0 : engine) (roots : List String) (st : engine × List String) : Prop :=
  Walked (e0, []) st ∧
    ∀ k, ¬ DepReach e0.nodes roots k →
      mapGet st.1.nodes k = mapGet e0.nodes k ∧
        ∀ w ∈ st.1.spawned, w.node.id = k → w ∈ e0.spawned

/-- The node `x`, if present, is in state `submitted`, and no worker was started for it. -/
def idleAt (x : String) (e : engine) : Prop :=
  wellKeyed e.nodes ∧ (∀ n, mapGet e.nodes x = some n → n.state = state.submitted) ∧
    x ∉ e.dispatchedIds

/-! ## Chains below a failed node -/

/-- The node under `id` is `blocked` with `err` equal to `E`. -/
def blockedWith (m : List (String × node)) (E : GoError) (id : String) : Prop :=
  ∃ n, mapGet m id = some n ∧ n.state = state.blocked ∧ n.err = E

/-- The shape of a chain `c 0, c 1, ..., c k`: `c 0` is `errored` with error `E`, and each
`c (i + 1)` declares exactly the one dependency `c i`. -/
def chainShape (m : List (String × node)) (c : Nat → String) (k : Nat) (E : GoError) : Prop :=
  (∃ n, mapGet m (c 0) = some n ∧ n.state = state.errored ∧ n.err = E) ∧
    ∀ i, i < k → ∃ n, mapGet m (c (i + 1)) = some n ∧ n.dependencies = [c i]

/-- Where the walker stands with the chain node `c i`: either it is still `submitted` and
not yet visited in this pass, or it and every chain node below it down to `c 1` are
`blocked` with `E`. -/
def chainStage (c : Nat → String) (E : GoError) (st : engine × List String) (i : Nat) : Prop :=
  (∃ n, mapGet st.1.nodes (c i) = some n ∧ n.state = state.submitted ∧ c i ∉ st.2) ∨
    ∀ j, 1 ≤ j → j ≤ i → blockedWith st.1.nodes E (c j)

/-- The walker invariant for a chain below a failed node, relative to the engine `e0` the
pass started from. -/
def chainInv (e0 : engine) (c : Nat → String) (k : Nat) (E : GoError)
    (st : engine × List String) : Prop :=
  selfKeyed st.1.nodes ∧ chainShape st.1.nodes c k E ∧
    (∀ i, 1 ≤ i → i ≤ k → chainStage c E st i) ∧
    ∀ i, 1 ≤ i → i ≤ k → ∀ w ∈ st.1.spawned, w.node.id = c i → w ∈ e0.spawned

/-- Every node is stored under its own id and every id with a worker is present: what runs
built from the public API and from workers maintain. -/
def wellFormed (e : engine) : Prop :=
  selfKeyed e.nodes ∧ ∀ id ∈ e.dispatchedIds, ∃ n, mapGet e.nodes id = some n

/-! ## Replies -/

/-- The channel of a `Wait` event is new: nothing was sent on it and no waiter holds it.
`engine.Wait` makes a channel for every call. -/
def freshChannel (e : engine) (ev : Event) : Prop :=
  ev.Typ = EventType.Wait →
    ev.channel ∉ e.sent.map Prod.fst ∧ ev.channel ∉ e.waiting.map (fun w => w.channel)

/-- No channel was sent on twice, and no channel that was sent on is still held by a
waiter, nor held by two waiters. -/
def repliedOnce (e : engine) : Prop :=
  (e.sent.map Prod.fst ++ e.waiting.map (fun w => w.channel)).Nodup

/-! ## The decision of the walker, as the specification words it -/

/-- The dependency id is absent from the map. -/
def depAbsent (m : List (String × node)) (d : String) : Bool :=
  (mapGet m d).isNone

/-- The dependency is present and `errored` or `blocked`. -/
def depBlocking (m : List (String × node)) (d : String) : Bool :=
  match mapGet m d with
  | some p => p.state.blocking
  | none => false

/-- The dependency is present and `done`. -/
def depDone (m : List (String × node)) (d : String) : Bool :=
  match mapGet m d with
  | some p => decide (p.state = state.done)
  | none => false

/-- The `err` of every blocking dependency occurrence, in declaration order; an id listed
twice contributes twice. -/
def blockingErrs (m : List (String × node)) : List String → List GoError
  | [] => []
  | d :: ds =>
    match mapGet m d with
    | some p => if p.state.blocking then p.err :: blockingErrs m ds else blockingErrs m ds
    | none => blockingErrs m ds

/-- The record the decision leaves for the node `n`, by the priority of the specification:
a missing dependency first, then a blocking one, then all done, else no change. -/
def decided (m : List (String × node)) (n : node) : node :=
  if n.dependencies.any (depAbsent m) then { n with state := state.missingDependency }
  else if n.dependencies.any (depBlocking m) then
    { n with state := state.blocked, err := composeError (blockingErrs m n.dependencies) }
  else if n.dependencies.all (depDone m) then { n with state := state.dispatched }
  else n

/-- The number of `StateChange` notifications for the node `id` so far. -/
def stateChanges (e : engine) (id : String) : Nat :=
  (e.notified.filter (fun ev => ev.Typ = EventType.StateChange ∧ ev.NodeId = id)).length

/-! ## Invariants of single walker passes -/

/-- The walker invariant for a node `x` that was `missingDependency` with record `n` in the
engine `e0` the pass started from: its record is still `n`, unless one of its dependencies
is blocking or all of them are done. -/
def pendingInv (e0 : engine) (x : String) (n : node) (st : engine × List String) : Prop :=
  Walked (e0, []) st ∧
    (mapGet st.1.nodes x = some n ∨
      n.dependencies.any (depBlocking st.1.nodes) = true ∨
      n.dependencies.all (depDone st.1.nodes) = true)

/-- The walker invariant for a node `x` with record `n` one of whose dependencies, `d`, is
`missingDependency` for want of a dependency of its own: `d` stays `missingDependency`,
and `x` keeps its record unless it is `blocked` with one of its dependencies blocking. -/
def transitiveInv (e0 : engine) (x d : String) (n : node) (st : engine × List String) : Prop :=
  Walked (e0, []) st ∧
    (∃ d1, mapGet st.1.nodes d = some d1 ∧ d1.state = state.missingDependency) ∧
    (mapGet st.1.nodes x = some n ∨
      ∃ n1, mapGet st.1.nodes x = some n1 ∧ n1.state = state.blocked ∧
        n.dependencies.any (depBlocking st.1.nodes) = true)

/-- Every node of `s` is `submitted` and declares exactly one dependency, itself in `s`: a
node depending on itself (`s` of one id), two nodes depending on each other (`s` of two
ids), or any longer cycle. -/
def stuck (m : List (String × node)) (s : List String) : Prop :=
  ∀ a ∈ s, ∃ n, mapGet m a = some n ∧ n.state = state.submitted ∧
    ∃ d ∈ s, n.dependencies = [d]

/-- A number of walker passes, each followed by its settlement pass as in `engine.loop`,
one for each iteration order given. -/
def passes : engine → List (List String) → Option engine
  | e, [] => some e
  | e, order :: rest =>
    match walk e order with
    | none => none
    | some e1 => passes (checkDone e1) rest

/-- The walker invariant for a set `s` of nodes stuck on each other, relative to the engine
`e0` the pass started from: their records are those of `e0`. -/
def stuckInv (e0 : engine) (s : List String) (st : engine × List String) : Prop :=
  ∀ a ∈ s, mapGet st.1.nodes a = mapGet e0.nodes a

/-- The number of keys of the node map. -/
def keyCount (m : List (String × node)) : Nat :=
  (m.map Prod.fst).dedup.length

/-- The number of calls of `walkChildren` made by one pass of `engine.walk`: every call
starts with `visited[node.id] = true`, which the embedding records as one more entry of the
`visited` list, so the length of the final list is the number of calls. -/
def walkCalls (e : engine) (order : List String) : Option Nat :=
  (walkFrom (e.nodes.length + 1) order (e, [])).map (fun st => st.2.length)

/-- The calls made so far plus the keys of `ks` still unmarked: the quantity a recursive
call of `walkChildren` never increases. -/
def callBudget (ks visited : List String) : Nat :=
  visited.length + (ks.dedup.filter (fun k => decide (k ∉ visited))).length

/-! ## The protocol of the workers and the `err` field -/

/-- The number of `TaskStart` events for `id` the loop has processed. -/
def taskStarts (e : engine) (id : String) : Nat :=
  (e.notified.filter (fun ev => ev.Typ = EventType.TaskStart ∧ ev.NodeId = id)).length

/-- The number of `TaskExit` events for `id` the loop has processed. -/
def taskExits (e : engine) (id : String) : Nat :=
  (e.notified.filter (fun ev => ev.Typ = EventType.TaskExit ∧ ev.NodeId = id)).length

/-- The number of workers `dispatch` has started for `id`. -/
def workersFor (e : engine) (id : String) : Nat :=
  e.dispatchedIds.count id

/-- The order in which the goroutine of `dispatch` sends its two events: a `TaskStart` for
`id` comes from a worker of `id` that has not sent one yet, a `TaskExit` from a worker that
has sent its `TaskStart` and not yet its `TaskExit`. -/
def workerTurn (e : engine) (ev : Event) : Prop :=
  (ev.Typ = EventType.TaskStart → taskStarts e ev.NodeId < workersFor e ev.NodeId) ∧
    (ev.Typ = EventType.TaskExit → taskExits e ev.NodeId < taskStarts e ev.NodeId)

instance (e : engine) (ev : Event) : Decidable (workerTurn e ev) := by
  unfold workerTurn; infer_instance

/-- The event follows the order of the workers and submits no id that `nodes` holds. -/
def onceInTurn (e : engine) (ev : Event) : Prop :=
  firstSubmit e ev ∧ workerTurn e ev

/-- The field `err` is non-nil exactly when the state is `errored` or `blocked`. -/
def errMatches (n : node) : Prop :=
  n.err ≠ GoError.nil ↔ (n.state = state.errored ∨ n.state = state.blocked)

/-- The walker invariant behind `errMatches`, relative to the engine `e0` the pass started
from: every record satisfies it, and the pass has notified `StateChange` events only. -/
def errInv (e0 : engine) (st : engine × List String) : Prop :=
  (∀ k n, mapGet st.1.nodes k = some n → errMatches n) ∧
    ∃ sc, st.1.notified = e0.notified ++ sc ∧ ∀ x ∈ sc, x.Typ = EventType.StateChange

/-- The invariant of runs in which no id is submitted twice and the worker events come in
the order of the workers: besides `dispatchedOnce` and `errMatches`, no id has had more
exits than starts or more starts than workers, and the node of a worker that has not
exited is `dispatched` or `running`. -/
def inFlight (e : engine) : Prop :=
  dispatchedOnce e ∧ (∀ k n, mapGet e.nodes k = some n → errMatches n) ∧
    (∀ id, taskExits e id ≤ taskStarts e id ∧ taskStarts e id ≤ workersFor e id) ∧
    ∀ w ∈ e.spawned, taskExits e w.node.id = 0 →
      ∃ n, mapGet e.nodes w.node.id = some n ∧
        (n.state = state.dispatched ∨ n.state = state.running)

/-! ## Dependencies of nodes that have been dispatched -/

/-- Every node that is `dispatched` or `running` has each declared dependency present in
the map and `done`. -/
def ready (m : List (String × node)) : Prop :=
  ∀ k n, mapGet m k = some n → (n.state = state.dispatched ∨ n.state = state.running) →
    ∀ d ∈ n.dependencies, ∃ p, mapGet m d = some p ∧ p.state = state.done

/-! ## Concrete engines used as witnesses -/

/-- The engine of the missing-dependency scenario after its walker pass: node "1" declared
"two" and "three", neither submitted, and one waiter targets "1". -/
def missingDepEngine : engine :=
  { NewDefault with
    watching := ["1"]
    waiting := [Wait ["1"] 0]
    nodes := [("1", { node.zero with
      id := "1", state := state.missingDependency, dependencies := ["two", "three"] })] }

/-- An engine in which "1" is done and "2", which depends on "1", is watched and still
awaits evaluation. -/
def depDoneEngine : engine :=
  { NewDefault with
    watching := ["2"]
    nodes := [("1", { node.zero with id := "1", state := state.done }),
              ("2", { node.zero with id := "2", dependencies := ["1"] })] }

/-- The events of a run in which "1" is submitted, executed and completes. -/
def completedRun : List (Event × List String) :=
  [(Submit "1" (fun _ => GoError.nil) [], []), (Execute ["1"], ["1"]),
   (TaskStart "1", ["1"]), (TaskExit "1" GoError.nil, ["1"])]

/-- The engine after `Submit("1", task)` on a fresh engine. -/
def afterSubmit : engine :=
  (loopStep NewDefault (Submit "1" (fun _ => GoError.nil) []) []).getD NewDefault

/-- The engine after `Submit("1", task)` and `Execute("1")`: "1" has been dispatched. -/
def afterExecute : engine :=
  (loopStep afterSubmit (Execute ["1"]) ["1"]).getD NewDefault

/-- The engine of the single-dependency scenario before its first walker pass: "2" depends
on "1", "3" stands alone, and only "2" is watched. -/
def singleDepEngine : engine :=
  { NewDefault with
    watching := ["2"]
    nodes := [("1", { node.zero with id := "1" }),
              ("2", { node.zero with id := "2", dependencies := ["1"] }),
              ("3", { node.zero with id := "3" })] }

/-- The engine `singleDepEngine` after a `Wait("2")`: "1" has been dispatched. -/
def singleDepWaited : engine :=
  (loopStep singleDepEngine (Wait ["2"] 0) ["2"]).getD NewDefault

/-- The engine of the cascading-failure scenario once "1" has failed with "test error":
"2" depends on "1", "3" on "2", "3" is watched and waited for. -/
def cascadeEngine : engine :=
  { NewDefault with
    watching := ["3"]
    waiting := [Wait ["3"] 0]
    nodes := [("1", { node.zero with
                id := "1", state := state.errored, err := GoError.errorString "test error" }),
              ("2", { node.zero with id := "2", dependencies := ["1"] }),
              ("3", { node.zero with id := "3", dependencies := ["2"] })] }

/-- The chain "1", "2", "3" of `cascadeEngine`. -/
def cascadeChain (i : Nat) : String :=
  if i = 0 then "1" else if i = 1 then "2" else "3"

/-- The engine after `Wait()` with no ids on a fresh engine: the waiter was sent nil. -/
def afterEmptyWait : engine :=
  (loopStep NewDefault (Wait [] 0) []).getD NewDefault

/-- A run in which "1" is submitted and executed before its dependency "2" is submitted. -/
def lateDepRun : List (Event × List String) :=
  [(Submit "1" (fun _ => GoError.nil) ["2"], []), (Execute ["1"], ["1"]),
   (Submit "2" (fun _ => GoError.nil) [], ["1"])]

/-- The run `lateDepRun` followed by `Wait("1")`. -/
def lateDepWaitRun : List (Event × List String) :=
  lateDepRun ++ [(Wait ["1"] 0, ["1"])]

/-- A run in which "n" depends on "d", whose own dependency "x" is never submitted, and "n"
is executed and waited for. -/
def transitiveMissingRun : List (Event × List String) :=
  [(Submit "d" (fun _ => GoError.nil) ["x"], []), (Submit "n" (fun _ => GoError.nil) ["d"], []),
   (Execute ["n"], ["n"]), (Wait ["n"] 0, ["n"])]

/-- A run in which "A" depends on "B", "B" on the absent "X", and both are executed, the
walker taking "A" first. -/
def twiceRun : List (Event × List String) :=
  [(Submit "A" (fun _ => GoError.nil) ["B"], []), (Submit "B" (fun _ => GoError.nil) ["X"], []),
   (Execute ["A", "B"], ["A", "B"])]

/-- The engine of `lateDepRun` as the walker pass of its last event finds it: "1" is
`missingDependency` and its dependency "2" has just been submitted. -/
def lateDepEngine : engine :=
  { NewDefault with
    watching := ["1"]
    nodes := [("1", { node.zero with
                id := "1", state := state.missingDependency, dependencies := ["2"] }),
              ("2", { node.zero with id := "2" })] }

/-- The engine of `transitiveMissingRun` as the walker pass of its last event finds it. -/
def transitiveMissingEngine : engine :=
  { NewDefault with
    watching := ["n"]
    waiting := [Wait ["n"] 0]
    nodes := [("d", { node.zero with
                id := "d", state := state.missingDependency, dependencies := ["x"] }),
              ("n", { node.zero with id := "n", dependencies := ["d"] })] }

/-- An engine in which "A" and "B" depend on each other, "A" being watched and waited
for. -/
def cycleEngine : engine :=
  { NewDefault with
    watching := ["A"]
    waiting := [Wait ["A"] 0]
    nodes := [("A", { node.zero with id := "A", dependencies := ["B"] }),
              ("B", { node.zero with id := "B", dependencies := ["A"] })] }

/-- An engine with a self-reference, a duplicate dependency and a cycle: "A" depends on
itself and twice on "B", "B" depends on "A"; both are watched. -/
def knotEngine : engine :=
  { NewDefault with
    watching := ["A", "B"]
    nodes := [("A", { node.zero with id := "A", dependencies := ["A", "B", "B"] }),
              ("B", { node.zero with id := "B", dependencies := ["A"] })] }

/-- A run in which "1" fails with "boom" while "2", which depends on it, is watched. -/
def failRun : List (Event × List String) :=
  [(Submit "1" (fun _ => GoError.errorString "boom") [], []),
   (Submit "2" (fun _ => GoError.nil) ["1"], []),
   (Execute ["2"], ["2"]),
   (TaskStart "1", ["2"]),
   (TaskExit "1" (GoError.errorString "boom"), ["2"])]

/-- The engine after the first `i` events of `failRun`. -/
def failAt (i : Nat) : engine :=
  (loop NewDefault (failRun.take i)).getD NewDefault

/-- A run in which "1" is submitted and executed, then submitted again before its worker
has reported, so that a second worker is started; the first worker reports a failure with
"boom", after which the second worker sends its `TaskStart`. -/
def raceRun : List (Event × List String) :=
  [(Submit "1" (fun _ => GoError.errorString "boom") [], []),
   (Execute ["1"], ["1"]),
   (Submit "1" (fun _ => GoError.errorString "boom") [], ["1"]),
   (TaskStart "1", ["1"]),
   (TaskExit "1" (GoError.errorString "boom"), ["1"]),
   (TaskStart "1", ["1"])]

/-- The engine after the first `i` events of `raceRun`. -/
def raceAt (i : Nat) : engine :=
  (loop NewDefault (raceRun.take i)).getD NewDefault

/-- A run in which "2" depends on "1" and is executed; "1" completes, "2" is dispatched,
and "1" is submitted again before the worker of "2" sends its `TaskStart`. -/
def resubmitRun : List (Event × List String) :=
  [(Submit "1" (fun _ => GoError.nil) [], []),
   (Submit "2" (fun _ => GoError.nil) ["1"], []),
   (Execute ["2"], ["2"]),
   (TaskStart "1", ["2"]),
   (TaskExit "1" GoError.nil, ["2"]),
   (Submit "1" (fun _ => GoError.nil) [], ["2"]),
   (TaskStart "2", ["2"])]

/-- The engine after the first `i` events of `resubmitRun`. -/
def resubmitAt (i : Nat) : engine :=
  (loop NewDefault (resubmitRun.take i)).getD NewDefault

/-! ## Maps -/

theorem mapGet_mapSet (m : List (String × node)) (k : String) (v : node) (k1 : String) :
    mapGet (mapSet m k v) k1 = if k1 = k then some v else mapGet m k1 := by
  induction m with
  | nil =>
    by_cases h : k1 = k
    · simp [mapSet, mapGet, List.lookup, h]
    · have : (k1 == k) = false := by simpa using h
      simp [mapSet, mapGet, List.lookup, h, this]
  | cons p m ih =>
    obtain ⟨a, b⟩ := p
    unfold mapGet at ih
    by_cases hak : a = k
    · by_cases h : k1 = k
      · simp [mapSet, mapGet, List.lookup, h, hak]
      · have : (k1 == k) = false := by simpa using h
        simp [mapSet, mapGet, List.lookup, h, hak, this]
    · by_cases h : k1 = a
      · have hk : ¬ a = k := hak
        subst h
        simp [mapSet, mapGet, List.lookup, hak]
      · have : (k1 == a) = false := by simpa using h
        simp [mapSet, mapGet, List.lookup, hak, this, ih]

theorem mapGet_mem {m : List (String × node)} {k : String} {n : node}
    (h : mapGet m k = some n) : (k, n) ∈ m := by
  induction m with
  | nil => simp [mapGet, List.lookup] at h
  | cons p m ih =>
    obtain ⟨a, b⟩ := p
    by_cases hka : k = a
    · subst hka
      simp [mapGet, List.lookup] at h
      simp [h]
    · have : (k == a) = false := by simpa using hka
      simp [mapGet, List.lookup, this] at h
      exact List.mem_cons_of_mem _ (ih h)

theorem mapSet_keys {m : List (String × node)} {k : String} {n : node} (v : node)
    (h : mapGet m k = some n) : (mapSet m k v).map Prod.fst = m.map Prod.fst := by
  induction m with
  | nil => simp [mapGet, List.lookup] at h
  | cons p m ih =>
    obtain ⟨a, b⟩ := p
    by_cases hka : a = k
    · simp [mapSet, hka]
    · have : (k == a) = false := by simpa using (fun h : k = a => hka h.symm)
      simp [mapGet, List.lookup, this] at h
      simp [mapSet, hka, ih h]

theorem wellKeyed_mapSet {m : List (String × node)} {k : String} {v : node}
    (hm : wellKeyed m) (hv : v.state.needsEvaluation = true → v.id = k) :
    wellKeyed (mapSet m k v) := by
  induction m with
  | nil =>
    intro p hp
    simp [mapSet] at hp
    subst hp
    exact hv
  | cons q m ih =>
    obtain ⟨a, b⟩ := q
    have hm1 : wellKeyed m := fun p hp => hm p (List.mem_cons_of_mem _ hp)
    intro p hp
    by_cases hak : a = k
    · simp [mapSet, hak] at hp
      rcases hp with hp | hp
      · subst hp; exact hv
      · exact hm1 p hp
    · simp [mapSet, hak] at hp
      rcases hp with hp | hp
      · subst hp; exact hm (a, b) (List.mem_cons_self _ _)
      · exact ih hm1 p hp

theorem wellKeyed_get {m : List (String × node)} {k : String} {n : node}
    (hm : wellKeyed m) (h : mapGet m k = some n) (hn : n.state.needsEvaluation = true) :
    n.id = k :=
  hm (k, n) (mapGet_mem h) hn

theorem selfKeyed_mapSet {m : List (String × node)} {k : String} {v : node}
    (hm : selfKeyed m) (hv : v.id = k) : selfKeyed (mapSet m k v) := by
  induction m with
  | nil =>
    intro p hp
    simp [mapSet] at hp
    subst hp
    exact hv
  | cons q m ih =>
    obtain ⟨a, b⟩ := q
    have hm1 : selfKeyed m := fun p hp => hm p (List.mem_cons_of_mem _ hp)
    intro p hp
    by_cases hak : a = k
    · simp [mapSet, hak] at hp
      rcases hp with hp | hp
      · subst hp; exact hv
      · exact hm1 p hp
    · simp [mapSet, hak] at hp
      rcases hp with hp | hp
      · subst hp; exact hm (a, b) (List.mem_cons_self _ _)
      · exact ih hm1 p hp

theorem selfKeyed_get {m : List (String × node)} {k : String} {n : node}
    (hm : selfKeyed m) (h : mapGet m k = some n) : n.id = k :=
  hm (k, n) (mapGet_mem h)

theorem selfKeyed_wellKeyed {m : List (String × node)} (hm : selfKeyed m) : wellKeyed m :=
  fun p hp _ => hm p hp

/-! ## Settlement -/

theorem checkWaiters_eq (nodes : List (String × node)) (ws filtered : List Event)
    (sent : List (Nat × GoError)) :
    checkWaiters nodes ws filtered sent =
      (filtered ++ ws.filter (fun w => !settled nodes w),
       sent ++ (ws.filter (settled nodes)).map (fun w => (w.channel, verdict nodes w))) := by
  induction ws generalizing filtered sent with
  | nil => simp [checkWaiters]
  | cons w ws ih =>
    unfold checkWaiters
    by_cases h : settled nodes w = true
    · have h2 : (checkTargets nodes w.NodeIds [] true).2 = true := h
      simp [h2, ih, h, verdict, List.filter_cons]
    · have h1 : settled nodes w = false := by simpa using h
      have h2 : (checkTargets nodes w.NodeIds [] true).2 = false := h1
      simp [h2, ih, h1, List.filter_cons]

theorem checkDone_waiting (e : engine) :
    (checkDone e).waiting = e.waiting.filter (fun w => !settled e.nodes w) := by
  simp [checkDone, checkWaiters_eq]

theorem checkDone_sent (e : engine) :
    (checkDone e).sent =
      e.sent ++ (e.waiting.filter (settled e.nodes)).map (fun w => (w.channel, verdict e.nodes w)) := by
  simp [checkDone, checkWaiters_eq]

theorem checkDone_nodes (e : engine) : (checkDone e).nodes = e.nodes := rfl

theorem checkDone_spawned (e : engine) : (checkDone e).spawned = e.spawned := rfl

theorem checkDone_watching (e : engine) : (checkDone e).watching = e.watching := rfl

theorem missingIds_eq_filter (nodes : List (String × node)) (deps : List String) :
    missingIds nodes deps = deps.filter (fun d => (mapGet nodes d).isNone) := by
  induction deps with
  | nil => rfl
  | cons d rest ih =>
    unfold missingIds
    cases h : mapGet nodes d with
    | none => simp [List.filter_cons, h, ih]
    | some n => simp [List.filter_cons, h, ih]

theorem checkTargets_all_done (nodes : List (String × node)) (ids : List String)
    (errors : List GoError) (isDone : Bool)
    (h : ∀ id ∈ ids, ∃ n, mapGet nodes id = some n ∧ n.state = state.done) :
    checkTargets nodes ids errors isDone = (errors, isDone) := by
  induction ids generalizing errors isDone with
  | nil => rfl
  | cons id ids ih =>
    obtain ⟨n, hn, hs⟩ := h id (List.mem_cons_self _ _)
    unfold checkTargets
    simp only [hn, hs]
    exact ih errors isDone (fun i hi => h i (List.mem_cons_of_mem _ hi))

theorem checkTargets_cons (nodes : List (String × node)) (id : String) (ids : List String)
    (errors : List GoError) (isDone : Bool) :
    checkTargets nodes (id :: ids) errors isDone =
      checkTargets nodes ids (errors ++ contribution nodes id) (isDone && settles nodes id) := by
  rw [checkTargets]
  unfold contribution settles
  cases mapGet nodes id with
  | none => simp
  | some n => cases h : n.state <;> simp [h, missingIds_eq_filter]

theorem checkTargets_eq (nodes : List (String × node)) (ids : List String)
    (errors : List GoError) (isDone : Bool) :
    checkTargets nodes ids errors isDone =
      (errors ++ (ids.map (contribution nodes)).flatten,
       isDone && ids.all (settles nodes)) := by
  induction ids generalizing errors isDone with
  | nil => simp [checkTargets]
  | cons id ids ih =>
    rw [checkTargets_cons, ih]
    simp [Bool.and_assoc]

theorem checkTargets_append (nodes : List (String × node)) (pre post : List String)
    (errors : List GoError) (isDone : Bool) :
    checkTargets nodes (pre ++ post) errors isDone =
      checkTargets nodes post (checkTargets nodes pre errors isDone).1
        (checkTargets nodes pre errors isDone).2 := by
  simp [checkTargets_eq, Bool.and_assoc]

theorem mem_filter_settled {nodes : List (String × node)} {ws : List Event} {w : Event}
    (hw : w ∈ ws) (hs : settled nodes w = true) :
    (w.channel, verdict nodes w) ∈
      (ws.filter (settled nodes)).map (fun w => (w.channel, verdict nodes w)) :=
  List.mem_map.mpr ⟨w, List.mem_filter.mpr ⟨hw, hs⟩, rfl⟩

theorem checkDone_replies {e : engine} {w : Event} (hw : w ∈ e.waiting)
    (hs : settled e.nodes w = true) :
    (w.channel, verdict e.nodes w) ∈ (checkDone e).sent.drop e.sent.length ∧
      w ∉ (checkDone e).waiting := by
  constructor
  · rw [checkDone_sent, List.drop_left]
    exact mem_filter_settled hw hs
  · rw [checkDone_waiting]
    intro hmem
    have := (List.mem_filter.mp hmem).2
    simp [hs] at this

/-! ## The walker relation -/

theorem nodeMoved_refl (n : node) : nodeMoved n n :=
  ⟨rfl, rfl, rfl, Or.inl rfl⟩

theorem nodeMoved_keep {n n1 : node} (h : nodeMoved n n1)
    (hn : n.state.needsEvaluation = false) : n1 = n := by
  rcases h with ⟨_, _, _, h | ⟨h, _⟩⟩
  · exact h
  · rw [hn] at h; cases h

theorem nodeMoved_needs {n n1 : node} (h : nodeMoved n n1)
    (hn : n1.state.needsEvaluation = true) : n.state.needsEvaluation = true := by
  rcases h with ⟨_, _, _, h | ⟨h, _⟩⟩
  · rw [← h]; exact hn
  · exact h

theorem nodeMoved_trans {n n1 n2 : node} (h1 : nodeMoved n n1) (h2 : nodeMoved n1 n2) :
    nodeMoved n n2 := by
  obtain ⟨a1, b1, c1, d1⟩ := h1
  obtain ⟨a2, b2, c2, d2⟩ := h2
  refine ⟨a2.trans a1, b2.trans b1, c2.trans c1, ?_⟩
  rcases d2 with d2 | ⟨hne, hs, herr⟩
  · subst d2; exact d1
  · rcases d1 with d1 | ⟨hne1, hs1, herr1⟩
    · subst d1; exact Or.inr ⟨hne, hs, herr⟩
    · refine Or.inr ⟨hne1, hs, fun hb => ?_⟩
      rw [herr hb]
      apply herr1
      intro hbl
      rw [hbl] at hne
      cases hne

theorem Walked.refl (a : engine × List String) : Walked a a where
  keys := rfl
  wk := id
  sk := id
  visited := fun _ h => h
  started := rfl
  watching := rfl
  waiting := rfl
  sent := rfl
  absent := fun _ h => h
  moved := fun _ n h => ⟨n, h, nodeMoved_refl n⟩
  spawned := ⟨[], by simp, by simp, by simp⟩

theorem Walked.trans {a b c : engine × List String} (h1 : Walked a b) (h2 : Walked b c) :
    Walked a c where
  keys := h2.keys.trans h1.keys
  wk := fun h => h2.wk (h1.wk h)
  sk := fun h => h2.sk (h1.sk h)
  visited := fun k h => h2.visited k (h1.visited k h)
  started := h2.started.trans h1.started
  watching := h2.watching.trans h1.watching
  waiting := h2.waiting.trans h1.waiting
  sent := h2.sent.trans h1.sent
  absent := fun k h => h2.absent k (h1.absent k h)
  moved := by
    intro k n h
    obtain ⟨n1, hn1, m1⟩ := h1.moved k n h
    obtain ⟨n2, hn2, m2⟩ := h2.moved k n1 hn1
    exact ⟨n2, hn2, nodeMoved_trans m1 m2⟩
  spawned := by
    obtain ⟨new1, e1, nd1, ok1⟩ := h1.spawned
    obtain ⟨new2, e2, nd2, ok2⟩ := h2.spawned
    refine ⟨new1 ++ new2, by rw [e2, e1, List.append_assoc], ?_, ?_⟩
    · rw [List.map_append, List.nodup_append]
      refine ⟨nd1, nd2, ?_⟩
      intro x hx1 hx2
      obtain ⟨w1, hw1, rfl⟩ := List.mem_map.mp hx1
      obtain ⟨w2, hw2, hid⟩ := List.mem_map.mp hx2
      obtain ⟨_, ⟨m1, hm1, hd1⟩, _⟩ := ok1 w1 hw1
      obtain ⟨⟨m2, hm2, hne2, _⟩, _, _⟩ := ok2 w2 hw2
      have hid2 : w2.node.id = w1.node.id := hid
      rw [hid2, hm1] at hm2
      cases hm2
      rw [hd1] at hne2
      cases hne2
    · intro w hw
      rcases List.mem_append.mp hw with hw | hw
      · obtain ⟨⟨n, hn, hne, hdeps⟩, ⟨m1, hm1, hd1⟩, hseen⟩ := ok1 w hw
        refine ⟨⟨n, hn, hne, hdeps⟩, ?_, ?_⟩
        · obtain ⟨m2, hm2, mv⟩ := h2.moved _ _ hm1
          have := nodeMoved_keep mv (by rw [hd1]; rfl)
          subst this
          exact ⟨m2, hm2, hd1⟩
        · intro d hd
          obtain ⟨m, hm, hdone, hb⟩ := hseen d hd
          obtain ⟨m2, hm2, mv⟩ := h2.moved _ _ hb
          have := nodeMoved_keep mv (by rw [hdone]; rfl)
          subst this
          exact ⟨m2, hm, hdone, hm2⟩
      · obtain ⟨⟨n, hn, hne, hdeps⟩, hdisp, hseen⟩ := ok2 w hw
        refine ⟨?_, hdisp, hseen⟩
        cases hn0 : mapGet a.1.nodes w.node.id with
        | none => rw [h1.absent _ hn0] at hn; cases hn
        | some n0 =>
          obtain ⟨n1, hn1, mv⟩ := h1.moved _ _ hn0
          rw [hn] at hn1
          cases hn1
          exact ⟨n0, rfl, nodeMoved_needs mv hne, mv.2.1.symm.trans hdeps⟩

theorem mapSet_mapSet (m : List (String × node)) (k : String) (a b : node) :
    mapSet (mapSet m k a) k b = mapSet m k b := by
  induction m with
  | nil => simp [mapSet]
  | cons p m ih =>
    obtain ⟨k1, v1⟩ := p
    by_cases h : k1 = k
    · simp [mapSet, h]
    · simp [mapSet, h, ih]

theorem mapIndex_of_get {m : List (String × node)} {k : String} {n : node}
    (h : mapGet m k = some n) : mapIndex m k = n := by
  simp [mapIndex, h]

theorem mapGet_none_of_keys {m m1 : List (String × node)}
    (hk : m1.map Prod.fst = m.map Prod.fst) {k : String} (h : mapGet m k = none) :
    mapGet m1 k = none := by
  induction m generalizing m1 with
  | nil =>
    cases m1 with
    | nil => rfl
    | cons p m1 => simp at hk
  | cons q m ih =>
    cases m1 with
    | nil => simp at hk
    | cons p m1 =>
      obtain ⟨a, b⟩ := p
      obtain ⟨c, d⟩ := q
      simp only [List.map_cons, List.cons.injEq] at hk
      obtain ⟨hac, hrest⟩ := hk
      subst hac
      by_cases hka : k = a
      · subst hka
        simp [mapGet, List.lookup] at h
      · have hb : (k == a) = false := by simpa using hka
        simp only [mapGet, List.lookup, hb] at h ⊢
        exact ih hrest h

theorem Walked.of_visited (e : engine) {v v1 : List String} (h : ∀ k ∈ v, k ∈ v1) :
    Walked (e, v) (e, v1) :=
  { Walked.refl (e, v) with visited := h }

theorem Walked.of_set {e e1 : engine} (v : List String) {k : String} {n0 n1 : node}
    {new : List Worker}
    (hget : mapGet e.nodes k = some n0) (hnodes : e1.nodes = mapSet e.nodes k n1)
    (hmv : nodeMoved n0 n1) (hkey : n1.state.needsEvaluation = true → n1.id = k)
    (hstarted : e1.started = e.started) (hwatching : e1.watching = e.watching)
    (hwaiting : e1.waiting = e.waiting) (hsent : e1.sent = e.sent)
    (hspawn : e1.spawned = e.spawned ++ new)
    (hnd : (new.map (fun w => w.node.id)).Nodup) (hok : ∀ w ∈ new, workerOK e e1 w) :
    Walked (e, v) (e1, v) where
  keys := by
    show e1.nodes.map Prod.fst = e.nodes.map Prod.fst
    rw [hnodes]; exact mapSet_keys n1 hget
  wk := by
    intro h
    show wellKeyed e1.nodes
    rw [hnodes]; exact wellKeyed_mapSet h hkey
  sk := by
    intro h
    show selfKeyed e1.nodes
    rw [hnodes]; exact selfKeyed_mapSet h (hmv.1.trans (selfKeyed_get h hget))
  visited := fun _ h => h
  started := hstarted
  watching := hwatching
  waiting := hwaiting
  sent := hsent
  absent := by
    intro k1 h
    show mapGet e1.nodes k1 = none
    rw [hnodes, mapGet_mapSet]
    by_cases hk : k1 = k
    · subst hk
      rw [hget] at h
      cases h
    · simp [hk]; exact h
  moved := by
    intro k1 n h
    show ∃ n2, mapGet e1.nodes k1 = some n2 ∧ nodeMoved n n2
    rw [hnodes, mapGet_mapSet]
    by_cases hk : k1 = k
    · subst hk
      have h : mapGet e.nodes k1 = some n := h
      rw [hget] at h
      cases h
      exact ⟨n1, by simp, hmv⟩
    · exact ⟨n, by simp [hk]; exact h, nodeMoved_refl n⟩
  spawned := ⟨new, hspawn, hnd, hok⟩

theorem conclude_walked (e : engine) (n : node) (f : Flags) (v : List String)
    (hget : mapGet e.nodes n.id = some n) (hne : n.state.needsEvaluation = true)
    (hf : f.allDone = true → f.missingDep = false ∧ f.isBlocked = false ∧
      ∀ d ∈ n.dependencies, ∃ m, mapGet e.nodes d = some m ∧ m.state = state.done) :
    Walked (e, v) (conclude e n f, v) ∧
      ∀ k, k ≠ n.id → mapGet (conclude e n f).nodes k = mapGet e.nodes k := by
  have hidx : mapIndex e.nodes n.id = n := mapIndex_of_get hget
  cases hall : f.allDone with
  | true =>
    obtain ⟨hm, hb, hdeps⟩ := hf hall
    have hc : conclude e n f = dispatch e n := by simp [conclude, hm, hb, hall]
    rw [hc]
    have hnodes : (dispatch e n).nodes = mapSet e.nodes n.id { n with state := state.dispatched } := by
      simp [dispatch, setState, notify, hidx]
    constructor
    · refine Walked.of_set v hget hnodes ⟨rfl, rfl, rfl, Or.inr ⟨hne, Or.inr (Or.inr rfl), fun _ => rfl⟩⟩
        (fun h => by cases h) rfl rfl rfl rfl
        (show (dispatch e n).spawned = e.spawned ++ [{ node := n, seen := e.nodes }] from rfl)
        (by simp) ?_
      intro w hw
      rw [List.mem_singleton] at hw
      subst hw
      refine ⟨⟨n, hget, hne, rfl⟩,
        ⟨{ n with state := state.dispatched }, by rw [hnodes, mapGet_mapSet]; simp, rfl⟩, ?_⟩
      intro d hd
      obtain ⟨m, hm1, hm2⟩ := hdeps d hd
      refine ⟨m, hm1, hm2, ?_⟩
      rw [hnodes, mapGet_mapSet]
      have hdn : d ≠ n.id := by
        intro h
        rw [h, hget] at hm1
        cases hm1
        rw [hm2] at hne
        cases hne
      simp [hdn, hm1]
    · intro k hk
      rw [hnodes, mapGet_mapSet]
      simp [hk]
  | false =>
    cases hmiss : f.missingDep with
    | true =>
      have hc : conclude e n f = setState e n.id state.missingDependency := by
        simp [conclude, hmiss, hall]
      rw [hc]
      have hnodes : (setState e n.id state.missingDependency).nodes =
          mapSet e.nodes n.id { n with state := state.missingDependency } := by
        simp [setState, notify, hidx]
      constructor
      · exact Walked.of_set v hget hnodes
          ⟨rfl, rfl, rfl, Or.inr ⟨hne, Or.inl rfl, fun _ => rfl⟩⟩
          (fun _ => rfl) rfl rfl rfl rfl
          (show _ = e.spawned ++ [] by simp [setState, notify]) (by simp) (by simp)
      · intro k hk
        rw [hnodes, mapGet_mapSet]
        simp [hk]
    | false =>
      cases hblk : f.isBlocked with
      | true =>
        have hc : conclude e n f =
            setError (setState e n.id state.blocked) n.id (composeError f.blockingErrors) := by
          simp [conclude, hmiss, hall, hblk]
        rw [hc]
        have hnodes : (setError (setState e n.id state.blocked) n.id
              (composeError f.blockingErrors)).nodes =
            mapSet e.nodes n.id
              { n with state := state.blocked, err := composeError f.blockingErrors } := by
          simp [setError, setState, notify, mapSet_mapSet, mapIndex, mapGet_mapSet, hget]
        constructor
        · exact Walked.of_set v hget hnodes
            ⟨rfl, rfl, rfl, Or.inr ⟨hne, Or.inr (Or.inl rfl), fun h => absurd rfl h⟩⟩
            (fun h => by cases h) rfl rfl rfl rfl
            (show _ = e.spawned ++ [] by simp [setError, setState, notify]) (by simp) (by simp)
        · intro k hk
          rw [hnodes, mapGet_mapSet]
          simp [hk]
      | false =>
        have hc : conclude e n f = e := by simp [conclude, hmiss, hall, hblk]
        rw [hc]
        exact ⟨Walked.refl _, fun _ _ => rfl⟩

/-! ## The walker satisfies its contract -/

theorem Flags.observe_allDone {f : Flags} {m : node} (h : (f.observe m).allDone = true) :
    m.state = state.done ∧ f.observe m = f := by
  unfold Flags.observe at h ⊢
  by_cases hd : m.state = state.done
  · simp [hd, state.blocking]
  · simp [hd] at h

theorem foldFlags_allDone (m : List (String × node)) (deps : List String) (f : Flags)
    (h : (foldFlags m deps f).allDone = true) :
    foldFlags m deps f = f ∧
      ∀ d ∈ deps, ∃ p, mapGet m d = some p ∧ p.state = state.done := by
  induction deps generalizing f with
  | nil => exact ⟨rfl, by simp⟩
  | cons d ds ih =>
    rw [foldFlags] at h ⊢
    cases hget : mapGet m d with
    | none =>
      simp only [hget] at h
      have := (ih _ h).1
      rw [this] at h
      simp [Flags.absent] at h
    | some p =>
      simp only [hget] at h ⊢
      obtain ⟨h1, h2⟩ := ih _ h
      rw [h1] at h
      obtain ⟨hd, hobs⟩ := Flags.observe_allDone h
      refine ⟨h1.trans hobs, ?_⟩
      intro x hx
      rcases List.mem_cons.mp hx with rfl | hx
      · exact ⟨p, hget, hd⟩
      · exact h2 x hx

theorem scanDeps_spec (recur : node → engine × List String → Option (engine × List String))
    (hrec : ∀ m st st1, wellKeyed st.1.nodes → (∃ k, mapGet st.1.nodes k = some m) →
      recur m st = some st1 → Called m st st1)
    (deps : List String) (st : engine × List String) (f : Flags)
    (st1 : engine × List String) (f1 : Flags) (hwk : wellKeyed st.1.nodes)
    (h : scanDeps recur deps st f = some (st1, f1)) : Scanned deps st st1 f f1 := by
  induction deps generalizing st f with
  | nil =>
    simp only [scanDeps, Option.some.injEq, Prod.mk.injEq] at h
    obtain ⟨rfl, rfl⟩ := h
    exact ⟨Walked.refl _, fun _ _ => rfl, rfl⟩
  | cons depId rest ih =>
    rw [scanDeps] at h
    cases hget : mapGet st.1.nodes depId with
    | none =>
      simp only [hget] at h
      have s := ih st f.absent hwk h
      refine ⟨s.walked, s.kept, ?_⟩
      rw [foldFlags, s.walked.absent _ hget]
      exact s.flags
    | some depNode =>
      simp only [hget] at h
      by_cases hv : depId ∈ st.2
      · simp only [hv, if_true] at h
        have s := ih st (f.observe depNode) hwk h
        refine ⟨s.walked, s.kept, ?_⟩
        rw [foldFlags, s.kept _ hv, hget]
        exact s.flags
      · simp only [hv, if_false] at h
        cases hr : recur depNode st with
        | none => simp [hr] at h
        | some st2 =>
          simp only [hr] at h
          have c := hrec depNode st st2 hwk ⟨depId, hget⟩ hr
          have s := ih st2 _ (c.walked.wk hwk) h
          obtain ⟨n1, hn1, mv1⟩ := c.walked.moved _ _ hget
          have hfinal : mapGet st1.1.nodes depId = some n1 := by
            by_cases hne : depNode.state.needsEvaluation = true
            · have hid := wellKeyed_get hwk hget hne
              have hm := c.marked
              rw [hid] at hm
              rw [s.kept _ hm]
              exact hn1
            · have hne0 : depNode.state.needsEvaluation = false := by simpa using hne
              have := nodeMoved_keep mv1 hne0
              subst this
              obtain ⟨n2, hn2, mv2⟩ := s.walked.moved _ _ hn1
              have := nodeMoved_keep mv2 hne0
              subst this
              exact hn2
          refine ⟨c.walked.trans s.walked, ?_, ?_⟩
          · intro k hk
            rw [s.kept k (c.walked.visited k hk)]
            by_cases hne : depNode.state.needsEvaluation = true
            · have hid := wellKeyed_get hwk hget hne
              apply c.kept k hk
              intro hkd
              rw [hkd, hid] at hk
              exact hv hk
            · have := c.idle (by simpa using hne)
              rw [this]
          · rw [foldFlags, hfinal]
            have := s.flags
            rw [mapIndex_of_get hn1] at this
            exact this

theorem walkChildren_spec (fuel : Nat) (n : node) (st st1 : engine × List String)
    (hwk : wellKeyed st.1.nodes) (hn : ∃ k, mapGet st.1.nodes k = some n)
    (h : walkChildren fuel n st = some st1) : Called n st st1 := by
  induction fuel generalizing n st st1 with
  | zero => simp [walkChildren] at h
  | succ fuel ih =>
    rw [walkChildren] at h
    by_cases hne : n.state.needsEvaluation = false
    · simp only [hne, if_true, Option.some.injEq] at h
      subst h
      exact ⟨Walked.of_visited _ (fun k hk => List.mem_cons_of_mem _ hk), fun _ => rfl,
        fun _ _ _ => rfl, List.mem_cons_self _ _⟩
    · have hne1 : n.state.needsEvaluation = true := by simpa using hne
      simp only [hne1, Bool.true_eq_false, if_false] at h
      obtain ⟨k, hk⟩ := hn
      have hid := wellKeyed_get hwk hk hne1
      subst hid
      cases hs : scanDeps (walkChildren fuel) n.dependencies (st.1, n.id :: st.2) Flags.init with
      | none => simp [hs] at h
      | some r =>
        obtain ⟨st2, f⟩ := r
        simp only [hs, Option.some.injEq] at h
        subst h
        have s := scanDeps_spec (walkChildren fuel) (fun m a b h1 h2 h3 => ih m a b h1 h2 h3)
          n.dependencies (st.1, n.id :: st.2) Flags.init st2 f hwk hs
        have hget2 : mapGet st2.1.nodes n.id = some n := by
          rw [s.kept n.id (List.mem_cons_self _ _)]
          exact hk
        have hc := conclude_walked st2.1 n f st2.2 hget2 hne1 (fun hall => by
          rw [s.flags] at hall
          obtain ⟨b1, b2⟩ := foldFlags_allDone _ _ _ hall
          rw [s.flags, b1]
          exact ⟨rfl, rfl, b2⟩)
        have w0 : Walked st (st.1, n.id :: st.2) :=
          Walked.of_visited _ (fun k hk => List.mem_cons_of_mem _ hk)
        refine ⟨w0.trans (s.walked.trans hc.1), fun h0 => absurd h0 hne, ?_, ?_⟩
        · intro k1 hk1 hkn
          show mapGet (conclude st2.1 n f).nodes k1 = _
          rw [hc.2 k1 hkn]
          exact s.kept k1 (List.mem_cons_of_mem _ hk1)
        · exact s.walked.visited _ (List.mem_cons_self _ _)

/-- What a call of `walkChildren` on a node that needs evaluation amounts to: the loop over
the dependencies, then the decision taken on the accumulators read off the map the loop
ends with. -/
theorem walkChildren_shape (fuel : Nat) (n : node) (st st1 : engine × List String)
    (hwk : wellKeyed st.1.nodes) (hk : mapGet st.1.nodes n.id = some n)
    (hne : n.state.needsEvaluation = true) (h : walkChildren fuel n st = some st1) :
    ∃ st2, Scanned n.dependencies (st.1, n.id :: st.2) st2 Flags.init
        (foldFlags st2.1.nodes n.dependencies Flags.init) ∧
      mapGet st2.1.nodes n.id = some n ∧
      st1 = (conclude st2.1 n (foldFlags st2.1.nodes n.dependencies Flags.init), st2.2) := by
  cases fuel with
  | zero => simp [walkChildren] at h
  | succ fuel =>
    rw [walkChildren] at h
    simp only [hne, Bool.true_eq_false, if_false] at h
    cases hs : scanDeps (walkChildren fuel) n.dependencies (st.1, n.id :: st.2) Flags.init with
    | none => simp [hs] at h
    | some r =>
      obtain ⟨st2, f⟩ := r
      simp only [hs, Option.some.injEq] at h
      have s := scanDeps_spec (walkChildren fuel)
        (fun m a b h1 h2 h3 => walkChildren_spec fuel m a b h1 h2 h3)
        n.dependencies (st.1, n.id :: st.2) Flags.init st2 f hwk hs
      have hf := s.flags
      subst hf
      refine ⟨st2, s, ?_, h.symm⟩
      rw [s.kept n.id (List.mem_cons_self _ _)]
      exact hk

/-! ## The walker terminates -/

theorem unvisited_le_length (m : List (String × node)) (v : List String) :
    unvisited m v ≤ m.length := by
  unfold unvisited
  calc _ ≤ (m.map Prod.fst).length := List.length_filter_le _ _
    _ = m.length := List.length_map _ _

theorem unvisited_mono {m m1 : List (String × node)} {v v1 : List String}
    (hk : m1.map Prod.fst = m.map Prod.fst) (hv : ∀ k ∈ v, k ∈ v1) :
    unvisited m1 v1 ≤ unvisited m v := by
  unfold unvisited
  rw [hk]
  apply List.Sublist.length_le
  apply List.monotone_filter_right
  intro k hk1
  simp only [decide_eq_true_eq] at hk1 ⊢
  exact fun h => hk1 (hv k h)

theorem mem_keys_of_get {m : List (String × node)} {k : String} {n : node}
    (h : mapGet m k = some n) : k ∈ m.map Prod.fst :=
  List.mem_map.mpr ⟨(k, n), mapGet_mem h, rfl⟩

theorem filter_length_lt_of_mem (l : List String) (v : List String) (k : String)
    (hk : k ∈ l) (hv : k ∉ v) :
    (l.filter (fun x => decide (x ∉ k :: v))).length <
      (l.filter (fun x => decide (x ∉ v))).length := by
  induction l with
  | nil => simp at hk
  | cons a l ih =>
    have hle : (l.filter (fun x => decide (x ∉ k :: v))).length ≤
        (l.filter (fun x => decide (x ∉ v))).length := by
      apply List.Sublist.length_le
      apply List.monotone_filter_right
      intro x hx
      simp only [decide_eq_true_eq, List.mem_cons, not_or] at hx ⊢
      exact hx.2
    by_cases hak : a = k
    · subst hak
      rw [List.filter_cons_of_neg (by simp), List.filter_cons_of_pos (by simpa using hv),
        List.length_cons]
      exact Nat.lt_succ_of_le hle
    · rcases List.mem_cons.mp hk with h | h
      · exact absurd h.symm hak
      · have := ih h
        by_cases hav : a ∈ v
        · rw [List.filter_cons_of_neg (by simp [hav]), List.filter_cons_of_neg (by simp [hav])]
          exact this
        · rw [List.filter_cons_of_pos (by simp [hav, hak]),
            List.filter_cons_of_pos (by simp [hav]), List.length_cons, List.length_cons]
          exact Nat.succ_lt_succ this

theorem unvisited_lt {m : List (String × node)} {v : List String} {k : String} {n : node}
    (hk : mapGet m k = some n) (hv : k ∉ v) : unvisited m (k :: v) < unvisited m v :=
  filter_length_lt_of_mem _ v k (mem_keys_of_get hk) hv

theorem scanDeps_terminates (fuel : Nat)
    (ih : ∀ (n : node) (st : engine × List String), wellKeyed st.1.nodes →
      (∃ k, mapGet st.1.nodes k = some n) → 0 < fuel →
      (n.state.needsEvaluation = true → unvisited st.1.nodes (n.id :: st.2) < fuel) →
      ∃ st1, walkChildren fuel n st = some st1)
    (deps : List String) (st : engine × List String) (f : Flags)
    (hwk : wellKeyed st.1.nodes) (hfuel : unvisited st.1.nodes st.2 ≤ fuel) :
    ∃ r, scanDeps (walkChildren fuel) deps st f = some r := by
  induction deps generalizing st f with
  | nil => exact ⟨_, rfl⟩
  | cons depId rest ihd =>
    rw [scanDeps]
    cases hget : mapGet st.1.nodes depId with
    | none => exact ihd st _ hwk hfuel
    | some depNode =>
      by_cases hv : depId ∈ st.2
      · simp only [hv, if_true]
        exact ihd st _ hwk hfuel
      · simp only [hv, if_false]
        have hlt := unvisited_lt hget hv
        obtain ⟨st2, h2⟩ := ih depNode st hwk ⟨depId, hget⟩ (by omega) (fun hne => by
          rw [wellKeyed_get hwk hget hne]
          omega)
        simp only [h2]
        have c := walkChildren_spec fuel depNode st st2 hwk ⟨depId, hget⟩ h2
        exact ihd st2 _ (c.walked.wk hwk)
          (le_trans (unvisited_mono c.walked.keys c.walked.visited) hfuel)

theorem walkChildren_terminates (fuel : Nat) (n : node) (st : engine × List String)
    (hwk : wellKeyed st.1.nodes) (hn : ∃ k, mapGet st.1.nodes k = some n) (hfuel : 0 < fuel)
    (hcount : n.state.needsEvaluation = true → unvisited st.1.nodes (n.id :: st.2) < fuel) :
    ∃ st1, walkChildren fuel n st = some st1 := by
  induction fuel generalizing n st with
  | zero => omega
  | succ fuel ih =>
    rw [walkChildren]
    by_cases hne : n.state.needsEvaluation = false
    · simp [hne]
    · have hne1 : n.state.needsEvaluation = true := by simpa using hne
      simp only [hne1, Bool.true_eq_false, if_false]
      have hc := hcount hne1
      obtain ⟨r, hr⟩ := scanDeps_terminates fuel (fun m a h1 h2 h3 h4 => ih m a h1 h2 h3 h4)
        n.dependencies (st.1, n.id :: st.2) Flags.init hwk (by
          show unvisited st.1.nodes (n.id :: st.2) ≤ fuel
          omega)
      simp [hr]

theorem walkFrom_spec (fuel : Nat) (ids : List String) (st st1 : engine × List String)
    (hwk : wellKeyed st.1.nodes) (h : walkFrom fuel ids st = some st1) : Walked st st1 := by
  induction ids generalizing st with
  | nil =>
    simp only [walkFrom, Option.some.injEq] at h
    subst h
    exact Walked.refl _
  | cons id ids ih =>
    rw [walkFrom] at h
    cases hget : mapGet st.1.nodes id with
    | none =>
      simp only [hget] at h
      exact ih st hwk h
    | some n =>
      simp only [hget] at h
      cases hw : walkChildren fuel n st with
      | none => simp [hw] at h
      | some st2 =>
        simp only [hw] at h
        have c := walkChildren_spec fuel n st st2 hwk ⟨id, hget⟩ hw
        exact c.walked.trans (ih st2 (c.walked.wk hwk) h)

theorem walkFrom_terminates (fuel : Nat) (ids : List String) (st : engine × List String)
    (hwk : wellKeyed st.1.nodes) (hfuel : st.1.nodes.length < fuel) :
    ∃ st1, walkFrom fuel ids st = some st1 := by
  induction ids generalizing st with
  | nil => exact ⟨_, rfl⟩
  | cons id ids ih =>
    rw [walkFrom]
    cases hget : mapGet st.1.nodes id with
    | none => exact ih st hwk hfuel
    | some n =>
      obtain ⟨st2, h2⟩ := walkChildren_terminates fuel n st hwk ⟨id, hget⟩ (by omega)
        (fun _ => lt_of_le_of_lt (unvisited_le_length _ _) hfuel)
      simp only [h2]
      have c := walkChildren_spec fuel n st st2 hwk ⟨id, hget⟩ h2
      apply ih st2 (c.walked.wk hwk)
      have : st2.1.nodes.length = st.1.nodes.length := by
        have := congrArg List.length c.walked.keys
        simpa using this
      omega

theorem walk_terminates (e : engine) (order : List String) (hwk : wellKeyed e.nodes) :
    ∃ e1, walk e order = some e1 := by
  obtain ⟨st1, h⟩ := walkFrom_terminates (e.nodes.length + 1) order (e, []) hwk
    (Nat.lt_succ_self _)
  exact ⟨st1.1, by simp [walk, h]⟩

theorem walk_spec (e e1 : engine) (order : List String) (hwk : wellKeyed e.nodes)
    (h : walk e order = some e1) : ∃ v, Walked (e, []) (e1, v) := by
  unfold walk at h
  cases hw : walkFrom (e.nodes.length + 1) order (e, []) with
  | none => simp [hw] at h
  | some st1 =>
    simp only [hw, Option.map_some', Option.some.injEq] at h
    subst h
    exact ⟨st1.2, walkFrom_spec _ order (e, []) st1 hwk hw⟩

/-! ## Events -/

theorem setState_nodes (e : engine) (id : String) (s : state) :
    (setState e id s).nodes = mapSet e.nodes id { mapIndex e.nodes id with state := s } := rfl

theorem setError_setState_nodes (e : engine) (id : String) (s : state) (err : GoError) :
    (setError (setState e id s) id err).nodes =
      mapSet e.nodes id { mapIndex e.nodes id with state := s, err := err } := by
  simp [setError, setState, notify, mapSet_mapSet, mapIndex, mapGet_mapSet]

theorem applyEvent_wellKeyed (e : engine) (ev : Event) (hwk : wellKeyed e.nodes) :
    wellKeyed (applyEvent e ev).nodes := by
  unfold applyEvent
  cases ev.Typ with
  | Submit => exact wellKeyed_mapSet hwk (fun _ => rfl)
  | Close => exact hwk
  | Execute => exact hwk
  | Wait => exact hwk
  | StateChange => exact hwk
  | TaskStart => exact wellKeyed_mapSet hwk (fun h => by cases h)
  | TaskExit =>
    by_cases herr : ev.Err = GoError.nil
    · simp only [herr, if_true]
      exact wellKeyed_mapSet hwk (fun h => by cases h)
    · simp only [herr, if_false]
      rw [setError_setState_nodes]
      exact wellKeyed_mapSet hwk (fun h => by cases h)

theorem applyEvent_get (e : engine) (ev : Event) (k : String) (h : ¬ ev.writes k) :
    mapGet (applyEvent e ev).nodes k = mapGet e.nodes k := by
  unfold Event.writes at h
  unfold applyEvent
  cases ht : ev.Typ with
  | Submit =>
    have hk : ¬ k = ev.node.id := fun hk => h (Or.inl ⟨ht, hk.symm⟩)
    show mapGet (mapSet _ _ _) k = _
    rw [mapGet_mapSet, if_neg hk]
  | Close => rfl
  | Execute => rfl
  | Wait => rfl
  | StateChange => rfl
  | TaskStart =>
    have hk : ¬ k = ev.NodeId := fun hk => h (Or.inr (Or.inl ⟨ht, hk.symm⟩))
    show mapGet (mapSet _ _ _) k = _
    rw [mapGet_mapSet, if_neg hk]
  | TaskExit =>
    have : ¬ ev.NodeId = k := fun hk => h (Or.inr (Or.inr ⟨ht, hk⟩))
    have hk : ¬ k = ev.NodeId := fun hk => this hk.symm
    by_cases herr : ev.Err = GoError.nil
    · simp only [herr, if_true]
      show mapGet (mapSet _ _ _) k = _
      rw [mapGet_mapSet, if_neg hk]
    · simp only [herr, if_false]
      rw [setError_setState_nodes, mapGet_mapSet, if_neg hk]

theorem applyEvent_spawned (e : engine) (ev : Event) :
    (applyEvent e ev).spawned = e.spawned := by
  unfold applyEvent
  cases ev.Typ <;> try rfl
  by_cases herr : ev.Err = GoError.nil
  · simp only [herr, if_true]; rfl
  · simp only [herr, if_false]; rfl

theorem loopStep_eq (e : engine) (ev : Event) (order : List String)
    (hwk : wellKeyed e.nodes) (hc : ev.Typ ≠ EventType.Close) :
    ∃ e1 v, walk (applyEvent e ev) order = some e1 ∧
      Walked (applyEvent e ev, []) (e1, v) ∧
      loopStep e ev order = some (notify (checkDone e1) ev) := by
  have hwk1 := applyEvent_wellKeyed e ev hwk
  obtain ⟨e1, h1⟩ := walk_terminates (applyEvent e ev) order hwk1
  obtain ⟨v, hv⟩ := walk_spec _ _ order hwk1 h1
  exact ⟨e1, v, h1, hv, by simp [loopStep, hc, h1]⟩

theorem loopStep_wellKeyed (e e1 : engine) (ev : Event) (order : List String)
    (hwk : wellKeyed e.nodes) (h : loopStep e ev order = some e1) : wellKeyed e1.nodes := by
  by_cases hc : ev.Typ = EventType.Close
  · simp only [loopStep, hc, if_true, Option.some.injEq] at h
    subst h
    exact hwk
  · obtain ⟨e2, v, _, hw, h2⟩ := loopStep_eq e ev order hwk hc
    rw [h2] at h
    cases h
    exact hw.wk (applyEvent_wellKeyed e ev hwk)

theorem applyEvent_dispatchedOnce (e : engine) (ev : Event) (hinv : dispatchedOnce e)
    (hadm : Admissible e ev) (hfirst : firstSubmit e ev) : dispatchedOnce (applyEvent e ev) := by
  obtain ⟨hwk, hnd, hrec⟩ := hinv
  refine ⟨applyEvent_wellKeyed e ev hwk, ?_, ?_⟩
  · show ((applyEvent e ev).spawned.map _).Nodup
    rw [applyEvent_spawned]; exact hnd
  · rw [applyEvent_spawned]
    intro w hw
    obtain ⟨n, hn, hne⟩ := hrec w hw
    by_cases hwr : ev.writes w.node.id
    · cases hadm with
      | submit id task deps =>
        have h0 := hfirst rfl
        rcases hwr with ⟨_, h⟩ | ⟨h, _⟩ | ⟨h, _⟩
        · rw [h, hn] at h0; cases h0
        · cases h
        · cases h
      | execute ids => rcases hwr with ⟨h, _⟩ | ⟨h, _⟩ | ⟨h, _⟩ <;> cases h
      | wait ids c => rcases hwr with ⟨h, _⟩ | ⟨h, _⟩ | ⟨h, _⟩ <;> cases h
      | taskStart id hid =>
        rcases hwr with ⟨h, _⟩ | ⟨_, h⟩ | ⟨h, _⟩
        · cases h
        · have h1 : id = w.node.id := h
          subst h1
          refine ⟨{ mapIndex e.nodes w.node.id with state := state.running }, ?_, rfl⟩
          show mapGet (setState e w.node.id state.running).nodes w.node.id = _
          rw [setState_nodes, mapGet_mapSet, if_pos rfl]
        · cases h
      | taskExit id err hid =>
        rcases hwr with ⟨h, _⟩ | ⟨h, _⟩ | ⟨_, h⟩
        · cases h
        · cases h
        · have h1 : id = w.node.id := h
          subst h1
          by_cases herr : err = GoError.nil
          · refine ⟨{ mapIndex e.nodes w.node.id with state := state.done }, ?_, rfl⟩
            show mapGet (applyEvent e (TaskExit w.node.id err)).nodes w.node.id = _
            simp only [applyEvent, TaskExit, herr, if_true]
            rw [setState_nodes, mapGet_mapSet, if_pos rfl]
          · refine ⟨{ mapIndex e.nodes w.node.id with state := state.errored, err := err },
              ?_, rfl⟩
            show mapGet (applyEvent e (TaskExit w.node.id err)).nodes w.node.id = _
            simp only [applyEvent, TaskExit, herr, if_false]
            rw [setError_setState_nodes, mapGet_mapSet, if_pos rfl]
    · exact ⟨n, by rw [applyEvent_get e ev _ hwr]; exact hn, hne⟩

theorem Walked.keeps_dispatchedOnce {a b : engine × List String} (h : Walked a b)
    (hinv : dispatchedOnce a.1) : dispatchedOnce b.1 := by
  obtain ⟨hwk, hnd, hrec⟩ := hinv
  obtain ⟨new, hnew, hnn, hok⟩ := h.spawned
  refine ⟨h.wk hwk, ?_, ?_⟩
  · unfold engine.dispatchedIds at hnd ⊢
    rw [hnew, List.map_append, List.nodup_append]
    refine ⟨hnd, hnn, ?_⟩
    intro x hx1 hx2
    obtain ⟨w1, hw1, rfl⟩ := List.mem_map.mp hx1
    obtain ⟨w2, hw2, hid⟩ := List.mem_map.mp hx2
    obtain ⟨n1, hn1, hne1⟩ := hrec w1 hw1
    obtain ⟨⟨n2, hn2, hne2, _⟩, _, _⟩ := hok w2 hw2
    have hid2 : w2.node.id = w1.node.id := hid
    rw [hid2, hn1] at hn2
    cases hn2
    rw [hne1] at hne2
    cases hne2
  · intro w hw
    rw [hnew] at hw
    rcases List.mem_append.mp hw with hw | hw
    · obtain ⟨n, hn, hne⟩ := hrec w hw
      obtain ⟨n1, hn1, mv⟩ := h.moved _ _ hn
      have := nodeMoved_keep mv hne
      subst this
      exact ⟨n1, hn1, hne⟩
    · obtain ⟨_, ⟨n1, hn1, hd⟩, _⟩ := hok w hw
      exact ⟨n1, hn1, by rw [hd]; rfl⟩

theorem loopStep_dispatchedOnce (e e1 : engine) (ev : Event) (order : List String)
    (hinv : dispatchedOnce e) (hadm : Admissible e ev) (hfirst : firstSubmit e ev)
    (h : loopStep e ev order = some e1) : dispatchedOnce e1 := by
  have hc : ev.Typ ≠ EventType.Close := by
    cases hadm <;> simp [Submit, Execute, Wait, TaskStart, TaskExit]
  obtain ⟨e2, v, _, hw, h2⟩ := loopStep_eq e ev order hinv.1 hc
  rw [h2] at h
  cases h
  exact Walked.keeps_dispatchedOnce hw (applyEvent_dispatchedOnce e ev hinv hadm hfirst)

theorem Reaches.stays_dispatchedOnce {e0 e : engine} (h : Reaches firstSubmit e0 e)
    (hinv : Reactor.dispatchedOnce e0) : Reactor.dispatchedOnce e := by
  induction h with
  | refl => exact hinv
  | step _ hadm hok _ hstep ih => exact loopStep_dispatchedOnce _ _ _ _ ih hadm hok hstep

theorem loop_wellKeyed (evs : List (Event × List String)) (e e1 : engine)
    (hwk : wellKeyed e.nodes) (h : loop e evs = some e1) : wellKeyed e1.nodes := by
  induction evs generalizing e with
  | nil =>
    simp only [loop, Option.some.injEq] at h
    subst h
    exact hwk
  | cons p evs ih =>
    obtain ⟨ev, order⟩ := p
    rw [loop] at h
    by_cases hc : ev.Typ = EventType.Close
    · simp only [hc, if_true, Option.some.injEq] at h
      subst h
      exact hwk
    · simp only [hc, if_false] at h
      cases hs : loopStep e ev order with
      | none => simp [hs] at h
      | some e2 =>
        simp only [hs] at h
        exact ih e2 (loopStep_wellKeyed e e2 ev order hwk hs) h

theorem applyEvent_wellFormed (e : engine) (ev : Event) (hwf : wellFormed e)
    (hadm : Admissible e ev) : wellFormed (applyEvent e ev) := by
  obtain ⟨hsk, hpres⟩ := hwf
  have hset : ∀ (id : String) (v : node), v.id = id →
      (selfKeyed (mapSet e.nodes id v) ∧
        ∀ x ∈ e.dispatchedIds, ∃ n, mapGet (mapSet e.nodes id v) x = some n) := by
    intro id v hv
    refine ⟨selfKeyed_mapSet hsk hv, fun x hx => ?_⟩
    obtain ⟨n, hn⟩ := hpres x hx
    rw [mapGet_mapSet]
    by_cases hxi : x = id
    · exact ⟨v, by simp [hxi]⟩
    · exact ⟨n, by simp [hxi, hn]⟩
  have hsp : (applyEvent e ev).dispatchedIds = e.dispatchedIds := by
    unfold engine.dispatchedIds
    rw [applyEvent_spawned]
  unfold wellFormed
  rw [hsp]
  cases hadm with
  | submit id task deps => exact hset id _ rfl
  | execute ids => exact ⟨hsk, hpres⟩
  | wait ids c => exact ⟨hsk, hpres⟩
  | taskStart id hid =>
    obtain ⟨n, hn⟩ := hpres id hid
    have hid0 : n.id = id := selfKeyed_get hsk hn
    have := hset id { n with state := state.running } hid0
    show selfKeyed (setState e id state.running).nodes ∧
      ∀ x ∈ e.dispatchedIds, ∃ n, mapGet (setState e id state.running).nodes x = some n
    rw [setState_nodes, mapIndex_of_get hn]
    exact this
  | taskExit id err hid =>
    obtain ⟨n, hn⟩ := hpres id hid
    have hid0 : n.id = id := selfKeyed_get hsk hn
    by_cases herr : err = GoError.nil
    · have := hset id { n with state := state.done } hid0
      show selfKeyed (applyEvent e (TaskExit id err)).nodes ∧
        ∀ x ∈ e.dispatchedIds, ∃ n, mapGet (applyEvent e (TaskExit id err)).nodes x = some n
      simp only [applyEvent, TaskExit, herr, if_true]
      rw [setState_nodes, mapIndex_of_get hn]
      exact this
    · have := hset id { n with state := state.errored, err := err } hid0
      show selfKeyed (applyEvent e (TaskExit id err)).nodes ∧
        ∀ x ∈ e.dispatchedIds, ∃ n, mapGet (applyEvent e (TaskExit id err)).nodes x = some n
      simp only [applyEvent, TaskExit, herr, if_false]
      rw [setError_setState_nodes, mapIndex_of_get hn]
      exact this

theorem Walked.keeps_wellFormed {a b : engine × List String} (h : Walked a b)
    (hwf : Reactor.wellFormed a.1) : Reactor.wellFormed b.1 := by
  obtain ⟨hsk, hpres⟩ := hwf
  refine ⟨h.sk hsk, ?_⟩
  obtain ⟨new, hnew, _, hok⟩ := h.spawned
  intro id hid
  unfold engine.dispatchedIds at hid
  rw [hnew, List.map_append, List.mem_append] at hid
  rcases hid with hid | hid
  · obtain ⟨n, hn⟩ := hpres id hid
    obtain ⟨n1, hn1, _⟩ := h.moved _ _ hn
    exact ⟨n1, hn1⟩
  · obtain ⟨w, hw, rfl⟩ := List.mem_map.mp hid
    obtain ⟨_, ⟨n1, hn1, _⟩, _⟩ := hok w hw
    exact ⟨n1, hn1⟩

theorem Reaches.stays_wellFormed {ok : engine → Event → Prop} {e0 e : engine}
    (h : Reaches ok e0 e) (hwf : Reactor.wellFormed e0) : Reactor.wellFormed e := by
  induction h with
  | refl => exact hwf
  | @step e e1 ev order _ hadm _ _ hstep ih =>
    have hc : ev.Typ ≠ EventType.Close := by
      cases hadm <;> simp [Submit, Execute, Wait, TaskStart, TaskExit]
    obtain ⟨e2, v, _, hw, h2⟩ := loopStep_eq e ev order (selfKeyed_wellKeyed ih.1) hc
    rw [h2] at hstep
    cases hstep
    exact hw.keeps_wellFormed (applyEvent_wellFormed e ev ih hadm)

theorem Reaches.selfKeyed_of_fresh {ok : engine → Event → Prop} {e : engine}
    (h : Reaches ok NewDefault e) : selfKeyed e.nodes :=
  (h.stays_wellFormed ⟨by decide, by intro id hid; cases hid⟩).1

/-! ## An invariant rule for the walker -/

theorem scanDeps_rule (I : engine × List String → Prop) (R H : String → Prop)
    (hdeps : ∀ st key m d, wellKeyed st.1.nodes → I st → mapGet st.1.nodes key = some m →
      R key → ¬ H key → d ∈ m.dependencies → R d)
    (fuel : Nat)
    (ih : ∀ st st1 key m, wellKeyed st.1.nodes → I st → mapGet st.1.nodes key = some m →
      R key → walkChildren fuel m st = some st1 → I st1)
    (n : node) (hR : R n.id) (hH : ¬ H n.id)
    (deps : List String) (hsub : ∀ d ∈ deps, d ∈ n.dependencies)
    (st : engine × List String) (f : Flags) (st1 : engine × List String) (f1 : Flags)
    (hwk : wellKeyed st.1.nodes) (hI : I st) (hn : mapGet st.1.nodes n.id = some n)
    (hvis : n.id ∈ st.2)
    (h : scanDeps (walkChildren fuel) deps st f = some (st1, f1)) : I st1 := by
  induction deps generalizing st f with
  | nil =>
    simp only [scanDeps, Option.some.injEq, Prod.mk.injEq] at h
    obtain ⟨rfl, rfl⟩ := h
    exact hI
  | cons depId rest ihd =>
    have hsub1 : ∀ d ∈ rest, d ∈ n.dependencies := fun d hd => hsub d (List.mem_cons_of_mem _ hd)
    rw [scanDeps] at h
    cases hget : mapGet st.1.nodes depId with
    | none =>
      simp only [hget] at h
      exact ihd hsub1 st _ hwk hI hn hvis h
    | some depNode =>
      simp only [hget] at h
      by_cases hv : depId ∈ st.2
      · simp only [hv, if_true] at h
        exact ihd hsub1 st _ hwk hI hn hvis h
      · simp only [hv, if_false] at h
        cases hr : walkChildren fuel depNode st with
        | none => simp [hr] at h
        | some st2 =>
          simp only [hr] at h
          have hRd : R depId := hdeps st n.id n depId hwk hI hn hR hH (hsub _ (List.mem_cons_self _ _))
          have hI2 := ih st st2 depId depNode hwk hI hget hRd hr
          have c := walkChildren_spec fuel depNode st st2 hwk ⟨depId, hget⟩ hr
          have hn2 : mapGet st2.1.nodes n.id = some n := by
            by_cases hne : depNode.state.needsEvaluation = true
            · have hid := wellKeyed_get hwk hget hne
              rw [c.kept n.id hvis (fun hk => hv (by rw [← hid, ← hk]; exact hvis))]
              exact hn
            · rw [c.idle (by simpa using hne)]
              exact hn
          exact ihd hsub1 st2 _ (c.walked.wk hwk) hI2 hn2 (c.walked.visited _ hvis) h

/-- An invariant rule for `walkChildren`.  `I` is kept by every call on a key in `R` if it is
kept by marking a node visited, by the decision taken on a node, and by whole calls on the
keys in `H`, which are dealt with apart; `R` has to be closed under declared
dependencies. -/
theorem walkChildren_rule (I : engine × List String → Prop) (R H : String → Prop)
    (hvisit : ∀ st key m, wellKeyed st.1.nodes → I st → mapGet st.1.nodes key = some m →
      R key → ¬ H key → I (st.1, m.id :: st.2))
    (hconclude : ∀ st m, wellKeyed st.1.nodes → I st → mapGet st.1.nodes m.id = some m →
      m.state.needsEvaluation = true → R m.id → ¬ H m.id → m.id ∈ st.2 →
      I (conclude st.1 m (foldFlags st.1.nodes m.dependencies Flags.init), st.2))
    (hdeps : ∀ st key m d, wellKeyed st.1.nodes → I st → mapGet st.1.nodes key = some m →
      R key → ¬ H key → d ∈ m.dependencies → R d)
    (hspecial : ∀ fuel st st1 key m, wellKeyed st.1.nodes → I st →
      mapGet st.1.nodes key = some m → R key → H key →
      walkChildren fuel m st = some st1 → I st1)
    (fuel : Nat) (st st1 : engine × List String) (key : String) (m : node)
    (hwk : wellKeyed st.1.nodes) (hI : I st) (hget : mapGet st.1.nodes key = some m)
    (hR : R key) (h : walkChildren fuel m st = some st1) : I st1 := by
  induction fuel generalizing st st1 key m with
  | zero => simp [walkChildren] at h
  | succ fuel ih =>
    by_cases hH : H key
    · exact hspecial _ st st1 key m hwk hI hget hR hH h
    · have hI1 := hvisit st key m hwk hI hget hR hH
      rw [walkChildren] at h
      by_cases hne : m.state.needsEvaluation = false
      · simp only [hne, if_true, Option.some.injEq] at h
        subst h
        exact hI1
      · have hne1 : m.state.needsEvaluation = true := by simpa using hne
        simp only [hne1, Bool.true_eq_false, if_false] at h
        have hid := wellKeyed_get hwk hget hne1
        subst hid
        cases hs : scanDeps (walkChildren fuel) m.dependencies (st.1, m.id :: st.2)
            Flags.init with
        | none => simp [hs] at h
        | some r =>
          obtain ⟨st2, f⟩ := r
          simp only [hs, Option.some.injEq] at h
          subst h
          have s := scanDeps_spec (walkChildren fuel)
            (fun a b c h1 h2 h3 => walkChildren_spec fuel a b c h1 h2 h3)
            m.dependencies (st.1, m.id :: st.2) Flags.init st2 f hwk hs
          have hI2 := scanDeps_rule I R H hdeps fuel
            (fun a b k x h1 h2 h3 h4 h5 => ih a b k x h1 h2 h3 h4 h5)
            m hR hH m.dependencies (fun _ hd => hd) (st.1, m.id :: st.2) Flags.init st2 f
            hwk hI1 hget (List.mem_cons_self _ _) hs
          have hget2 : mapGet st2.1.nodes m.id = some m := by
            rw [s.kept m.id (List.mem_cons_self _ _)]
            exact hget
          have hf := s.flags
          subst hf
          exact hconclude st2 m (s.walked.wk hwk) hI2 hget2 hne1 hR hH
            (s.walked.visited _ (List.mem_cons_self _ _))

/-- The invariant rule for the loop of `walk` over the watched ids. -/
theorem walkFrom_rule (I : engine × List String → Prop) (R : String → Prop)
    (hcall : ∀ fuel st st1 key m, wellKeyed st.1.nodes → I st →
      mapGet st.1.nodes key = some m → R key → walkChildren fuel m st = some st1 → I st1)
    (fuel : Nat) (ids : List String) (hids : ∀ id ∈ ids, R id)
    (st st1 : engine × List String) (hwk : wellKeyed st.1.nodes) (hI : I st)
    (h : walkFrom fuel ids st = some st1) : I st1 := by
  induction ids generalizing st with
  | nil =>
    simp only [walkFrom, Option.some.injEq] at h
    subst h
    exact hI
  | cons id ids ih =>
    have hids1 : ∀ x ∈ ids, R x := fun x hx => hids x (List.mem_cons_of_mem _ hx)
    rw [walkFrom] at h
    cases hget : mapGet st.1.nodes id with
    | none =>
      simp only [hget] at h
      exact ih hids1 st hwk hI h
    | some n =>
      simp only [hget] at h
      cases hw : walkChildren fuel n st with
      | none => simp [hw] at h
      | some st2 =>
        simp only [hw] at h
        have c := walkChildren_spec fuel n st st2 hwk ⟨id, hget⟩ hw
        exact ih hids1 st2 (c.walked.wk hwk)
          (hcall fuel st st2 id n hwk hI hget (hids id (List.mem_cons_self _ _)) hw) h

/-! ## The walker only touches what the watch set reaches -/

theorem Walked.get_back {a b : engine × List String} (h : Walked a b) {k : String} {n1 : node}
    (hb : mapGet b.1.nodes k = some n1) : ∃ n, mapGet a.1.nodes k = some n ∧ nodeMoved n n1 := by
  cases ha : mapGet a.1.nodes k with
  | none => rw [h.absent k ha] at hb; cases hb
  | some n =>
    obtain ⟨n2, hn2, mv⟩ := h.moved k n ha
    rw [hb] at hn2
    cases hn2
    exact ⟨n, rfl, mv⟩

theorem conclude_spawned_id (e : engine) (n : node) (f : Flags) :
    ∀ w ∈ (conclude e n f).spawned, w ∈ e.spawned ∨ w.node.id = n.id := by
  intro w hw
  unfold conclude at hw
  by_cases hall : f.allDone = true
  · simp only [hall, if_true] at hw
    have : ∀ e2 : engine, (dispatch e2 n).spawned = e2.spawned ++ [{ node := n, seen := e2.nodes }] :=
      fun _ => rfl
    rw [this] at hw
    rcases List.mem_append.mp hw with hw | hw
    · left
      by_cases h1 : f.missingDep = true
      · simpa [h1, setState, notify] using hw
      · by_cases h2 : f.isBlocked = true
        · simpa [h1, h2, setState, setError, notify] using hw
        · simpa [h1, h2] using hw
    · right
      rw [List.mem_singleton] at hw
      rw [hw]
  · left
    simp only [hall] at hw
    by_cases h1 : f.missingDep = true
    · simpa [h1, setState, notify] using hw
    · by_cases h2 : f.isBlocked = true
      · simpa [h1, h2, setState, setError, notify] using hw
      · simpa [h1, h2] using hw

theorem conclude_get_other (e : engine) (n : node) (f : Flags) (k : String) (hk : k ≠ n.id) :
    mapGet (conclude e n f).nodes k = mapGet e.nodes k := by
  unfold conclude
  have hs : ∀ (e2 : engine) (s : state), mapGet (setState e2 n.id s).nodes k = mapGet e2.nodes k := by
    intro e2 s
    rw [setState_nodes, mapGet_mapSet, if_neg hk]
  have hd : ∀ e2 : engine, mapGet (dispatch e2 n).nodes k = mapGet e2.nodes k := by
    intro e2
    exact hs e2 state.dispatched
  have he : ∀ (e2 : engine) (s : state) (err : GoError),
      mapGet (setError (setState e2 n.id s) n.id err).nodes k = mapGet e2.nodes k := by
    intro e2 s err
    rw [setError_setState_nodes, mapGet_mapSet, if_neg hk]
  by_cases hall : f.allDone = true <;> by_cases h1 : f.missingDep = true <;>
    by_cases h2 : f.isBlocked = true <;> simp [hall, h1, h2, hs, hd, he]

theorem conclude_walked_fold (st : engine × List String) (m : node)
    (hget : mapGet st.1.nodes m.id = some m) (hne : m.state.needsEvaluation = true) :
    Walked st (conclude st.1 m (foldFlags st.1.nodes m.dependencies Flags.init), st.2) :=
  (conclude_walked st.1 m _ st.2 hget hne (fun hall => by
    obtain ⟨b1, b2⟩ := foldFlags_allDone _ _ _ hall
    rw [b1]
    exact ⟨rfl, rfl, b2⟩)).1

theorem walkChildren_framed (e0 : engine) (roots : List String)
    (fuel : Nat) (st st1 : engine × List String) (key : String) (m : node)
    (hwk : wellKeyed st.1.nodes) (hI : framed e0 roots st)
    (hget : mapGet st.1.nodes key = some m) (hR : DepReach e0.nodes roots key)
    (h : walkChildren fuel m st = some st1) : framed e0 roots st1 := by
  refine walkChildren_rule (framed e0 roots) (DepReach e0.nodes roots) (fun _ => False)
    ?_ ?_ ?_ ?_ fuel st st1 key m hwk hI hget hR h
  · intro st key m _ hI _ _ _
    exact ⟨hI.1.trans (Walked.of_visited _ (fun k hk => List.mem_cons_of_mem _ hk)), hI.2⟩
  · intro st m _ hI hget hne hR _ _
    refine ⟨hI.1.trans (conclude_walked_fold st m hget hne), ?_⟩
    intro k hk
    have hkm : k ≠ m.id := fun h => hk (h ▸ hR)
    obtain ⟨h1, h2⟩ := hI.2 k hk
    refine ⟨by rw [← h1]; exact conclude_get_other _ _ _ _ hkm, ?_⟩
    intro w hw hid
    rcases conclude_spawned_id _ _ _ w hw with hw | hw
    · exact h2 w hw hid
    · exact absurd (hid.symm.trans hw) hkm
  · intro st key m d _ hI hget hR _ hd
    obtain ⟨n, hn, mv⟩ := hI.1.get_back hget
    exact DepReach.dep hR hn (mv.2.1 ▸ hd)
  · intro _ _ _ _ _ _ _ _ _ hF
    exact absurd hF id

theorem walk_framed (e e1 : engine) (order : List String) (hwk : wellKeyed e.nodes)
    (horder : ∀ id ∈ order, id ∈ e.watching) (h : walk e order = some e1) :
    ∃ v, framed e e.watching (e1, v) := by
  unfold walk at h
  cases hw : walkFrom (e.nodes.length + 1) order (e, []) with
  | none => simp [hw] at h
  | some st1 =>
    simp only [hw, Option.map_some', Option.some.injEq] at h
    subst h
    refine ⟨st1.2, ?_⟩
    exact walkFrom_rule (framed e e.watching) (DepReach e.nodes e.watching)
      (fun fuel a b key m h1 h2 h3 h4 h5 => walkChildren_framed e e.watching fuel a b key m h1 h2 h3 h4 h5)
      _ order (fun id hid => DepReach.root (horder id hid)) (e, []) st1 hwk
      ⟨Walked.refl _, fun k _ => ⟨rfl, fun w hw _ => hw⟩⟩ hw

theorem walk_frame (e : engine) (order : List String) (hwk : wellKeyed e.nodes)
    (horder : ∀ id ∈ order, id ∈ e.watching) :
    ∃ e1, walk e order = some e1 ∧
      ∀ k, ¬ DepReach e.nodes e.watching k →
        mapGet e1.nodes k = mapGet e.nodes k ∧
          k ∉ (e1.spawned.drop e.spawned.length).map (fun w => w.node.id) := by
  obtain ⟨e1, h1⟩ := walk_terminates e order hwk
  obtain ⟨v, hw, hf⟩ := walk_framed e e1 order hwk horder h1
  refine ⟨e1, h1, fun k hk => ⟨(hf k hk).1, ?_⟩⟩
  obtain ⟨new, hnew, _, hok⟩ := hw.spawned
  have hnew1 : e1.spawned = e.spawned ++ new := hnew
  intro hmem
  rw [hnew1, List.drop_left] at hmem
  obtain ⟨w, hwn, hid⟩ := List.mem_map.mp hmem
  obtain ⟨⟨n, hn, hne, _⟩, ⟨n1, hn1, hd⟩, _⟩ := hok w hwn
  have hsame := (hf k hk).1
  have hid1 : w.node.id = k := hid
  rw [hid1] at hn hn1
  have hsame1 : mapGet e1.nodes k = mapGet e.nodes k := hsame
  rw [hn1, hn] at hsame1
  cases hsame1
  rw [hd] at hne
  cases hne

theorem applyEvent_idleAt (x : String) (e : engine) (ev : Event) (hJ : idleAt x e)
    (hadm : Admissible e ev) : idleAt x (applyEvent e ev) := by
  obtain ⟨hwk, hsub, hnot⟩ := hJ
  refine ⟨applyEvent_wellKeyed e ev hwk, ?_, ?_⟩
  · by_cases hwr : ev.writes x
    · cases hadm with
      | submit id task deps =>
        rcases hwr with ⟨_, h⟩ | ⟨h, _⟩ | ⟨h, _⟩
        · have h1 : id = x := h
          subst h1
          intro n hn
          have : mapGet (applyEvent e (Submit id task deps)).nodes id =
              some { node.zero with id := id, task := task, dependencies := deps } := by
            show mapGet (mapSet _ _ _) _ = _
            rw [mapGet_mapSet]
            simp [Submit]
          rw [this] at hn
          cases hn
          rfl
        · cases h
        · cases h
      | execute ids => rcases hwr with ⟨h, _⟩ | ⟨h, _⟩ | ⟨h, _⟩ <;> cases h
      | wait ids c => rcases hwr with ⟨h, _⟩ | ⟨h, _⟩ | ⟨h, _⟩ <;> cases h
      | taskStart id hid =>
        rcases hwr with ⟨h, _⟩ | ⟨_, h⟩ | ⟨h, _⟩
        · cases h
        · have h1 : id = x := h
          exact absurd (h1 ▸ hid) hnot
        · cases h
      | taskExit id err hid =>
        rcases hwr with ⟨h, _⟩ | ⟨h, _⟩ | ⟨_, h⟩
        · cases h
        · cases h
        · have h1 : id = x := h
          exact absurd (h1 ▸ hid) hnot
    · rw [applyEvent_get e ev x hwr]
      exact hsub
  · unfold engine.dispatchedIds
    rw [applyEvent_spawned]
    exact hnot

theorem loopStep_idleAt (x : String) (e e1 : engine) (ev : Event) (order : List String)
    (hJ : idleAt x e) (hadm : Admissible e ev) (hun : unreached x e ev)
    (hperm : order.Perm (applyEvent e ev).watching) (h : loopStep e ev order = some e1) :
    idleAt x e1 := by
  have hc : ev.Typ ≠ EventType.Close := by
    cases hadm <;> simp [Submit, Execute, Wait, TaskStart, TaskExit]
  have hJ1 := applyEvent_idleAt x e ev hJ hadm
  obtain ⟨e2, h2, hfr⟩ := walk_frame (applyEvent e ev) order hJ1.1
    (fun id hid => hperm.subset hid)
  have h3 : loopStep e ev order = some (notify (checkDone e2) ev) := by
    simp [loopStep, hc, h2]
  rw [h3] at h
  cases h
  obtain ⟨v, hw⟩ := walk_spec _ _ order hJ1.1 h2
  obtain ⟨hsame, hnew⟩ := hfr x hun
  refine ⟨hw.wk hJ1.1, ?_, ?_⟩
  · intro n hn
    have hn1 : mapGet e2.nodes x = some n := hn
    rw [hsame] at hn1
    exact hJ1.2.1 n hn1
  · obtain ⟨new, hn, _, _⟩ := hw.spawned
    have hn1 : e2.spawned = (applyEvent e ev).spawned ++ new := hn
    show x ∉ e2.spawned.map (fun w => w.node.id)
    rw [hn1, List.drop_left] at hnew
    rw [hn1, List.map_append, List.mem_append]
    rintro (hm | hm)
    · exact hJ1.2.2 hm
    · exact hnew hm

theorem Reaches.stays_idleAt {x : String} {e0 e : engine} (h : Reaches (unreached x) e0 e)
    (hJ : Reactor.idleAt x e0) : Reactor.idleAt x e := by
  induction h with
  | refl => exact hJ
  | step _ hadm hok hperm hstep ih => exact loopStep_idleAt x _ _ _ _ ih hadm hok hperm hstep

theorem singleDep_reach (k : String) (h : DepReach singleDepEngine.nodes ["2"] k) :
    k = "2" ∨ k = "1" := by
  induction h with
  | root hk => exact Or.inl (List.mem_singleton.mp hk)
  | dep _ hget hd ih =>
    rcases ih with rfl | rfl
    · have : mapGet singleDepEngine.nodes "2" =
          some { node.zero with id := "2", dependencies := ["1"] } := rfl
      rw [this] at hget
      cases hget
      exact Or.inr (List.mem_singleton.mp hd)
    · have : mapGet singleDepEngine.nodes "1" = some { node.zero with id := "1" } := rfl
      rw [this] at hget
      cases hget
      cases hd

/-! ## Chains below a failed node -/

theorem chain_injective (m : List (String × node)) (c : Nat → String) (k : Nat) (E : GoError)
    (hshape : chainShape m c k E)
    (hsub : ∀ i, i < k → ∃ n, mapGet m (c (i + 1)) = some n ∧ n.state = state.submitted) :
    ∀ i j, i ≤ k → j ≤ k → c i = c j → i = j := by
  obtain ⟨⟨n0, h0, hs0, _⟩, hlink⟩ := hshape
  intro i
  induction i with
  | zero =>
    intro j _ hj hc
    cases j with
    | zero => rfl
    | succ j =>
      obtain ⟨n, hn, hs⟩ := hsub j (by omega)
      rw [← hc, h0] at hn
      cases hn
      rw [hs0] at hs
      cases hs
  | succ i ih =>
    intro j hi hj hc
    cases j with
    | zero =>
      obtain ⟨n, hn, hs⟩ := hsub i (by omega)
      rw [hc, h0] at hn
      cases hn
      rw [hs0] at hs
      cases hs
    | succ j =>
      obtain ⟨n, hn, hd⟩ := hlink i (by omega)
      obtain ⟨n2, hn2, hd2⟩ := hlink j (by omega)
      rw [hc, hn2] at hn
      cases hn
      rw [hd2] at hd
      have hcc : c j = c i := by simpa using hd
      have := ih j (by omega) (by omega) hcc.symm
      omega

theorem Walked.chainShape {a b : engine × List String} (h : Walked a b) {c : Nat → String}
    {k : Nat} {E : GoError} (hs : Reactor.chainShape a.1.nodes c k E) :
    Reactor.chainShape b.1.nodes c k E := by
  obtain ⟨⟨n0, h0, hs0, he0⟩, hlink⟩ := hs
  constructor
  · obtain ⟨n1, hn1, mv⟩ := h.moved _ _ h0
    have := nodeMoved_keep mv (by rw [hs0]; rfl)
    subst this
    exact ⟨n1, hn1, hs0, he0⟩
  · intro i hi
    obtain ⟨n, hn, hd⟩ := hlink i hi
    obtain ⟨n1, hn1, mv⟩ := h.moved _ _ hn
    exact ⟨n1, hn1, mv.2.1.trans hd⟩

theorem Walked.blockedWith {a b : engine × List String} (h : Walked a b) {E : GoError}
    {id : String} (hb : Reactor.blockedWith a.1.nodes E id) :
    Reactor.blockedWith b.1.nodes E id := by
  obtain ⟨n, hn, hs, he⟩ := hb
  obtain ⟨n1, hn1, mv⟩ := h.moved _ _ hn
  have := nodeMoved_keep mv (by rw [hs]; rfl)
  subst this
  exact ⟨n1, hn1, hs, he⟩

/-- A call of `walkChildren` on a node that needs evaluation and declares the single
dependency `d`, which is present. -/
theorem walkChildren_single (fuel : Nat) (n p : node) (d : String)
    (st st1 : engine × List String) (hne : n.state.needsEvaluation = true)
    (hdeps : n.dependencies = [d]) (hp : mapGet st.1.nodes d = some p)
    (h : walkChildren (fuel + 1) n st = some st1) :
    ∃ st2, ((d ∈ n.id :: st.2 ∧ st2 = (st.1, n.id :: st.2)) ∨
        (d ∉ n.id :: st.2 ∧ walkChildren fuel p (st.1, n.id :: st.2) = some st2)) ∧
      st1 = (conclude st2.1 n (Flags.init.observe (mapIndex st2.1.nodes d)), st2.2) := by
  rw [walkChildren] at h
  simp only [hne, Bool.true_eq_false, if_false, hdeps] at h
  rw [scanDeps] at h
  simp only [hp] at h
  by_cases hv : d ∈ n.id :: st.2
  · simp only [hv, if_true, scanDeps, Option.some.injEq] at h
    refine ⟨(st.1, n.id :: st.2), Or.inl ⟨hv, rfl⟩, ?_⟩
    rw [← h, mapIndex_of_get hp]
  · simp only [hv, if_false] at h
    cases hr : walkChildren fuel p (st.1, n.id :: st.2) with
    | none => simp [hr] at h
    | some st2 =>
      simp only [hr, scanDeps, Option.some.injEq] at h
      exact ⟨st2, Or.inr ⟨hv, rfl⟩, h.symm⟩

/-- The decision taken on a node whose single dependency is blocking with error `E`: the
node becomes `blocked` with `E`, and no worker is started. -/
theorem conclude_blocking (e : engine) (n p : node) (hget : mapGet e.nodes n.id = some n)
    (hb : p.state.blocking = true) :
    (conclude e n (Flags.init.observe p)).nodes =
        mapSet e.nodes n.id { n with state := state.blocked, err := p.err } ∧
      (conclude e n (Flags.init.observe p)).spawned = e.spawned := by
  have hnd : p.state ≠ state.done := by
    intro h
    rw [h] at hb
    cases hb
  have hf : Flags.init.observe p = (⟨false, true, false, [p.err]⟩ : Flags) := by
    simp [Flags.observe, Flags.init, hb, hnd]
  rw [hf]
  have hc : conclude e n (⟨false, true, false, [p.err]⟩ : Flags) =
      setError (setState e n.id state.blocked) n.id p.err := by
    simp [conclude, composeError]
  rw [hc]
  constructor
  · rw [setError_setState_nodes, mapIndex_of_get hget]
  · rfl

theorem walkChildren_idle (fuel : Nat) (n : node) (st st1 : engine × List String)
    (hne : n.state.needsEvaluation = false) (h : walkChildren fuel n st = some st1) :
    st1 = (st.1, n.id :: st.2) := by
  cases fuel with
  | zero => simp [walkChildren] at h
  | succ fuel =>
    rw [walkChildren] at h
    simp only [hne, if_true, Option.some.injEq] at h
    exact h.symm

theorem chain_call (c : Nat → String) (k : Nat) (E : GoError)
    (hinj : ∀ i j, i ≤ k → j ≤ k → c i = c j → i = j) :
    ∀ j, j ≤ k → ∀ (fuel : Nat) (st st1 : engine × List String) (n : node),
      selfKeyed st.1.nodes → chainShape st.1.nodes c k E →
      (∀ i, 1 ≤ i → i ≤ j → chainStage c E st i) →
      mapGet st.1.nodes (c j) = some n → walkChildren fuel n st = some st1 →
      (∀ i, 1 ≤ i → i ≤ j → blockedWith st1.1.nodes E (c i)) ∧
        (∀ q, (∀ i, i ≤ j → q ≠ c i) →
          mapGet st1.1.nodes q = mapGet st.1.nodes q ∧ (q ∈ st1.2 → q ∈ st.2)) ∧
        st1.1.spawned = st.1.spawned := by
  intro j
  induction j with
  | zero =>
    intro _ fuel st st1 n hsk hshape _ hget h
    obtain ⟨n0, h0, hs0, _⟩ := hshape.1
    rw [hget] at h0
    cases h0
    have hid := selfKeyed_get hsk hget
    have := walkChildren_idle fuel n st st1 (by rw [hs0]; rfl) h
    subst this
    refine ⟨fun i h1 h2 => by omega, fun q hq => ⟨rfl, fun hm => ?_⟩, rfl⟩
    rcases List.mem_cons.mp hm with hm | hm
    · exact absurd (hm.trans hid) (hq 0 (le_refl _))
    · exact hm
  | succ j ih =>
    intro hj fuel st st1 n hsk hshape hstage hget h
    have hid := selfKeyed_get hsk hget
    have hwk := selfKeyed_wellKeyed hsk
    have hne_cj : c j ≠ c (j + 1) := fun hc => by
      have := hinj j (j + 1) (by omega) hj hc
      omega
    rcases hstage (j + 1) (by omega) (le_refl _) with ⟨n1, hn1, hsub, hunv⟩ | hall
    · rw [hget] at hn1
      cases hn1
      have hne : n.state.needsEvaluation = true := by rw [hsub]; rfl
      obtain ⟨n2, hn2, hdeps⟩ := hshape.2 j (by omega)
      rw [hget] at hn2
      cases hn2
      -- the record of the dependency `c j`, blocking with `E` once it has been walked
      have hpre : ∃ p, mapGet st.1.nodes (c j) = some p := by
        cases j with
        | zero => obtain ⟨p, hp, _⟩ := hshape.1; exact ⟨p, hp⟩
        | succ j => obtain ⟨p, hp, _⟩ := hshape.2 j (by omega); exact ⟨p, hp⟩
      obtain ⟨p, hp⟩ := hpre
      cases fuel with
      | zero => simp [walkChildren] at h
      | succ fuel =>
        obtain ⟨st2, hcase, hst1⟩ := walkChildren_single fuel n p (c j) st st1 hne hdeps hp h
        have hkey : mapGet st2.1.nodes (c (j + 1)) = some n ∧
            (∃ p2, mapGet st2.1.nodes (c j) = some p2 ∧ p2.state.blocking = true ∧ p2.err = E) ∧
            (∀ i, 1 ≤ i → i ≤ j → blockedWith st2.1.nodes E (c i)) ∧
            (∀ q, (∀ i, i ≤ j + 1 → q ≠ c i) →
              mapGet st2.1.nodes q = mapGet st.1.nodes q ∧ (q ∈ st2.2 → q ∈ st.2)) ∧
            st2.1.spawned = st.1.spawned := by
          rcases hcase with ⟨hv, rfl⟩ | ⟨hv, hcall⟩
          · have hv2 : c j ∈ st.2 := by
              rcases List.mem_cons.mp hv with hv | hv
              · exact absurd (hv.trans hid) hne_cj
              · exact hv
            have hbelow : ∀ i, 1 ≤ i → i ≤ j → blockedWith st.1.nodes E (c i) := by
              intro i h1 h2
              rcases hstage j (by omega) (by omega) with ⟨_, _, _, hu⟩ | hb
              · exact absurd hv2 hu
              · exact hb i h1 h2
            refine ⟨hget, ?_, hbelow, ?_, rfl⟩
            · cases j with
              | zero =>
                obtain ⟨p0, hp0, hs0, he0⟩ := hshape.1
                exact ⟨p0, hp0, by rw [hs0]; rfl, he0⟩
              | succ j =>
                obtain ⟨p0, hp0, hs0, he0⟩ := hbelow (j + 1) (by omega) (le_refl _)
                exact ⟨p0, hp0, by rw [hs0]; rfl, he0⟩
            · intro q hq
              refine ⟨rfl, fun hm => ?_⟩
              rcases List.mem_cons.mp hm with hm | hm
              · exact absurd (hm.trans hid) (hq (j + 1) (le_refl _))
              · exact hm
          · have hstage1 : ∀ i, 1 ≤ i → i ≤ j →
                chainStage c E (st.1, n.id :: st.2) i := by
              intro i h1 h2
              rcases hstage i h1 (by omega) with ⟨m, hm, hms, hu⟩ | hb
              · refine Or.inl ⟨m, hm, hms, ?_⟩
                intro hmem
                rcases List.mem_cons.mp hmem with hmem | hmem
                · have := hinj i (j + 1) (by omega) hj (hmem.trans hid)
                  omega
                · exact hu hmem
              · exact Or.inr hb
            obtain ⟨r1, r2, r3⟩ := ih (by omega) fuel (st.1, n.id :: st.2) st2 p hsk hshape
              hstage1 hp hcall
            have c1 := walkChildren_spec fuel p (st.1, n.id :: st.2) st2 hwk ⟨c j, hp⟩ hcall
            have hshape2 := c1.walked.chainShape hshape
            refine ⟨?_, ?_, r1, ?_, r3⟩
            · rw [(r2 (c (j + 1)) (fun i hi hc => by
                have := hinj (j + 1) i hj (by omega) hc
                omega)).1]
              exact hget
            · cases j with
              | zero =>
                obtain ⟨p0, hp0, hs0, he0⟩ := hshape2.1
                exact ⟨p0, hp0, by rw [hs0]; rfl, he0⟩
              | succ j =>
                obtain ⟨p0, hp0, hs0, he0⟩ := r1 (j + 1) (by omega) (le_refl _)
                exact ⟨p0, hp0, by rw [hs0]; rfl, he0⟩
            · intro q hq
              obtain ⟨q1, q2⟩ := r2 q (fun i hi => hq i (by omega))
              refine ⟨q1, fun hm => ?_⟩
              rcases List.mem_cons.mp (q2 hm) with hm | hm
              · exact absurd (hm.trans hid) (hq (j + 1) (le_refl _))
              · exact hm
        obtain ⟨k1, ⟨p2, hp2, hpb, hpe⟩, k3, k4, k5⟩ := hkey
        have hid2 : n.id = c (j + 1) := hid
        have k1' : mapGet st2.1.nodes n.id = some n := by rw [hid2]; exact k1
        obtain ⟨cn, cs⟩ := conclude_blocking st2.1 n p2 k1' hpb
        rw [mapIndex_of_get hp2] at hst1
        subst hst1
        refine ⟨?_, ?_, ?_⟩
        · intro i h1 h2
          show blockedWith (conclude st2.1 n (Flags.init.observe p2)).nodes E (c i)
          rw [cn]
          by_cases hi : i = j + 1
          · subst hi
            exact ⟨{ n with state := state.blocked, err := p2.err },
              by rw [mapGet_mapSet, if_pos hid2.symm], rfl, hpe⟩
          · obtain ⟨m, hm, hms, hme⟩ := k3 i h1 (by omega)
            refine ⟨m, ?_, hms, hme⟩
            rw [mapGet_mapSet, if_neg]
            · exact hm
            · intro hc
              have := hinj i (j + 1) (by omega) hj (hc.trans hid2)
              exact hi this
        · intro q hq
          obtain ⟨q1, q2⟩ := k4 q hq
          refine ⟨?_, q2⟩
          show mapGet (conclude st2.1 n (Flags.init.observe p2)).nodes q = _
          rw [cn, mapGet_mapSet, if_neg (fun hc => hq (j + 1) (le_refl _) (hc.trans hid2))]
          exact q1
        · show (conclude st2.1 n (Flags.init.observe p2)).spawned = _
          rw [cs]
          exact k5
    · obtain ⟨m, hm, hms, _⟩ := hall (j + 1) (by omega) (le_refl _)
      rw [hget] at hm
      cases hm
      have := walkChildren_idle fuel n st st1 (by rw [hms]; rfl) h
      subst this
      refine ⟨hall, fun q hq => ⟨rfl, fun hmem => ?_⟩, rfl⟩
      rcases List.mem_cons.mp hmem with hmem | hmem
      · exact absurd (hmem.trans hid) (hq (j + 1) (le_refl _))
      · exact hmem

theorem walkChildren_chainInv (e0 : engine) (c : Nat → String) (k : Nat) (E : GoError)
    (hinj : ∀ i j, i ≤ k → j ≤ k → c i = c j → i = j)
    (fuel : Nat) (st st1 : engine × List String) (key : String) (m : node)
    (hwk : wellKeyed st.1.nodes) (hI : chainInv e0 c k E st)
    (hget : mapGet st.1.nodes key = some m) (_hR : True)
    (h : walkChildren fuel m st = some st1) : chainInv e0 c k E st1 := by
  refine walkChildren_rule (chainInv e0 c k E) (fun _ => True)
    (fun key => ∃ i, 1 ≤ i ∧ i ≤ k ∧ key = c i) ?_ ?_ ?_ ?_ fuel st st1 key m hwk hI hget
    trivial h
  · intro st key m _ hI hget _ hH
    obtain ⟨hsk, hshape, hstage, hsp⟩ := hI
    have hid := selfKeyed_get hsk hget
    refine ⟨hsk, hshape, ?_, hsp⟩
    intro i h1 h2
    rcases hstage i h1 h2 with ⟨n, hn, hs, hu⟩ | hb
    · refine Or.inl ⟨n, hn, hs, ?_⟩
      intro hmem
      rcases List.mem_cons.mp hmem with hmem | hmem
      · exact hH ⟨i, h1, h2, (hmem.trans hid).symm⟩
      · exact hu hmem
    · exact Or.inr hb
  · intro st m _ hI hget hne _ hH _
    obtain ⟨hsk, hshape, hstage, hsp⟩ := hI
    have hw := conclude_walked_fold st m hget hne
    refine ⟨hw.sk hsk, hw.chainShape hshape, ?_, ?_⟩
    · intro i h1 h2
      have hci : c i ≠ m.id := fun hc => hH ⟨i, h1, h2, hc.symm⟩
      rcases hstage i h1 h2 with ⟨n, hn, hs, hu⟩ | hb
      · refine Or.inl ⟨n, ?_, hs, hu⟩
        show mapGet (conclude _ _ _).nodes (c i) = _
        rw [conclude_get_other _ _ _ _ hci]
        exact hn
      · exact Or.inr (fun j hj1 hj2 => hw.blockedWith (hb j hj1 hj2))
    · intro i h1 h2 w hwm hid
      rcases conclude_spawned_id _ _ _ w hwm with hwm | hwm
      · exact hsp i h1 h2 w hwm hid
      · exact absurd ⟨i, h1, h2, hwm.symm.trans hid⟩ hH
  · intro _ _ _ _ _ _ _ _ _ _
    trivial
  · intro fuel st st1 key m hwk hI hget _ hH h
    obtain ⟨hsk, hshape, hstage, hsp⟩ := hI
    obtain ⟨j, hj1, hj2, rfl⟩ := hH
    obtain ⟨r1, r2, r3⟩ := chain_call c k E hinj j hj2 fuel st st1 m hsk hshape
      (fun i h1 h2 => hstage i h1 (by omega)) hget h
    have c1 := walkChildren_spec fuel m st st1 hwk ⟨c j, hget⟩ h
    refine ⟨c1.walked.sk hsk, c1.walked.chainShape hshape, ?_, ?_⟩
    · intro i h1 h2
      by_cases hij : i ≤ j
      · exact Or.inr (fun j1 a b => r1 j1 a (by omega))
      · rcases hstage i h1 h2 with ⟨n, hn, hs, hu⟩ | hb
        · obtain ⟨q1, q2⟩ := r2 (c i) (fun i1 hi1 hc => by
            have := hinj i i1 h2 (by omega) hc
            omega)
          exact Or.inl ⟨n, by rw [q1]; exact hn, hs, fun hm => hu (q2 hm)⟩
        · exact Or.inr (fun j1 a b => c1.walked.blockedWith (hb j1 a b))
    · intro i h1 h2 w hwm hid
      rw [r3] at hwm
      exact hsp i h1 h2 w hwm hid

theorem walkFrom_marks (fuel : Nat) (ids : List String) (id : String)
    (st st1 : engine × List String) (hsk : selfKeyed st.1.nodes) (hid : id ∈ ids)
    (hpres : ∃ n, mapGet st.1.nodes id = some n) (h : walkFrom fuel ids st = some st1) :
    id ∈ st1.2 := by
  induction ids generalizing st with
  | nil => cases hid
  | cons a ids ih =>
    have hwk := selfKeyed_wellKeyed hsk
    rw [walkFrom] at h
    cases hget : mapGet st.1.nodes a with
    | none =>
      simp only [hget] at h
      rcases List.mem_cons.mp hid with rfl | hid
      · obtain ⟨n, hn⟩ := hpres
        rw [hget] at hn
        cases hn
      · exact ih st hsk hid hpres h
    | some n =>
      simp only [hget] at h
      cases hw : walkChildren fuel n st with
      | none => simp [hw] at h
      | some st2 =>
        simp only [hw] at h
        have c := walkChildren_spec fuel n st st2 hwk ⟨a, hget⟩ hw
        have hsk2 := c.walked.sk hsk
        rcases List.mem_cons.mp hid with rfl | hid
        · have hm := c.marked
          rw [selfKeyed_get hsk hget] at hm
          exact (walkFrom_spec fuel ids st2 st1 (selfKeyed_wellKeyed hsk2) h).visited _ hm
        · obtain ⟨n0, hn0⟩ := hpres
          obtain ⟨n1, hn1, _⟩ := c.walked.moved _ _ hn0
          exact ih st2 hsk2 hid ⟨n1, hn1⟩ h

/-! ## Replies over runs -/

theorem applyEvent_sent (e : engine) (ev : Event) : (applyEvent e ev).sent = e.sent := by
  unfold applyEvent
  cases ev.Typ <;> try rfl
  by_cases herr : ev.Err = GoError.nil
  · simp only [herr, if_true]; rfl
  · simp only [herr, if_false]; rfl

theorem applyEvent_waiting (e : engine) (ev : Event) :
    (applyEvent e ev).waiting =
      if ev.Typ = EventType.Wait then e.waiting ++ [ev] else e.waiting := by
  unfold applyEvent
  cases h : ev.Typ <;> simp
  case TaskStart => rfl
  case TaskExit =>
    by_cases herr : ev.Err = GoError.nil
    · simp only [herr, if_true]; rfl
    · simp only [herr, if_false]; rfl

theorem checkDone_repliedOnce (e : engine) (h : repliedOnce e) : repliedOnce (checkDone e) := by
  unfold repliedOnce at h ⊢
  rw [checkDone_sent, checkDone_waiting]
  refine List.Perm.nodup ?_ h
  rw [List.map_append, List.map_map, List.append_assoc]
  apply List.Perm.append_left
  have hcomp : (Prod.fst ∘ fun w : Event => (w.channel, verdict e.nodes w)) =
      fun w => w.channel := rfl
  rw [hcomp, ← List.map_append]
  exact (List.filter_append_perm (settled e.nodes) e.waiting).symm.map _

theorem loopStep_repliedOnce (e e1 : engine) (ev : Event) (order : List String)
    (hwk : wellKeyed e.nodes) (hinv : repliedOnce e) (hadm : Admissible e ev)
    (hfresh : freshChannel e ev) (h : loopStep e ev order = some e1) : repliedOnce e1 := by
  have hc : ev.Typ ≠ EventType.Close := by
    cases hadm <;> simp [Submit, Execute, Wait, TaskStart, TaskExit]
  obtain ⟨e2, v, _, hw, h2⟩ := loopStep_eq e ev order hwk hc
  rw [h2] at h
  cases h
  have h0 : repliedOnce (applyEvent e ev) := by
    unfold repliedOnce at hinv ⊢
    rw [applyEvent_sent, applyEvent_waiting]
    by_cases ht : ev.Typ = EventType.Wait
    · obtain ⟨f1, f2⟩ := hfresh ht
      simp only [ht, if_true, List.map_append, List.map_cons, List.map_nil]
      rw [← List.append_assoc]
      refine List.Nodup.append hinv (List.nodup_singleton _) ?_
      intro x hx hx1
      rw [List.mem_singleton] at hx1
      subst hx1
      rcases List.mem_append.mp hx with hx | hx
      · exact f1 hx
      · exact f2 hx
    · simp only [ht, if_false]
      exact hinv
  have h1 : repliedOnce e2 := by
    unfold repliedOnce at h0 ⊢
    have hs : e2.sent = (applyEvent e ev).sent := hw.sent
    have hwt : e2.waiting = (applyEvent e ev).waiting := hw.waiting
    rw [hs, hwt]
    exact h0
  exact checkDone_repliedOnce e2 h1

theorem Reaches.stays_repliedOnce {e0 e : engine} (h : Reaches freshChannel e0 e)
    (hwk : wellKeyed e0.nodes) (hinv : repliedOnce e0) : wellKeyed e.nodes ∧ repliedOnce e := by
  induction h with
  | refl => exact ⟨hwk, hinv⟩
  | step _ hadm hok _ hstep ih =>
    exact ⟨loopStep_wellKeyed _ _ _ _ ih.1 hstep,
      loopStep_repliedOnce _ _ _ _ ih.1 ih.2 hadm hok hstep⟩

/-! ## Counting the calls of a pass -/

theorem callBudget_cons_new (ks v : List String) (k : String) (hk : k ∈ ks) (hv : k ∉ v) :
    callBudget ks (k :: v) ≤ callBudget ks v := by
  have := filter_length_lt_of_mem ks.dedup v k (List.mem_dedup.mpr hk) hv
  simp only [callBudget, List.length_cons]
  omega

theorem callBudget_cons (ks v : List String) (k : String) :
    callBudget ks (k :: v) ≤ callBudget ks v + 1 := by
  have : (ks.dedup.filter (fun x => decide (x ∉ k :: v))).length ≤
      (ks.dedup.filter (fun x => decide (x ∉ v))).length := by
    apply List.Sublist.length_le
    apply List.monotone_filter_right
    intro x hx
    simp only [decide_eq_true_eq, List.mem_cons, not_or] at hx ⊢
    exact hx.2
  simp only [callBudget, List.length_cons]
  omega

theorem scanDeps_budget (fuel : Nat) (ks : List String)
    (ih : ∀ (n : node) (st st1 : engine × List String), selfKeyed st.1.nodes →
      st.1.nodes.map Prod.fst = ks → mapGet st.1.nodes n.id = some n →
      walkChildren fuel n st = some st1 →
      callBudget ks st1.2 ≤ callBudget ks st.2 + (if n.id ∈ st.2 then 1 else 0))
    (deps : List String) (st : engine × List String) (f : Flags)
    (r : (engine × List String) × Flags)
    (hsk : selfKeyed st.1.nodes) (hks : st.1.nodes.map Prod.fst = ks)
    (h : scanDeps (walkChildren fuel) deps st f = some r) :
    callBudget ks r.1.2 ≤ callBudget ks st.2 ∧ r.1.1.nodes.map Prod.fst = ks := by
  induction deps generalizing st f with
  | nil =>
    simp only [scanDeps, Option.some.injEq] at h
    subst h
    exact ⟨le_refl _, hks⟩
  | cons depId rest ihd =>
    rw [scanDeps] at h
    cases hget : mapGet st.1.nodes depId with
    | none =>
      simp only [hget] at h
      exact ihd st _ hsk hks h
    | some depNode =>
      simp only [hget] at h
      by_cases hv : depId ∈ st.2
      · simp only [hv, if_true] at h
        exact ihd st _ hsk hks h
      · simp only [hv, if_false] at h
        cases hw : walkChildren fuel depNode st with
        | none => simp [hw] at h
        | some st2 =>
          simp only [hw] at h
          have hid : depNode.id = depId := selfKeyed_get hsk hget
          have c := walkChildren_spec fuel depNode st st2 (selfKeyed_wellKeyed hsk)
            ⟨depId, hget⟩ hw
          have hb := ih depNode st st2 hsk hks (by rw [hid]; exact hget) hw
          rw [hid, if_neg hv] at hb
          obtain ⟨h1, h2⟩ := ihd st2 _ (c.walked.sk hsk) (by rw [c.walked.keys]; exact hks) h
          exact ⟨le_trans h1 hb, h2⟩

theorem walkChildren_budget (fuel : Nat) (ks : List String) (n : node)
    (st st1 : engine × List String) (hsk : selfKeyed st.1.nodes)
    (hks : st.1.nodes.map Prod.fst = ks) (hget : mapGet st.1.nodes n.id = some n)
    (h : walkChildren fuel n st = some st1) :
    callBudget ks st1.2 ≤ callBudget ks st.2 + (if n.id ∈ st.2 then 1 else 0) := by
  induction fuel generalizing n st st1 with
  | zero => simp [walkChildren] at h
  | succ fuel ih =>
    have hmark : callBudget ks (n.id :: st.2) ≤
        callBudget ks st.2 + (if n.id ∈ st.2 then 1 else 0) := by
      by_cases hv : n.id ∈ st.2
      · rw [if_pos hv]
        exact callBudget_cons ks st.2 n.id
      · rw [if_neg hv]
        exact callBudget_cons_new ks st.2 n.id (hks ▸ mem_keys_of_get hget) hv
    rw [walkChildren] at h
    by_cases hne : n.state.needsEvaluation = false
    · simp only [hne, if_true, Option.some.injEq] at h
      subst h
      exact hmark
    · have hne1 : n.state.needsEvaluation = true := by simpa using hne
      simp only [hne1, Bool.true_eq_false, if_false] at h
      cases hs : scanDeps (walkChildren fuel) n.dependencies (st.1, n.id :: st.2) Flags.init with
      | none => simp [hs] at h
      | some r =>
        simp only [hs, Option.some.injEq] at h
        subst h
        have := (scanDeps_budget fuel ks (fun m a b h1 h2 h3 h4 => ih m a b h1 h2 h3 h4)
          n.dependencies (st.1, n.id :: st.2) Flags.init r hsk hks hs).1
        exact le_trans this hmark

theorem walkFrom_budget (fuel : Nat) (ks : List String) (ids : List String)
    (st st1 : engine × List String) (hsk : selfKeyed st.1.nodes)
    (hks : st.1.nodes.map Prod.fst = ks) (h : walkFrom fuel ids st = some st1) :
    callBudget ks st1.2 ≤ callBudget ks st.2 + ids.length := by
  induction ids generalizing st with
  | nil =>
    simp only [walkFrom, Option.some.injEq] at h
    subst h
    simp
  | cons id ids ih =>
    rw [walkFrom] at h
    cases hget : mapGet st.1.nodes id with
    | none =>
      simp only [hget] at h
      have := ih st hsk hks h
      simp only [List.length_cons]
      omega
    | some n =>
      simp only [hget] at h
      cases hw : walkChildren fuel n st with
      | none => simp [hw] at h
      | some st2 =>
        simp only [hw] at h
        have hid : n.id = id := selfKeyed_get hsk hget
        have c := walkChildren_spec fuel n st st2 (selfKeyed_wellKeyed hsk) ⟨id, hget⟩ hw
        have hb := walkChildren_budget fuel ks n st st2 hsk hks (by rw [hid]; exact hget) hw
        have := ih st2 (c.walked.sk hsk) (by rw [c.walked.keys]; exact hks) h
        simp only [List.length_cons]
        split at hb <;> omega

/-! ## The decision of the walker -/

theorem foldFlags_eq (m : List (String × node)) (deps : List String) (f : Flags) :
    foldFlags m deps f =
      { missingDep := f.missingDep || deps.any (depAbsent m)
        isBlocked := f.isBlocked || deps.any (depBlocking m)
        allDone := f.allDone && deps.all (depDone m)
        blockingErrors := f.blockingErrors ++ blockingErrs m deps } := by
  induction deps generalizing f with
  | nil => cases f; simp [foldFlags, blockingErrs]
  | cons d ds ih =>
    rw [foldFlags]
    cases hget : mapGet m d with
    | none =>
      simp only [ih]
      simp [Flags.absent, depAbsent, depBlocking, depDone, blockingErrs, hget]
    | some p =>
      simp only [ih]
      by_cases hb : p.state.blocking = true
      · have hnd : p.state ≠ state.done := by
          intro h
          rw [h] at hb
          cases hb
        simp [Flags.observe, depAbsent, depBlocking, depDone, blockingErrs, hget, hb, hnd]
      · have hb0 : p.state.blocking = false := by simpa using hb
        by_cases hd : p.state = state.done
        · have hdb : state.done.blocking = false := rfl
          simp [Flags.observe, depAbsent, depBlocking, depDone, blockingErrs, hget, hd, hdb]
        · simp [Flags.observe, depAbsent, depBlocking, depDone, blockingErrs, hget, hb0, hd]

theorem depDone_not_absent {m : List (String × node)} {deps : List String}
    (h : deps.all (depDone m) = true) :
    deps.any (depAbsent m) = false ∧ deps.any (depBlocking m) = false := by
  rw [List.all_eq_true] at h
  constructor
  · rw [List.any_eq_false]
    intro d hd hab
    have := h d hd
    unfold depDone at this
    unfold depAbsent at hab
    cases hget : mapGet m d with
    | none => simp [hget] at this
    | some p => simp [hget] at hab
  · rw [List.any_eq_false]
    intro d hd hbl
    have := h d hd
    unfold depDone at this
    unfold depBlocking at hbl
    cases hget : mapGet m d with
    | none => simp [hget] at this
    | some p =>
      simp only [hget, decide_eq_true_eq] at this hbl
      rw [this] at hbl
      cases hbl

/-- The decision `conclude` takes on the accumulators read off the map is the one the
specification words: the record of the node becomes `decided`, every other record is
kept, and a worker is started exactly when every dependency is done. -/
theorem conclude_decided (e : engine) (n : node) (hget : mapGet e.nodes n.id = some n) :
    (∀ k, mapGet (conclude e n (foldFlags e.nodes n.dependencies Flags.init)).nodes k =
      if k = n.id then some (decided e.nodes n) else mapGet e.nodes k) ∧
    (conclude e n (foldFlags e.nodes n.dependencies Flags.init)).spawned =
      e.spawned ++
        (if n.dependencies.all (depDone e.nodes) then [{ node := n, seen := e.nodes }]
         else []) := by
  have hidx : mapIndex e.nodes n.id = n := mapIndex_of_get hget
  rw [foldFlags_eq]
  simp only [Flags.init, Bool.false_or, Bool.true_and, List.nil_append]
  by_cases hall : n.dependencies.all (depDone e.nodes) = true
  · obtain ⟨ha, hb⟩ := depDone_not_absent hall
    have hc : conclude e n ⟨n.dependencies.any (depAbsent e.nodes),
        n.dependencies.any (depBlocking e.nodes), n.dependencies.all (depDone e.nodes),
        blockingErrs e.nodes n.dependencies⟩ = dispatch e n := by
      simp [conclude, ha, hb, hall]
    rw [hc]
    refine ⟨fun k => ?_, ?_⟩
    · show mapGet (setState e n.id state.dispatched).nodes k = _
      rw [setState_nodes, mapGet_mapSet, hidx]
      simp [decided, ha, hb, hall]
    · simp only [hall, if_true]
      rfl
  · have hall0 : n.dependencies.all (depDone e.nodes) = false := by simpa using hall
    by_cases ha : n.dependencies.any (depAbsent e.nodes) = true
    · have hc : conclude e n ⟨n.dependencies.any (depAbsent e.nodes),
          n.dependencies.any (depBlocking e.nodes), n.dependencies.all (depDone e.nodes),
          blockingErrs e.nodes n.dependencies⟩ = setState e n.id state.missingDependency := by
        simp [conclude, ha, hall0]
      rw [hc]
      refine ⟨fun k => ?_, ?_⟩
      · rw [setState_nodes, mapGet_mapSet, hidx]
        simp [decided, ha]
      · simp [hall0, setState, notify]
    · have ha0 : n.dependencies.any (depAbsent e.nodes) = false := by simpa using ha
      by_cases hb : n.dependencies.any (depBlocking e.nodes) = true
      · have hc : conclude e n ⟨n.dependencies.any (depAbsent e.nodes),
            n.dependencies.any (depBlocking e.nodes), n.dependencies.all (depDone e.nodes),
            blockingErrs e.nodes n.dependencies⟩ =
            setError (setState e n.id state.blocked) n.id
              (composeError (blockingErrs e.nodes n.dependencies)) := by
          simp [conclude, ha0, hb, hall0]
        rw [hc]
        refine ⟨fun k => ?_, ?_⟩
        · rw [setError_setState_nodes, mapGet_mapSet, hidx]
          simp [decided, ha0, hb]
        · simp [hall0, setState, setError, notify]
      · have hb0 : n.dependencies.any (depBlocking e.nodes) = false := by simpa using hb
        have hc : conclude e n ⟨n.dependencies.any (depAbsent e.nodes),
            n.dependencies.any (depBlocking e.nodes), n.dependencies.all (depDone e.nodes),
            blockingErrs e.nodes n.dependencies⟩ = e := by
          simp [conclude, ha0, hb0, hall0]
        rw [hc]
        refine ⟨fun k => ?_, ?_⟩
        · by_cases hk : k = n.id
          · subst hk
            simp [decided, ha0, hb0, hall0, hget]
          · simp [hk]
        · simp [hall0]

/-- An invariant of the walker state that is kept by marking a node visited and by the
decision taken on any node holds after the whole pass. -/
theorem walk_invariant (I : engine × List String → Prop)
    (hvisit : ∀ (st : engine × List String) (id : String), I st → I (st.1, id :: st.2))
    (hconclude : ∀ (st : engine × List String) (m : node), wellKeyed st.1.nodes → I st →
      mapGet st.1.nodes m.id = some m → m.state.needsEvaluation = true →
      I (conclude st.1 m (foldFlags st.1.nodes m.dependencies Flags.init), st.2))
    (e : engine) (order : List String) (hwk : wellKeyed e.nodes) (h0 : I (e, [])) :
    ∃ e1 v, walk e order = some e1 ∧ I (e1, v) ∧ Walked (e, []) (e1, v) := by
  obtain ⟨e1, h1⟩ := walk_terminates e order hwk
  have h1' := h1
  unfold walk at h1'
  cases hw : walkFrom (e.nodes.length + 1) order (e, []) with
  | none => simp [hw] at h1'
  | some st1 =>
    simp only [hw, Option.map_some', Option.some.injEq] at h1'
    subst h1'
    refine ⟨st1.1, st1.2, h1, ?_, walkFrom_spec _ order (e, []) st1 hwk hw⟩
    refine walkFrom_rule I (fun _ => True) ?_ _ order (fun _ _ => trivial) (e, []) st1 hwk h0 hw
    intro fuel a b key m x1 x2 x3 x4 x5
    exact walkChildren_rule I (fun _ => True) (fun _ => False)
      (fun st _ m _ hI _ _ _ => hvisit st m.id hI)
      (fun st m hwk1 hI hg hne _ _ _ => hconclude st m hwk1 hI hg hne)
      (fun _ _ _ _ _ _ _ _ _ _ => trivial)
      (fun _ _ _ _ _ _ _ _ _ hF => absurd hF id)
      fuel a b key m x1 x2 x3 x4 x5

theorem Walked.depBlocking {a b : engine × List String} (h : Walked a b) {d : String}
    (hd : Reactor.depBlocking a.1.nodes d = true) : Reactor.depBlocking b.1.nodes d = true := by
  unfold Reactor.depBlocking at hd ⊢
  cases hget : mapGet a.1.nodes d with
  | none => simp [hget] at hd
  | some p =>
    simp only [hget] at hd
    obtain ⟨p1, hp1, mv⟩ := h.moved _ _ hget
    have hne : p.state.needsEvaluation = false := by
      cases hs : p.state <;> simp [hs, state.blocking] at hd <;> rfl
    have := nodeMoved_keep mv hne
    subst this
    simp [hp1, hd]

theorem Walked.depDone {a b : engine × List String} (h : Walked a b) {d : String}
    (hd : Reactor.depDone a.1.nodes d = true) : Reactor.depDone b.1.nodes d = true := by
  unfold Reactor.depDone at hd ⊢
  cases hget : mapGet a.1.nodes d with
  | none => simp [hget] at hd
  | some p =>
    simp only [hget, decide_eq_true_eq] at hd
    obtain ⟨p1, hp1, mv⟩ := h.moved _ _ hget
    have := nodeMoved_keep mv (by rw [hd]; rfl)
    subst this
    simp [hp1, hd]

theorem Walked.any_depBlocking {a b : engine × List String} (h : Walked a b)
    {deps : List String} (hd : deps.any (Reactor.depBlocking a.1.nodes) = true) :
    deps.any (Reactor.depBlocking b.1.nodes) = true := by
  rw [List.any_eq_true] at hd ⊢
  obtain ⟨d, hm, hb⟩ := hd
  exact ⟨d, hm, h.depBlocking hb⟩

theorem Walked.all_depDone {a b : engine × List String} (h : Walked a b)
    {deps : List String} (hd : deps.all (Reactor.depDone a.1.nodes) = true) :
    deps.all (Reactor.depDone b.1.nodes) = true := by
  rw [List.all_eq_true] at hd ⊢
  exact fun d hm => h.depDone (hd d hm)

theorem node_with_state_self (n : node) (s : state) (h : n.state = s) :
    { n with state := s } = n := by
  cases n
  simp only at h
  subst h
  rfl

theorem decided_of_pending (m : List (String × node)) (n : node)
    (hs : n.state = state.missingDependency)
    (hb : n.dependencies.any (depBlocking m) = false)
    (hd : n.dependencies.all (depDone m) = false) : decided m n = n := by
  unfold decided
  by_cases ha : n.dependencies.any (depAbsent m) = true
  · simp only [ha, if_true]
    exact node_with_state_self n _ hs
  · simp [ha, hb, hd]

/-! ## The err field over runs -/

theorem composeError_ne_nil (l : List GoError) (hne : l ≠ [])
    (h : ∀ x ∈ l, x ≠ GoError.nil) : composeError l ≠ GoError.nil := by
  match l, hne, h with
  | [], hne, _ => exact absurd rfl hne
  | [a], _, h =>
    simp only [composeError, List.length_singleton, one_ne_zero, if_false, if_true,
      List.headD_cons]
    exact h a (by simp)
  | a :: b :: rest, _, _ => simp [composeError]

theorem blocking_of_errMatches {p : node} (h : errMatches p) (hb : p.state.blocking = true) :
    p.err ≠ GoError.nil := by
  apply h.mpr
  cases hs : p.state <;> simp [hs, state.blocking] at hb ⊢

theorem nil_of_errMatches {p : node} (h : errMatches p)
    (hs : p.state ≠ state.errored ∧ p.state ≠ state.blocked) : p.err = GoError.nil := by
  by_contra hne
  rcases h.mp hne with h1 | h1
  · exact hs.1 h1
  · exact hs.2 h1

theorem blockingErrs_ne_nil (m : List (String × node)) (deps : List String)
    (hI : ∀ k n, mapGet m k = some n → errMatches n) :
    ∀ x ∈ blockingErrs m deps, x ≠ GoError.nil := by
  induction deps with
  | nil => intro x hx; simp [blockingErrs] at hx
  | cons d ds ih =>
    intro x hx
    rw [blockingErrs] at hx
    cases hget : mapGet m d with
    | none =>
      simp only [hget] at hx
      exact ih x hx
    | some p =>
      simp only [hget] at hx
      by_cases hb : p.state.blocking = true
      · simp only [hb, if_true, List.mem_cons] at hx
        rcases hx with rfl | hx
        · exact blocking_of_errMatches (hI d p hget) hb
        · exact ih x hx
      · simp only [hb] at hx
        exact ih x hx

theorem blockingErrs_ne_empty (m : List (String × node)) (deps : List String)
    (h : deps.any (depBlocking m) = true) : blockingErrs m deps ≠ [] := by
  induction deps with
  | nil => simp at h
  | cons d ds ih =>
    rw [blockingErrs]
    simp only [List.any_cons, Bool.or_eq_true] at h
    cases hget : mapGet m d with
    | none =>
      simp only [hget]
      rcases h with h | h
      · simp [depBlocking, hget] at h
      · exact ih h
    | some p =>
      simp only [hget]
      by_cases hb : p.state.blocking = true
      · simp [hb]
      · simp only [hb]
        rcases h with h | h
        · simp [depBlocking, hget, hb] at h
        · exact ih h

theorem decided_errMatches (m : List (String × node)) (n : node)
    (hI : ∀ k n, mapGet m k = some n → errMatches n) (hn : errMatches n)
    (hne : n.state.needsEvaluation = true) : errMatches (decided m n) := by
  have herr : n.err = GoError.nil := by
    apply nil_of_errMatches hn
    cases hs : n.state <;> simp [hs, state.needsEvaluation] at hne ⊢
  unfold decided
  by_cases h1 : n.dependencies.any (depAbsent m) = true
  · simp only [h1, if_true]
    simp [errMatches, herr]
  · simp only [h1]
    by_cases h2 : n.dependencies.any (depBlocking m) = true
    · simp only [h2, if_true]
      have := composeError_ne_nil _ (blockingErrs_ne_empty m _ h2)
        (blockingErrs_ne_nil m n.dependencies hI)
      simp [errMatches, this]
    · simp only [h2]
      by_cases h3 : n.dependencies.all (depDone m) = true
      · simp only [h3, if_true]
        simp [errMatches, herr]
      · simp only [h3]
        exact hn

theorem setState_notified (e : engine) (id : String) (s : state) :
    ∃ x, (setState e id s).notified = e.notified ++ [x] ∧ x.Typ = EventType.StateChange :=
  ⟨_, rfl, rfl⟩

theorem conclude_notified (e : engine) (n : node) (f : Flags) :
    ∃ sc, (conclude e n f).notified = e.notified ++ sc ∧
      ∀ x ∈ sc, x.Typ = EventType.StateChange := by
  have h1 : ∃ sc, (if f.missingDep then setState e n.id state.missingDependency
      else if f.isBlocked then
        setError (setState e n.id state.blocked) n.id (composeError f.blockingErrors)
      else e).notified = e.notified ++ sc ∧ ∀ x ∈ sc, x.Typ = EventType.StateChange := by
    by_cases hm : f.missingDep = true
    · simp only [hm, if_true]
      obtain ⟨x, hx, ht⟩ := setState_notified e n.id state.missingDependency
      exact ⟨[x], hx, by simpa using ht⟩
    · simp only [hm]
      by_cases hb : f.isBlocked = true
      · simp only [hb, if_true]
        obtain ⟨x, hx, ht⟩ := setState_notified e n.id state.blocked
        exact ⟨[x], hx, by simpa using ht⟩
      · simp only [hb]
        exact ⟨[], by simp, by simp⟩
  obtain ⟨sc, hsc, hall⟩ := h1
  unfold conclude
  by_cases ha : f.allDone = true
  · simp only [ha, if_true]
    obtain ⟨x, hx, ht⟩ := setState_notified (if f.missingDep then
        setState e n.id state.missingDependency
      else if f.isBlocked then
        setError (setState e n.id state.blocked) n.id (composeError f.blockingErrors)
      else e) n.id state.dispatched
    refine ⟨sc ++ [x], ?_, ?_⟩
    · show (setState _ n.id state.dispatched).notified = _
      rw [hx, hsc, List.append_assoc]
    · intro y hy
      rcases List.mem_append.mp hy with hy | hy
      · exact hall y hy
      · rw [List.mem_singleton.mp hy]; exact ht
  · simp only [ha]
    exact ⟨sc, hsc, hall⟩

theorem walk_errInv (e : engine) (order : List String) (hwk : wellKeyed e.nodes)
    (hI : ∀ k n, mapGet e.nodes k = some n → errMatches n) :
    ∃ e1 v, walk e order = some e1 ∧ Walked (e, []) (e1, v) ∧
      (∀ k n, mapGet e1.nodes k = some n → errMatches n) ∧
      ∃ sc, e1.notified = e.notified ++ sc ∧ ∀ x ∈ sc, x.Typ = EventType.StateChange := by
  obtain ⟨e1, v, h1, hI1, hw⟩ := walk_invariant (errInv e)
    (fun st id hI => hI)
    (fun st m _ hI hg hne => by
      obtain ⟨hrec, sc, hsc, hall⟩ := hI
      refine ⟨?_, ?_⟩
      · intro k n hk
        have hget := (conclude_decided st.1 m hg).1 k
        have hk1 : mapGet (conclude st.1 m
            (foldFlags st.1.nodes m.dependencies Flags.init)).nodes k = some n := hk
        rw [hget] at hk1
        by_cases hkm : k = m.id
        · rw [if_pos hkm] at hk1
          cases hk1
          exact decided_errMatches st.1.nodes m hrec (hrec _ _ hg) hne
        · rw [if_neg hkm] at hk1
          exact hrec k n hk1
      · obtain ⟨sc1, hsc1, hall1⟩ := conclude_notified st.1 m
          (foldFlags st.1.nodes m.dependencies Flags.init)
        refine ⟨sc ++ sc1, ?_, ?_⟩
        · show (conclude _ _ _).notified = _
          rw [hsc1, hsc, List.append_assoc]
        · intro y hy
          rcases List.mem_append.mp hy with hy | hy
          · exact hall y hy
          · exact hall1 y hy)
    e order hwk ⟨hI, [], by simp, by simp⟩
  exact ⟨e1, v, h1, hw, hI1.1, hI1.2⟩

theorem applyEvent_notified (e : engine) (ev : Event) :
    ∃ sc, (applyEvent e ev).notified = e.notified ++ sc ∧
      ∀ x ∈ sc, x.Typ = EventType.StateChange := by
  unfold applyEvent
  cases ev.Typ with
  | Submit => exact ⟨[], by simp, by simp⟩
  | Close => exact ⟨[], by simp, by simp⟩
  | Execute => exact ⟨[], by simp, by simp⟩
  | Wait => exact ⟨[], by simp, by simp⟩
  | StateChange => exact ⟨[], by simp, by simp⟩
  | TaskStart =>
    obtain ⟨x, hx, ht⟩ := setState_notified e ev.NodeId state.running
    exact ⟨[x], hx, by simpa using ht⟩
  | TaskExit =>
    by_cases herr : ev.Err = GoError.nil
    · simp only [herr, if_true]
      obtain ⟨x, hx, ht⟩ := setState_notified e ev.NodeId state.done
      exact ⟨[x], hx, by simpa using ht⟩
    · simp only [herr, if_false]
      obtain ⟨x, hx, ht⟩ := setState_notified e ev.NodeId state.errored
      exact ⟨[x], hx, by simpa using ht⟩

theorem count_events_append (t : EventType) (ht : t ≠ EventType.StateChange)
    (l sc : List Event) (ev : Event) (id : String)
    (hsc : ∀ x ∈ sc, x.Typ = EventType.StateChange) :
    (((l ++ sc) ++ [ev]).filter (fun x => x.Typ = t ∧ x.NodeId = id)).length =
      (l.filter (fun x => x.Typ = t ∧ x.NodeId = id)).length +
        (if ev.Typ = t ∧ ev.NodeId = id then 1 else 0) := by
  have h0 : sc.filter (fun x => decide (x.Typ = t ∧ x.NodeId = id)) = [] := by
    rw [List.filter_eq_nil_iff]
    intro x hx
    have := hsc x hx
    simp only [decide_eq_true_eq, not_and]
    intro h
    exact absurd (this.symm.trans h).symm ht
  rw [List.filter_append, List.filter_append, h0, List.append_nil, List.length_append]
  by_cases h : ev.Typ = t ∧ ev.NodeId = id
  · simp [h]
  · rw [if_neg h]
    simp only [List.filter_cons, List.filter_nil]
    simp [h]

theorem loopStep_notified (e e1 : engine) (ev : Event) (order : List String)
    (hwk : wellKeyed e.nodes) (hI : ∀ k n, mapGet (applyEvent e ev).nodes k = some n → errMatches n)
    (hc : ev.Typ ≠ EventType.Close) (h : loopStep e ev order = some e1) :
    ∃ e2 v, Walked (applyEvent e ev, []) (e2, v) ∧ e1.nodes = e2.nodes ∧
      e1.spawned = e2.spawned ∧
      (∀ k n, mapGet e1.nodes k = some n → errMatches n) ∧
      ∀ id, taskStarts e1 id = taskStarts e id +
          (if ev.Typ = EventType.TaskStart ∧ ev.NodeId = id then 1 else 0) ∧
        taskExits e1 id = taskExits e id +
          (if ev.Typ = EventType.TaskExit ∧ ev.NodeId = id then 1 else 0) := by
  obtain ⟨e2, v, h2, hw, hrec, sc2, hsc2, hall2⟩ :=
    walk_errInv (applyEvent e ev) order (applyEvent_wellKeyed e ev hwk) hI
  have hstep : loopStep e ev order = some (notify (checkDone e2) ev) := by
    simp [loopStep, hc, h2]
  rw [hstep] at h
  cases h
  obtain ⟨sc1, hsc1, hall1⟩ := applyEvent_notified e ev
  have hnot : (notify (checkDone e2) ev).notified = (e.notified ++ (sc1 ++ sc2)) ++ [ev] := by
    show e2.notified ++ [ev] = _
    rw [hsc2, hsc1]
    simp only [List.append_assoc]
  have hall : ∀ x ∈ sc1 ++ sc2, x.Typ = EventType.StateChange := by
    intro x hx
    rcases List.mem_append.mp hx with hx | hx
    · exact hall1 x hx
    · exact hall2 x hx
  refine ⟨e2, v, hw, rfl, rfl, hrec, ?_⟩
  intro id
  constructor
  · unfold taskStarts
    rw [hnot]
    exact count_events_append _ (by decide) _ _ _ _ hall
  · unfold taskExits
    rw [hnot]
    exact count_events_append _ (by decide) _ _ _ _ hall

theorem workersFor_le_one {e : engine} (h : dispatchedOnce e) (id : String) :
    workersFor e id ≤ 1 :=
  List.nodup_iff_count_le_one.mp h.2.1 id

theorem inFlight_worker_node {e : engine} (hJ : inFlight e) {id : String}
    (hid : id ∈ e.dispatchedIds) (hex : taskExits e id = 0) :
    ∃ n, mapGet e.nodes id = some n ∧ n.err = GoError.nil ∧
      (n.state = state.dispatched ∨ n.state = state.running) := by
  obtain ⟨w, hw, rfl⟩ := List.mem_map.mp hid
  obtain ⟨n, hn, hs⟩ := hJ.2.2.2 w hw hex
  refine ⟨n, hn, nil_of_errMatches (hJ.2.1 _ _ hn) ?_, hs⟩
  rcases hs with hs | hs <;> simp [hs]

theorem applyEvent_errMatches (e : engine) (ev : Event) (hJ : inFlight e)
    (hadm : Admissible e ev) (hok : onceInTurn e ev) :
    ∀ k n, mapGet (applyEvent e ev).nodes k = some n → errMatches n := by
  intro k n hk
  cases hadm with
  | submit id task deps =>
    have hk1 : mapGet (mapSet e.nodes id
        { node.zero with id := id, task := task, dependencies := deps }) k = some n := hk
    rw [mapGet_mapSet] at hk1
    by_cases hki : k = id
    · rw [if_pos hki] at hk1
      cases hk1
      simp [errMatches, node.zero]
    · rw [if_neg hki] at hk1
      exact hJ.2.1 k n hk1
  | execute ids => exact hJ.2.1 k n hk
  | wait ids c => exact hJ.2.1 k n hk
  | taskStart id hid =>
    have h1 : taskStarts e id < workersFor e id := hok.2.1 rfl
    have h2 := workersFor_le_one hJ.1 id
    have h3 := (hJ.2.2.1 id).1
    obtain ⟨n0, hn0, herr, _⟩ := inFlight_worker_node hJ hid (by omega)
    have hk1 : mapGet (mapSet e.nodes id
        { mapIndex e.nodes id with state := state.running }) k = some n := hk
    rw [mapGet_mapSet, mapIndex_of_get hn0] at hk1
    by_cases hki : k = id
    · rw [if_pos hki] at hk1
      cases hk1
      simp [errMatches, herr]
    · rw [if_neg hki] at hk1
      exact hJ.2.1 k n hk1
  | taskExit id err hid =>
    have h1 : taskExits e id < taskStarts e id := hok.2.2 rfl
    have h2 := workersFor_le_one hJ.1 id
    have h3 := (hJ.2.2.1 id).2
    obtain ⟨n0, hn0, herr, _⟩ := inFlight_worker_node hJ hid (by omega)
    by_cases he : err = GoError.nil
    · have hk1 : mapGet (mapSet e.nodes id
          { mapIndex e.nodes id with state := state.done }) k = some n := by
        have : (applyEvent e (TaskExit id err)).nodes = mapSet e.nodes id
            { mapIndex e.nodes id with state := state.done } := by
          simp [applyEvent, TaskExit, he, setState_nodes]
        rw [← this]; exact hk
      rw [mapGet_mapSet, mapIndex_of_get hn0] at hk1
      by_cases hki : k = id
      · rw [if_pos hki] at hk1
        cases hk1
        simp [errMatches, herr]
      · rw [if_neg hki] at hk1
        exact hJ.2.1 k n hk1
    · have hk1 : mapGet (mapSet e.nodes id
          { mapIndex e.nodes id with state := state.errored, err := err }) k = some n := by
        have : (applyEvent e (TaskExit id err)).nodes = mapSet e.nodes id
            { mapIndex e.nodes id with state := state.errored, err := err } := by
          simp [applyEvent, TaskExit, he, setError_setState_nodes]
        rw [← this]; exact hk
      rw [mapGet_mapSet, mapIndex_of_get hn0] at hk1
      by_cases hki : k = id
      · rw [if_pos hki] at hk1
        cases hk1
        simp [errMatches, he]
      · rw [if_neg hki] at hk1
        exact hJ.2.1 k n hk1

theorem applyEvent_inFlight_node (e : engine) (ev : Event) (hJ : inFlight e)
    (hadm : Admissible e ev) (hok : onceInTurn e ev) (w : Worker) (hw : w ∈ e.spawned)
    (hex : taskExits e w.node.id = 0)
    (hnot : ¬ (ev.Typ = EventType.TaskExit ∧ ev.NodeId = w.node.id)) :
    ∃ n, mapGet (applyEvent e ev).nodes w.node.id = some n ∧
      (n.state = state.dispatched ∨ n.state = state.running) := by
  obtain ⟨n0, hn0, hs0⟩ := hJ.2.2.2 w hw hex
  cases hadm with
  | submit id task deps =>
    have hfirst : mapGet e.nodes id = none := hok.1 rfl
    have hne : w.node.id ≠ id := by
      intro h
      rw [h, hfirst] at hn0
      cases hn0
    refine ⟨n0, ?_, hs0⟩
    show mapGet (mapSet e.nodes id _) w.node.id = _
    rw [mapGet_mapSet, if_neg hne]
    exact hn0
  | execute ids => exact ⟨n0, hn0, hs0⟩
  | wait ids c => exact ⟨n0, hn0, hs0⟩
  | taskStart id hid =>
    by_cases hki : w.node.id = id
    · refine ⟨{ n0 with state := state.running }, ?_, Or.inr rfl⟩
      show mapGet (mapSet e.nodes id { mapIndex e.nodes id with state := state.running })
        w.node.id = _
      rw [mapGet_mapSet, if_pos hki, ← hki, mapIndex_of_get hn0]
    · refine ⟨n0, ?_, hs0⟩
      show mapGet (mapSet e.nodes id { mapIndex e.nodes id with state := state.running })
        w.node.id = _
      rw [mapGet_mapSet, if_neg hki]
      exact hn0
  | taskExit id err hid =>
    have hki : w.node.id ≠ id := fun h => hnot ⟨rfl, h.symm⟩
    refine ⟨n0, ?_, hs0⟩
    rw [applyEvent_get e _ _ (by
      intro hwr
      rcases hwr with hwr | hwr | hwr
      · simp [TaskExit] at hwr
      · simp [TaskExit] at hwr
      · exact hki hwr.2.symm)]
    exact hn0

theorem loopStep_inFlight (e e1 : engine) (ev : Event) (order : List String)
    (hJ : inFlight e) (hadm : Admissible e ev) (hok : onceInTurn e ev)
    (h : loopStep e ev order = some e1) : inFlight e1 := by
  have hc : ev.Typ ≠ EventType.Close := by
    cases hadm <;> simp [Submit, Execute, Wait, TaskStart, TaskExit]
  have hd1 := loopStep_dispatchedOnce e e1 ev order hJ.1 hadm hok.1 h
  obtain ⟨e2, v, hw, hnodes, hspawn, hrec, hcount⟩ :=
    loopStep_notified e e1 ev order hJ.1.1 (applyEvent_errMatches e ev hJ hadm hok) hc h
  obtain ⟨new, hnew, _, hnewok⟩ := hw.spawned
  have hsp : e1.spawned = e.spawned ++ new := by
    rw [hspawn, hnew]
    show (applyEvent e ev).spawned ++ new = _
    rw [applyEvent_spawned]
  have hworkers : ∀ id, workersFor e id ≤ workersFor e1 id := by
    intro id
    unfold workersFor engine.dispatchedIds
    rw [hsp, List.map_append, List.count_append]
    exact Nat.le_add_right _ _
  refine ⟨hd1, hrec, ?_, ?_⟩
  · intro id
    obtain ⟨hs, hx⟩ := hcount id
    have hold := hJ.2.2.1 id
    have hwk := hworkers id
    constructor
    · rw [hs, hx]
      by_cases hxe : ev.Typ = EventType.TaskExit ∧ ev.NodeId = id
      · have h1 := hok.2.2 hxe.1
        rw [hxe.2] at h1
        have hns : ¬ (ev.Typ = EventType.TaskStart ∧ ev.NodeId = id) := by
          intro hh
          rw [hxe.1] at hh
          cases hh.1
        rw [if_pos hxe, if_neg hns]
        omega
      · rw [if_neg hxe]
        split <;> omega
    · rw [hs]
      by_cases hse : ev.Typ = EventType.TaskStart ∧ ev.NodeId = id
      · have h1 := hok.2.1 hse.1
        rw [hse.2] at h1
        rw [if_pos hse]
        omega
      · rw [if_neg hse]
        omega
  · intro w hwmem hex
    rw [hsp] at hwmem
    rw [hnodes]
    rcases List.mem_append.mp hwmem with hwo | hwn
    · obtain ⟨_, hx⟩ := hcount w.node.id
      rw [hx] at hex
      have hnot : ¬ (ev.Typ = EventType.TaskExit ∧ ev.NodeId = w.node.id) := by
        intro hh
        rw [if_pos hh] at hex
        omega
      rw [if_neg hnot] at hex
      obtain ⟨n, hn, hs⟩ := applyEvent_inFlight_node e ev hJ hadm hok w hwo (by omega) hnot
      obtain ⟨n1, hn1, mv⟩ := hw.moved _ _ hn
      have hne : n.state.needsEvaluation = false := by
        rcases hs with hs | hs <;> rw [hs] <;> rfl
      have := nodeMoved_keep mv hne
      subst this
      exact ⟨n1, hn1, hs⟩
    · obtain ⟨_, ⟨n1, hn1, hdisp⟩, _⟩ := hnewok w hwn
      exact ⟨n1, hn1, Or.inl hdisp⟩

theorem Reaches.stays_inFlight {e0 e : engine} (h : Reaches onceInTurn e0 e)
    (hJ : inFlight e0) : inFlight e := by
  induction h with
  | refl => exact hJ
  | step _ hadm hok _ hstep ih => exact loopStep_inFlight _ _ _ _ ih hadm hok hstep

theorem inFlight_NewDefault : inFlight NewDefault := by
  refine ⟨⟨by decide, by decide, ?_⟩, ?_, ?_, ?_⟩
  · intro w hw; cases hw
  · intro k n h; cases h
  · intro id; simp [taskExits, taskStarts, workersFor, NewDefault]
  · intro w hw; cases hw

/-! ## Dependencies of dispatched nodes over runs -/

theorem ready_update {m m1 : List (String × node)} {k : String} {v : node}
    (hm1 : ∀ k1, mapGet m1 k1 = if k1 = k then some v else mapGet m k1)
    (hK : ready m) (hold : ∀ p, mapGet m k = some p → p.state ≠ state.done)
    (hv : (v.state = state.dispatched ∨ v.state = state.running) →
      ∀ d ∈ v.dependencies, ∃ p, mapGet m d = some p ∧ p.state = state.done) :
    ready m1 := by
  have hkeep : ∀ d p, mapGet m d = some p → p.state = state.done →
      mapGet m1 d = some p := by
    intro d p hp hs
    have hdk : d ≠ k := by
      intro h
      subst h
      exact hold p hp hs
    rw [hm1, if_neg hdk]
    exact hp
  intro k1 n hget hs d hd
  rw [hm1] at hget
  by_cases hk : k1 = k
  · rw [if_pos hk] at hget
    cases hget
    obtain ⟨p, hp, hps⟩ := hv hs d hd
    exact ⟨p, hkeep d p hp hps, hps⟩
  · rw [if_neg hk] at hget
    obtain ⟨p, hp, hps⟩ := hK k1 n hget hs d hd
    exact ⟨p, hkeep d p hp hps, hps⟩

theorem decided_ready (m : List (String × node)) (n : node)
    (hne : n.state.needsEvaluation = true)
    (hs : (decided m n).state = state.dispatched ∨ (decided m n).state = state.running) :
    ∀ d ∈ (decided m n).dependencies, ∃ p, mapGet m d = some p ∧ p.state = state.done := by
  unfold decided at hs ⊢
  by_cases h1 : n.dependencies.any (depAbsent m) = true
  · simp [h1] at hs
  · simp only [h1] at hs ⊢
    by_cases h2 : n.dependencies.any (depBlocking m) = true
    · simp [h2] at hs
    · simp only [h2] at hs ⊢
      by_cases h3 : n.dependencies.all (depDone m) = true
      · simp only [h3, if_true]
        intro d hd
        have := List.all_eq_true.mp h3 d hd
        unfold depDone at this
        cases hget : mapGet m d with
        | none => simp [hget] at this
        | some p =>
          simp only [hget, decide_eq_true_eq] at this
          exact ⟨p, rfl, this⟩
      · simp only [h3] at hs
        cases hst : n.state <;> simp [hst, state.needsEvaluation] at hne hs

theorem walk_ready (e : engine) (order : List String) (hwk : wellKeyed e.nodes)
    (hK : ready e.nodes) : ∃ e1, walk e order = some e1 ∧ ready e1.nodes := by
  obtain ⟨e1, v, h1, hI, _⟩ := walk_invariant (fun st => ready st.1.nodes)
    (fun st id hI => hI)
    (fun st m _ hI hg hne =>
      ready_update (conclude_decided st.1 m hg).1 hI
        (fun p hp hs => by
          rw [hg] at hp
          cases hp
          rw [hs] at hne
          cases hne)
        (decided_ready st.1.nodes m hne))
    e order hwk hK
  exact ⟨e1, h1, hI⟩

theorem applyEvent_ready (e : engine) (ev : Event) (hJ : inFlight e) (hK : ready e.nodes)
    (hadm : Admissible e ev) (hok : onceInTurn e ev) : ready (applyEvent e ev).nodes := by
  have hnotdone : ∀ {n0 : node}, (n0.state = state.dispatched ∨ n0.state = state.running) →
      n0.state ≠ state.done := by
    intro n0 h hd
    rcases h with h | h <;> rw [h] at hd <;> cases hd
  cases hadm with
  | submit id task deps =>
    have hfirst : mapGet e.nodes id = none := hok.1 rfl
    exact ready_update (fun k1 => mapGet_mapSet e.nodes id
        { node.zero with id := id, task := task, dependencies := deps } k1) hK
      (fun p hp => by rw [hfirst] at hp; cases hp)
      (fun hs => by rcases hs with hs | hs <;> cases hs)
  | execute ids => exact hK
  | wait ids c => exact hK
  | taskStart id hid =>
    have h1 : taskStarts e id < workersFor e id := hok.2.1 rfl
    have h2 := workersFor_le_one hJ.1 id
    have h3 := (hJ.2.2.1 id).1
    obtain ⟨n0, hn0, _, hs0⟩ := inFlight_worker_node hJ hid (by omega)
    refine ready_update (fun k1 => mapGet_mapSet e.nodes id
        { mapIndex e.nodes id with state := state.running } k1) hK
      (fun p hp => by rw [hn0] at hp; cases hp; exact hnotdone hs0) ?_
    rw [mapIndex_of_get hn0]
    intro _
    exact hK id n0 hn0 hs0
  | taskExit id err hid =>
    have h1 : taskExits e id < taskStarts e id := hok.2.2 rfl
    have h2 := workersFor_le_one hJ.1 id
    have h3 := (hJ.2.2.1 id).2
    obtain ⟨n0, hn0, _, hs0⟩ := inFlight_worker_node hJ hid (by omega)
    by_cases he : err = GoError.nil
    · have hn : (applyEvent e (TaskExit id err)).nodes = mapSet e.nodes id
          { mapIndex e.nodes id with state := state.done } := by
        simp [applyEvent, TaskExit, he, setState_nodes]
      rw [hn]
      exact ready_update (fun k1 => mapGet_mapSet e.nodes id _ k1) hK
        (fun p hp => by rw [hn0] at hp; cases hp; exact hnotdone hs0)
        (fun hs => by rcases hs with hs | hs <;> cases hs)
    · have hn : (applyEvent e (TaskExit id err)).nodes = mapSet e.nodes id
          { mapIndex e.nodes id with state := state.errored, err := err } := by
        simp [applyEvent, TaskExit, he, setError_setState_nodes]
      rw [hn]
      exact ready_update (fun k1 => mapGet_mapSet e.nodes id _ k1) hK
        (fun p hp => by rw [hn0] at hp; cases hp; exact hnotdone hs0)
        (fun hs => by rcases hs with hs | hs <;> cases hs)

theorem loopStep_ready (e e1 : engine) (ev : Event) (order : List String)
    (hJ : inFlight e) (hK : ready e.nodes) (hadm : Admissible e ev) (hok : onceInTurn e ev)
    (h : loopStep e ev order = some e1) : ready e1.nodes := by
  have hc : ev.Typ ≠ EventType.Close := by
    cases hadm <;> simp [Submit, Execute, Wait, TaskStart, TaskExit]
  obtain ⟨e2, h2, hK2⟩ := walk_ready (applyEvent e ev) order
    (applyEvent_wellKeyed e ev hJ.1.1) (applyEvent_ready e ev hJ hK hadm hok)
  have hstep : loopStep e ev order = some (notify (checkDone e2) ev) := by
    simp [loopStep, hc, h2]
  rw [hstep] at h
  cases h
  exact hK2

theorem Reaches.stays_ready {e0 e : engine} (h : Reaches onceInTurn e0 e)
    (hJ : inFlight e0) (hK : ready e0.nodes) : inFlight e ∧ ready e.nodes := by
  induction h with
  | refl => exact ⟨hJ, hK⟩
  | step _ hadm hok _ hstep ih =>
    exact ⟨loopStep_inFlight _ _ _ _ ih.1 hadm hok hstep,
      loopStep_ready _ _ _ _ ih.1 ih.2 hadm hok hstep⟩

theorem ready_NewDefault : ready NewDefault.nodes := by
  intro k n h
  cases h

theorem Reaches.of_imp {ok ok1 : engine → Event → Prop} {e0 e : engine}
    (himp : ∀ a ev, ok a ev → ok1 a ev) (h : Reaches ok e0 e) : Reaches ok1 e0 e := by
  induction h with
  | refl => exact Reaches.refl _
  | step _ hadm hok hperm hstep ih => exact Reaches.step ih hadm (himp _ _ hok) hperm hstep

theorem resubmitRun_prefix : Reaches onceInTurn NewDefault (resubmitAt 5) :=
  have h1 : Reaches onceInTurn NewDefault (resubmitAt 1) :=
    Reaches.step (Reaches.refl NewDefault) (Admissible.submit "1" (fun _ => GoError.nil) [])
      ⟨fun _ => rfl, by decide⟩ (List.Perm.refl _)
      (rfl : loopStep NewDefault (Submit "1" (fun _ => GoError.nil) []) [] =
        some (resubmitAt 1))
  have h2 : Reaches onceInTurn NewDefault (resubmitAt 2) :=
    Reaches.step h1 (Admissible.submit "2" (fun _ => GoError.nil) ["1"])
      ⟨fun _ => rfl, by decide⟩ (List.Perm.refl _)
      (rfl : loopStep (resubmitAt 1) (Submit "2" (fun _ => GoError.nil) ["1"]) [] =
        some (resubmitAt 2))
  have h3 : Reaches onceInTurn NewDefault (resubmitAt 3) :=
    Reaches.step h2 (Admissible.execute ["2"]) ⟨fun h => (by cases h), by decide⟩
      (List.Perm.refl _)
      (rfl : loopStep (resubmitAt 2) (Execute ["2"]) ["2"] = some (resubmitAt 3))
  have h4 : Reaches onceInTurn NewDefault (resubmitAt 4) :=
    Reaches.step h3 (Admissible.taskStart "1" (by decide)) ⟨fun h => (by cases h), by decide⟩
      (List.Perm.refl _)
      (rfl : loopStep (resubmitAt 3) (TaskStart "1") ["2"] = some (resubmitAt 4))
  Reaches.step h4 (Admissible.taskExit "1" GoError.nil (by decide))
    ⟨fun h => (by cases h), by decide⟩ (List.Perm.refl _)
    (rfl : loopStep (resubmitAt 4) (TaskExit "1" GoError.nil) ["2"] = some (resubmitAt 5))

/-! ## Nodes stuck on each other -/

theorem decided_of_stuck (m : List (String × node)) (n p : node) (d : String)
    (hdeps : n.dependencies = [d]) (hp : mapGet m d = some p)
    (hs : p.state = state.submitted) : decided m n = n ∧
      n.dependencies.all (depDone m) = false := by
  have h1 : n.dependencies.any (depAbsent m) = false := by simp [hdeps, depAbsent, hp]
  have h2 : n.dependencies.any (depBlocking m) = false := by
    simp [hdeps, depBlocking, hp, hs, state.blocking]
  have h3 : n.dependencies.all (depDone m) = false := by simp [hdeps, depDone, hp, hs]
  exact ⟨by simp [decided, h1, h2, h3], h3⟩

theorem walk_stuck (e : engine) (s : List String) (order : List String)
    (hwk : wellKeyed e.nodes) (hst : stuck e.nodes s) :
    ∃ e1, walk e order = some e1 ∧ wellKeyed e1.nodes ∧
      (∀ a ∈ s, mapGet e1.nodes a = mapGet e.nodes a) ∧
      (∃ new, e1.spawned = e.spawned ++ new ∧ ∀ w ∈ new, w.node.id ∉ s) ∧
      e1.waiting = e.waiting ∧ e1.sent = e.sent := by
  obtain ⟨e1, v, h1, hI, hw⟩ := walk_invariant (stuckInv e s)
    (fun st id hI => hI)
    (fun st m _ hI hg hne => by
      intro a ha
      have hget := (conclude_decided st.1 m hg).1
      show mapGet (conclude _ _ _).nodes a = _
      rw [hget]
      by_cases ham : a = m.id
      · subst ham
        rw [if_pos rfl]
        obtain ⟨n, hn, _, d, hd, hdeps⟩ := hst _ ha
        have hrec := hI _ ha
        rw [hn] at hrec
        have hrec' : mapGet st.1.nodes m.id = some n := hrec
        rw [hg] at hrec'
        cases hrec'
        obtain ⟨p, hp, hps, _⟩ := hst d hd
        have hpst : mapGet st.1.nodes d = some p := by rw [hI d hd]; exact hp
        rw [(decided_of_stuck st.1.nodes m p d hdeps hpst hps).1, hn]
      · rw [if_neg ham]
        exact hI a ha)
    e order hwk (fun _ _ => rfl)
  refine ⟨e1, h1, hw.wk hwk, hI, ?_, hw.waiting, hw.sent⟩
  obtain ⟨new, hnew, _, hok⟩ := hw.spawned
  refine ⟨new, hnew, ?_⟩
  intro w hwm hin
  obtain ⟨_, ⟨n1, hn1, hdisp⟩, _⟩ := hok w hwm
  obtain ⟨n, hn, hs, _⟩ := hst _ hin
  have hn1' : mapGet e1.nodes w.node.id = some n1 := hn1
  rw [hI _ hin, hn] at hn1'
  cases hn1'
  rw [hs] at hdisp
  cases hdisp

theorem settled_false_of_stuck {m : List (String × node)} {s : List String} (hst : stuck m s)
    {w : Event} {a : String} (ha : a ∈ s) (haw : a ∈ w.NodeIds) : settled m w = false := by
  obtain ⟨n, hn, hs, _⟩ := hst a ha
  have h1 : settles m a = false := by simp [settles, hn, hs]
  simp only [settled, checkTargets_eq, Bool.true_and]
  rw [List.all_eq_false]
  exact ⟨a, haw, by simp [h1]⟩

/-! ## Claims about settlement and error composition -/

/-- C5: a waiter target that names a node in state `missingDependency` makes `checkDone`
append, at that target's position, an `ErrMissingDependency` whose `Ids` are exactly the
declared dependencies of the node that are absent from `nodes`, in declaration order, and
it leaves `isDone` as it was; a waiter with that single target is sent this error. -/
theorem checkDone_missingDependency_ids (e : engine) (id : String) (n : node)
    (hget : mapGet e.nodes id = some n) (hst : n.state = state.missingDependency) :
    (∀ (pre post : List String) (errors : List GoError) (isDone : Bool),
      checkTargets e.nodes (pre ++ id :: post) errors isDone =
        checkTargets e.nodes post
          ((checkTargets e.nodes pre errors isDone).1 ++
            [GoError.ErrMissingDependency
              (n.dependencies.filter (fun d => (mapGet e.nodes d).isNone))])
          (checkTargets e.nodes pre errors isDone).2) ∧
    (∀ w ∈ e.waiting, w.NodeIds = [id] →
      (w.channel, GoError.ErrMissingDependency
          (n.dependencies.filter (fun d => (mapGet e.nodes d).isNone))) ∈
        ((checkDone e).sent.drop e.sent.length) ∧ w ∉ (checkDone e).waiting) := by
  have hc : contribution e.nodes id = [GoError.ErrMissingDependency
      (n.dependencies.filter (fun d => (mapGet e.nodes d).isNone))] := by
    simp [contribution, hget, hst]
  have hs : settles e.nodes id = true := by simp [settles, hget, hst]
  refine ⟨?_, ?_⟩
  · intro pre post errors isDone
    rw [checkTargets_append, checkTargets_cons, hc, hs, Bool.and_true]
  · intro w hw hids
    have h1 : settled e.nodes w = true := by
      simp [settled, hids, checkTargets_eq, hs]
    have hv : verdict e.nodes w = GoError.ErrMissingDependency
          (n.dependencies.filter (fun d => (mapGet e.nodes d).isNone)) := by
      simp [verdict, hids, checkTargets_eq, hc, composeError]
    rw [← hv]
    exact checkDone_replies hw h1

theorem checkDone_missingDependency_ids_witness :
    (0, GoError.ErrMissingDependency ["two", "three"]) ∈
        (checkDone missingDepEngine).sent.drop missingDepEngine.sent.length ∧
      Wait ["1"] 0 ∉ (checkDone missingDepEngine).waiting :=
  (checkDone_missingDependency_ids missingDepEngine "1"
    { node.zero with id := "1", state := state.missingDependency,
                     dependencies := ["two", "three"] } rfl rfl).2
    (Wait ["1"] 0) (List.mem_singleton.mpr rfl) rfl

/-- C6: a waiter all of whose targets are present in `nodes` in state `done` (an empty
target list included) is sent nil by `checkDone` and is no longer in `waiting`. -/
theorem checkDone_all_done_replies_nil (e : engine) (w : Event) (hw : w ∈ e.waiting)
    (hdone : ∀ id ∈ w.NodeIds, ∃ n, mapGet e.nodes id = some n ∧ n.state = state.done) :
    (w.channel, GoError.nil) ∈ (checkDone e).sent.drop e.sent.length ∧
      w ∉ (checkDone e).waiting := by
  have hct := checkTargets_all_done e.nodes w.NodeIds [] true hdone
  have hs : settled e.nodes w = true := by simp [settled, hct]
  have hv : verdict e.nodes w = GoError.nil := by simp [verdict, hct, composeError]
  rw [← hv]
  exact checkDone_replies hw hs

theorem checkDone_all_done_replies_nil_witness :
    (0, GoError.nil) ∈ (checkDone { NewDefault with waiting := [Wait [] 0] }).sent.drop 0 ∧
      Wait [] 0 ∉ (checkDone { NewDefault with waiting := [Wait [] 0] }).waiting :=
  checkDone_all_done_replies_nil { NewDefault with waiting := [Wait [] 0] } (Wait [] 0)
    (List.mem_singleton.mpr rfl) (fun _ h => absurd h (List.not_mem_nil _))

/-- C7: `composeError` returns nil for the empty list, the element itself for a list of
one, and for a list of two or more a `CompositeError` whose `Errors` is the list given. -/
theorem composeError_cases :
    composeError [] = GoError.nil ∧
      (∀ x : GoError, composeError [x] = x) ∧
      ∀ (a b : GoError) (rest : List GoError),
        composeError (a :: b :: rest) = GoError.CompositeError (a :: b :: rest) := by
  refine ⟨rfl, fun x => rfl, fun a b rest => ?_⟩
  simp [composeError]

/-- C8, failing input: for the children `errors.New("")` and `errors.New("x")` the buffer
is still empty when the second child is written, so `CompositeError.Error` leaves the
separator out and yields "x", where joining the messages with ", " yields ", x". -/
theorem CompositeError_Error_empty_first_child :
    (GoError.CompositeError [GoError.errorString "", GoError.errorString "x"]).Error = some "x" ∧
      (GoError.errorString "").Error = some "" ∧ (GoError.errorString "x").Error = some "x" ∧
      stringsJoin ["", "x"] ", " = ", x" := by
  decide

/-- C9, counterexample: for the absent target "x" the error `checkDone` contributes reads
"Failed to find task x", with a capital F, which is not "failed to find task x". -/
theorem lookup_failure_message_capitalised :
    (checkTargets [] ["x"] [] true).1.map GoError.Error = [some "Failed to find task x"] ∧
      some "Failed to find task x" ≠ some "failed to find task x" := by
  decide

/-- C9, amended: a target id that is not a key of `nodes` makes `checkDone` append, at that
target's position, an error whose message is "Failed to find task " followed by the id,
and leaves `isDone` as it was; a waiter with that single target is sent this error and is
no longer in `waiting`. -/
theorem checkDone_absent_target (e : engine) (id : String) (habs : mapGet e.nodes id = none) :
    (GoError.errorString ("Failed to find task " ++ id)).Error =
        some ("Failed to find task " ++ id) ∧
    (∀ (pre post : List String) (errors : List GoError) (isDone : Bool),
      checkTargets e.nodes (pre ++ id :: post) errors isDone =
        checkTargets e.nodes post
          ((checkTargets e.nodes pre errors isDone).1 ++
            [GoError.errorString ("Failed to find task " ++ id)])
          (checkTargets e.nodes pre errors isDone).2) ∧
    (∀ w ∈ e.waiting, w.NodeIds = [id] →
      (w.channel, GoError.errorString ("Failed to find task " ++ id)) ∈
        ((checkDone e).sent.drop e.sent.length) ∧ w ∉ (checkDone e).waiting) := by
  have hc : contribution e.nodes id = [GoError.errorString ("Failed to find task " ++ id)] := by
    simp [contribution, habs]
  have hs : settles e.nodes id = true := by simp [settles, habs]
  refine ⟨rfl, ?_, ?_⟩
  · intro pre post errors isDone
    rw [checkTargets_append, checkTargets_cons, hc, hs, Bool.and_true]
  · intro w hw hids
    have h1 : settled e.nodes w = true := by
      simp [settled, hids, checkTargets_eq, hs]
    have hv : verdict e.nodes w = GoError.errorString ("Failed to find task " ++ id) := by
      simp [verdict, hids, checkTargets_eq, hc, composeError]
    rw [← hv]
    exact checkDone_replies hw h1

theorem checkDone_absent_target_witness :
    (7, GoError.errorString "Failed to find task ghost") ∈
        (checkDone { NewDefault with waiting := [Wait ["ghost"] 7] }).sent.drop 0 ∧
      Wait ["ghost"] 7 ∉ (checkDone { NewDefault with waiting := [Wait ["ghost"] 7] }).waiting :=
  (checkDone_absent_target { NewDefault with waiting := [Wait ["ghost"] 7] } "ghost" rfl).2.2
    (Wait ["ghost"] 7) (List.mem_singleton.mpr rfl) rfl

/-! ## Claims about the walker and the loop -/

/-- C1, counterexample: "2" depends on "1" and is executed; "1" runs to `done` and "2" is
dispatched.  A second `Submit("1")` then overwrites the record of "1", and the worker of
"2" sends its `TaskStart`: "2" becomes `running` while its dependency "1" is `submitted`.
Every event is one of the public API or the next event of a started worker. -/
theorem running_with_resubmitted_dependency :
    Reaches workerTurn NewDefault (resubmitAt 7) ∧
      (mapGet (resubmitAt 6).nodes "2").map (fun n => (n.state, n.dependencies)) =
        some (state.dispatched, ["1"]) ∧
      (mapGet (resubmitAt 7).nodes "2").map (fun n => (n.state, n.dependencies)) =
        some (state.running, ["1"]) ∧
      (mapGet (resubmitAt 7).nodes "1").map (fun n => n.state) = some state.submitted :=
  have h5 : Reaches workerTurn NewDefault (resubmitAt 5) :=
    Reaches.of_imp (fun _ _ h => h.2) resubmitRun_prefix
  have h6 : Reaches workerTurn NewDefault (resubmitAt 6) :=
    Reaches.step h5 (Admissible.submit "1" (fun _ => GoError.nil) []) (by decide)
      (List.Perm.refl _)
      (rfl : loopStep (resubmitAt 5) (Submit "1" (fun _ => GoError.nil) []) ["2"] =
        some (resubmitAt 6))
  have h7 : Reaches workerTurn NewDefault (resubmitAt 7) :=
    Reaches.step h6 (Admissible.taskStart "2" (by decide)) (by decide) (List.Perm.refl _)
      (rfl : loopStep (resubmitAt 6) (TaskStart "2") ["2"] = some (resubmitAt 7))
  ⟨h7, by decide, by decide, by decide⟩

/-- C1, amended: a walker pass on an engine whose nodes awaiting evaluation are stored
under their own ids returns, and every worker it starts belongs to a node that awaited
evaluation before the pass and is `dispatched` after it, each of whose declared
dependencies was present and `done` in the map as it stood when `dispatch` was called, and
is the same record when the pass ends.  Hence, in every engine state reached from the fresh
engine by events of the public API and of workers, where no `Submit` names an id that
`nodes` already holds and every worker event is the next one of a started worker, every
node that is `dispatched` or `running` has each declared dependency present in `nodes` and
`done`. -/
theorem dispatched_or_running_after_dependencies (e : engine) :
    (wellKeyed e.nodes → ∀ order : List String,
      ∃ e1, walk e order = some e1 ∧
        ∀ w ∈ e1.spawned.drop e.spawned.length,
          (∃ n, mapGet e.nodes w.node.id = some n ∧ n.state.needsEvaluation = true ∧
            n.dependencies = w.node.dependencies) ∧
          (∃ n1, mapGet e1.nodes w.node.id = some n1 ∧ n1.state = state.dispatched) ∧
          ∀ d ∈ w.node.dependencies,
            ∃ m, mapGet w.seen d = some m ∧ m.state = state.done ∧
              mapGet e1.nodes d = some m) ∧
    (Reaches onceInTurn NewDefault e →
      ∀ k n, mapGet e.nodes k = some n →
        (n.state = state.dispatched ∨ n.state = state.running) →
        ∀ d ∈ n.dependencies, ∃ p, mapGet e.nodes d = some p ∧ p.state = state.done) := by
  refine ⟨fun hwk order => ?_, fun h => (Reaches.stays_ready h inFlight_NewDefault
    ready_NewDefault).2⟩
  obtain ⟨e1, h1⟩ := walk_terminates e order hwk
  obtain ⟨v, hv⟩ := walk_spec _ _ order hwk h1
  refine ⟨e1, h1, ?_⟩
  obtain ⟨new, hnew, _, hok⟩ := hv.spawned
  intro w hw
  have hnew1 : e1.spawned = e.spawned ++ new := hnew
  rw [hnew1, List.drop_left] at hw
  exact hok w hw

theorem dispatched_or_running_after_dependencies_witness :
    (∃ e1, walk depDoneEngine ["2"] = some e1 ∧
      ∀ w ∈ e1.spawned.drop depDoneEngine.spawned.length,
        (∃ n, mapGet depDoneEngine.nodes w.node.id = some n ∧
          n.state.needsEvaluation = true ∧ n.dependencies = w.node.dependencies) ∧
        (∃ n1, mapGet e1.nodes w.node.id = some n1 ∧ n1.state = state.dispatched) ∧
        ∀ d ∈ w.node.dependencies,
          ∃ m, mapGet w.seen d = some m ∧ m.state = state.done ∧
            mapGet e1.nodes d = some m) ∧
    Reaches onceInTurn NewDefault (resubmitAt 5) ∧
    (mapGet (resubmitAt 5).nodes "2").map (fun n => (n.state, n.dependencies)) =
      some (state.dispatched, ["1"]) ∧
    ∃ p, mapGet (resubmitAt 5).nodes "1" = some p ∧ p.state = state.done :=
  ⟨(dispatched_or_running_after_dependencies depDoneEngine).1 (by decide) ["2"],
    resubmitRun_prefix, by decide,
    (dispatched_or_running_after_dependencies (resubmitAt 5)).2 resubmitRun_prefix "2"
      { node.zero with id := "2", state := state.dispatched, dependencies := ["1"] } rfl
      (Or.inl rfl) "1" (List.mem_singleton.mpr rfl)⟩

/-- C3, counterexample: after "1" has been submitted, executed and has completed it is
`done`; a second `Submit` of "1" overwrites the record, and the walker pass of that event
dispatches the node again. -/
theorem resubmit_leaves_done :
    ((loop NewDefault completedRun).bind (fun e => mapGet e.nodes "1")).map (fun n => n.state)
        = some state.done ∧
      ((loop NewDefault (completedRun ++ [(Submit "1" (fun _ => GoError.nil) [], ["1"])])).bind
        (fun e => mapGet e.nodes "1")).map (fun n => n.state) = some state.dispatched := by
  decide

/-- C3, amended: in an engine whose nodes awaiting evaluation are stored under their own
ids, an event that does not write the record of `k` (any `Execute`, `Wait` or `Close`, and
any `Submit`, `TaskStart` or `TaskExit` naming another id) is processed to the end, and a
node under `k` that was `done`, `errored` or `blocked` before it is the same record, hence
in the same state, after the event's walker and settlement passes. -/
theorem terminal_record_kept (e : engine) (ev : Event) (order : List String) (k : String)
    (n : node) (hwk : wellKeyed e.nodes) (hget : mapGet e.nodes k = some n)
    (hterm : n.state = state.done ∨ n.state = state.errored ∨ n.state = state.blocked)
    (hev : ¬ ev.writes k) :
    ∃ e1, loopStep e ev order = some e1 ∧ mapGet e1.nodes k = some n := by
  by_cases hc : ev.Typ = EventType.Close
  · exact ⟨stop e, by simp [loopStep, hc], hget⟩
  · obtain ⟨e2, v, _, hw, h2⟩ := loopStep_eq e ev order hwk hc
    refine ⟨_, h2, ?_⟩
    have h0 : mapGet (applyEvent e ev).nodes k = some n := by
      rw [applyEvent_get e ev k hev]; exact hget
    obtain ⟨n1, hn1, mv⟩ := hw.moved k n h0
    have hne : n.state.needsEvaluation = false := by
      rcases hterm with h | h | h <;> rw [h] <;> rfl
    have := nodeMoved_keep mv hne
    subst this
    exact hn1

theorem terminal_record_kept_witness :
    ∃ e1, loopStep depDoneEngine (Wait ["2"] 0) ["2"] = some e1 ∧
      mapGet e1.nodes "1" = some { node.zero with id := "1", state := state.done } :=
  terminal_record_kept depDoneEngine (Wait ["2"] 0) ["2"] "1"
    { node.zero with id := "1", state := state.done } (by decide) rfl (Or.inl rfl) (by decide)

/-- C2: in every engine state the loop reaches from a fresh engine by events of the public
API and of workers, no id being submitted while `nodes` already holds it, no two workers
have been started for the same node id: each node is dispatched at most once. -/
theorem dispatched_at_most_once (e : engine) (h : Reaches firstSubmit NewDefault e) :
    e.dispatchedIds.Nodup :=
  (Reaches.stays_dispatchedOnce h ⟨by decide, by decide, by intro w hw; cases hw⟩).2.1

theorem dispatched_at_most_once_witness :
    Reaches firstSubmit NewDefault afterExecute ∧ afterExecute.dispatchedIds = ["1"] ∧
      afterExecute.dispatchedIds.Nodup :=
  have hr : Reaches firstSubmit NewDefault afterExecute :=
    Reaches.step
      (Reaches.step (Reaches.refl NewDefault) (Admissible.submit "1" (fun _ => GoError.nil) [])
        (fun _ => rfl) (List.Perm.refl _) (rfl : loopStep NewDefault (Submit "1" (fun _ => GoError.nil) []) [] = some afterSubmit))
      (Admissible.execute ["1"]) (fun h => by cases h) (List.Perm.refl _)
      (rfl : loopStep afterSubmit (Execute ["1"]) ["1"] = some afterExecute)
  ⟨hr, by decide, dispatched_at_most_once afterExecute hr⟩

/-- C10: in an engine whose nodes awaiting evaluation are stored under their own ids, a
walker pass that iterates watched ids returns and leaves every key that is neither watched
nor a transitive declared dependency of a watched id with the record it had, starting no
worker for it; and over every sequence of API and worker events after each of which `x`
is not so reachable, a node `x` that was `submitted` (or absent) with no worker stays
`submitted` (or absent) and no worker is ever started for it. -/
theorem unreached_nodes_untouched (e : engine) (hwk : wellKeyed e.nodes) :
    (∀ order : List String, (∀ id ∈ order, id ∈ e.watching) →
      ∃ e1, walk e order = some e1 ∧
        ∀ k, ¬ DepReach e.nodes e.watching k →
          mapGet e1.nodes k = mapGet e.nodes k ∧
            k ∉ (e1.spawned.drop e.spawned.length).map (fun w => w.node.id)) ∧
    (∀ (x : String) (e2 : engine),
      (∀ n, mapGet e.nodes x = some n → n.state = state.submitted) → x ∉ e.dispatchedIds →
      Reaches (unreached x) e e2 →
      (∀ n, mapGet e2.nodes x = some n → n.state = state.submitted) ∧ x ∉ e2.dispatchedIds) :=
  ⟨fun order horder => walk_frame e order hwk horder,
   fun _ _ hsub hnot hr => (Reaches.stays_idleAt hr ⟨hwk, hsub, hnot⟩).2⟩

theorem unreached_nodes_untouched_witness :
    (∃ e1, walk singleDepEngine ["2"] = some e1 ∧
        ∀ k, ¬ DepReach singleDepEngine.nodes singleDepEngine.watching k →
          mapGet e1.nodes k = mapGet singleDepEngine.nodes k ∧
            k ∉ (e1.spawned.drop singleDepEngine.spawned.length).map (fun w => w.node.id)) ∧
      ¬ DepReach singleDepEngine.nodes singleDepEngine.watching "3" ∧
      Reaches (unreached "3") singleDepEngine singleDepWaited ∧
      (∀ n, mapGet singleDepWaited.nodes "3" = some n → n.state = state.submitted) ∧
      "3" ∉ singleDepWaited.dispatchedIds ∧ singleDepWaited.dispatchedIds = ["1"] :=
  have h3 : ¬ DepReach singleDepEngine.nodes ["2"] "3" := fun h => by
    rcases singleDep_reach "3" h with h | h <;> exact absurd h (by decide)
  have hr : Reaches (unreached "3") singleDepEngine singleDepWaited :=
    Reaches.step (Reaches.refl _) (Admissible.wait ["2"] 0) h3 (List.Perm.refl _)
      (rfl : loopStep singleDepEngine (Wait ["2"] 0) ["2"] = some singleDepWaited)
  have hall := unreached_nodes_untouched singleDepEngine (by decide)
  have h2 := hall.2 "3" singleDepWaited
    (fun n hn => by
      have : mapGet singleDepEngine.nodes "3" = some { node.zero with id := "3" } := rfl
      rw [this] at hn
      cases hn
      rfl)
    (by decide) hr
  ⟨hall.1 ["2"] (by decide), h3, hr, h2.1, h2.2, by decide⟩

/-- C4: in an engine that stores every node under its own id, let `c 0, ..., c k` with
`1 ≤ k` be a chain in which `c 0` is `errored` with error `E` and each `c (i + 1)` is
`submitted` and declares exactly the one dependency `c i`, the last node `c k` being
watched.  Then a single walker pass returns, after it every `c 1, ..., c k` is `blocked`
with `err` equal to `E` itself and has had no worker started, and the settlement pass
that follows sends exactly `E` to every waiter whose only target is `c k` and drops it
from `waiting`. -/
theorem chain_blocked_by_failure (e : engine) (order : List String) (c : Nat → String)
    (k : Nat) (E : GoError) (hsk : selfKeyed e.nodes)
    (hfail : ∃ n, mapGet e.nodes (c 0) = some n ∧ n.state = state.errored ∧ n.err = E)
    (hlink : ∀ i, i < k →
      ∃ n, mapGet e.nodes (c (i + 1)) = some n ∧ n.state = state.submitted ∧
        n.dependencies = [c i])
    (hk : 1 ≤ k) (hperm : order.Perm e.watching) (hwatch : c k ∈ e.watching) :
    ∃ e1, walk e order = some e1 ∧
      (∀ i, 1 ≤ i → i ≤ k →
        blockedWith e1.nodes E (c i) ∧
          c i ∉ (e1.spawned.drop e.spawned.length).map (fun w => w.node.id)) ∧
      ∀ w ∈ e1.waiting, w.NodeIds = [c k] →
        (w.channel, E) ∈ (checkDone e1).sent.drop e1.sent.length ∧
          w ∉ (checkDone e1).waiting := by
  have hwk := selfKeyed_wellKeyed hsk
  have hshape : chainShape e.nodes c k E :=
    ⟨hfail, fun i hi => by
      obtain ⟨n, hn, _, hd⟩ := hlink i hi
      exact ⟨n, hn, hd⟩⟩
  have hinj := chain_injective e.nodes c k E hshape (fun i hi => by
    obtain ⟨n, hn, hs, _⟩ := hlink i hi
    exact ⟨n, hn, hs⟩)
  obtain ⟨e1, h1⟩ := walk_terminates e order hwk
  refine ⟨e1, h1, ?_⟩
  have h1' := h1
  unfold walk at h1'
  cases hw : walkFrom (e.nodes.length + 1) order (e, []) with
  | none => simp [hw] at h1'
  | some st1 =>
    simp only [hw, Option.map_some', Option.some.injEq] at h1'
    subst h1'
    have hinit : chainInv e c k E (e, []) := by
      refine ⟨hsk, hshape, ?_, fun _ _ _ w hwm _ => hwm⟩
      intro i hi1 hi2
      obtain ⟨n, hn, hs, _⟩ := hlink (i - 1) (by omega)
      have : i - 1 + 1 = i := by omega
      rw [this] at hn
      exact Or.inl ⟨n, hn, hs, List.not_mem_nil _⟩
    have hfin := walkFrom_rule (chainInv e c k E) (fun _ => True)
      (fun fuel a b key m x1 x2 x3 x4 x5 =>
        walkChildren_chainInv e c k E hinj fuel a b key m x1 x2 x3 x4 x5)
      _ order (fun _ _ => trivial) (e, []) st1 hwk hinit hw
    obtain ⟨_, _, hstage, hsp⟩ := hfin
    have hlast : ∃ n, mapGet e.nodes (c k) = some n := by
      obtain ⟨n, hn, _⟩ := hlink (k - 1) (by omega)
      have : k - 1 + 1 = k := by omega
      rw [this] at hn
      exact ⟨n, hn⟩
    have hvis := walkFrom_marks _ order (c k) (e, []) st1 hsk (hperm.symm.subset hwatch)
      hlast hw
    have hall : ∀ j, 1 ≤ j → j ≤ k → blockedWith st1.1.nodes E (c j) := by
      rcases hstage k hk (le_refl _) with ⟨_, _, _, hu⟩ | hb
      · exact absurd hvis hu
      · exact hb
    have hwalked := walkFrom_spec _ order (e, []) st1 hwk hw
    refine ⟨fun i hi1 hi2 => ⟨hall i hi1 hi2, ?_⟩, ?_⟩
    · obtain ⟨new, hnew, _, hok⟩ := hwalked.spawned
      have hnew1 : st1.1.spawned = e.spawned ++ new := hnew
      intro hmem
      obtain ⟨w, hwm, hid⟩ := List.mem_map.mp hmem
      rw [hnew1, List.drop_left] at hwm
      obtain ⟨_, ⟨n1, hn1, hd⟩, _⟩ := hok w hwm
      obtain ⟨n2, hn2, hs2, _⟩ := hall i hi1 hi2
      have hid1 : w.node.id = c i := hid
      rw [hid1, hn2] at hn1
      cases hn1
      rw [hs2] at hd
      cases hd
    · intro w hwm hids
      obtain ⟨n, hn, hs, he⟩ := hall k hk (le_refl _)
      have hc : contribution st1.1.nodes (c k) = [E] := by
        simp [contribution, hn, hs, he]
      have hst : settles st1.1.nodes (c k) = true := by simp [settles, hn, hs]
      have h1 : settled st1.1.nodes w = true := by
        simp [settled, hids, checkTargets_eq, hst]
      have hv : verdict st1.1.nodes w = E := by
        simp [verdict, hids, checkTargets_eq, hc, composeError]
      rw [← hv]
      exact checkDone_replies hwm h1

theorem chain_blocked_by_failure_witness :
    ∃ e1, walk cascadeEngine ["3"] = some e1 ∧
      (∀ i, 1 ≤ i → i ≤ 2 →
        blockedWith e1.nodes (GoError.errorString "test error") (cascadeChain i) ∧
          cascadeChain i ∉
            (e1.spawned.drop cascadeEngine.spawned.length).map (fun w => w.node.id)) ∧
      ∀ w ∈ e1.waiting, w.NodeIds = [cascadeChain 2] →
        (w.channel, GoError.errorString "test error") ∈
            (checkDone e1).sent.drop e1.sent.length ∧
          w ∉ (checkDone e1).waiting :=
  chain_blocked_by_failure cascadeEngine ["3"] cascadeChain 2
    (GoError.errorString "test error") (by decide)
    ⟨{ node.zero with
        id := "1", state := state.errored, err := GoError.errorString "test error" },
      rfl, rfl, rfl⟩
    (fun i hi => by
      interval_cases i
      · exact ⟨{ node.zero with id := "2", dependencies := ["1"] }, rfl, rfl, rfl⟩
      · exact ⟨{ node.zero with id := "3", dependencies := ["2"] }, rfl, rfl, rfl⟩)
    (by decide) (List.Perm.refl _) (by decide)

/-! ## Further claims about settlement -/

/-- C11: a settlement pass sends one value, in order, to each waiter it finds settled and
nothing to the others, which are exactly the waiters it keeps in `waiting`, in their
original order; and over every run of API and worker events in which each `Wait` brings a
channel of its own, no channel is ever sent on twice. -/
theorem waiter_replied_at_most_once (e : engine) :
    ((checkDone e).sent =
        e.sent ++
          (e.waiting.filter (settled e.nodes)).map (fun w => (w.channel, verdict e.nodes w)) ∧
      (checkDone e).waiting = e.waiting.filter (fun w => !settled e.nodes w)) ∧
    (Reaches freshChannel NewDefault e → (e.sent.map Prod.fst).Nodup) := by
  refine ⟨⟨checkDone_sent e, checkDone_waiting e⟩, fun h => ?_⟩
  have := (Reaches.stays_repliedOnce h (by decide) (by simp [repliedOnce, NewDefault])).2
  exact (List.nodup_append.mp this).1

theorem waiter_replied_at_most_once_witness :
    Reaches freshChannel NewDefault afterEmptyWait ∧ afterEmptyWait.sent = [(0, GoError.nil)] ∧
      (afterEmptyWait.sent.map Prod.fst).Nodup :=
  have hr : Reaches freshChannel NewDefault afterEmptyWait :=
    Reaches.step (Reaches.refl NewDefault) (Admissible.wait [] 0)
      (fun _ => ⟨List.not_mem_nil _, List.not_mem_nil _⟩) (List.Perm.refl _)
      (rfl : loopStep NewDefault (Wait [] 0) [] = some afterEmptyWait)
  ⟨hr, by decide, (waiter_replied_at_most_once afterEmptyWait).2 hr⟩

/-- C16: `checkDone` replies to exactly the waiters all of whose targets settle, a target
settling when it is absent from `nodes` or names a node that is `done`, `errored`,
`blocked` or `missingDependency`; the value sent is `composeError` of the contributions of
the targets in target order, a contribution being nothing for `done`, the node's `err` for
`errored` and `blocked`, an `ErrMissingDependency` for `missingDependency` and a lookup
error for an absent id; all other waiters stay in `waiting`, in order. -/
theorem checkDone_replies_iff_all_settle (e : engine) :
    (checkDone e).sent =
        e.sent ++
          (e.waiting.filter (fun w => w.NodeIds.all (settles e.nodes))).map
            (fun w => (w.channel,
              composeError (w.NodeIds.map (contribution e.nodes)).flatten)) ∧
      (checkDone e).waiting =
        e.waiting.filter (fun w => !w.NodeIds.all (settles e.nodes)) ∧
      (∀ id, settles e.nodes id = true ↔
        (mapGet e.nodes id = none ∨
          ∃ n, mapGet e.nodes id = some n ∧
            (n.state = state.done ∨ n.state = state.errored ∨ n.state = state.blocked ∨
              n.state = state.missingDependency))) ∧
      (∀ id, mapGet e.nodes id = none →
        contribution e.nodes id = [GoError.errorString ("Failed to find task " ++ id)]) ∧
      (∀ id n, mapGet e.nodes id = some n →
        (n.state = state.done → contribution e.nodes id = []) ∧
        (n.state = state.errored ∨ n.state = state.blocked →
          contribution e.nodes id = [n.err]) ∧
        (n.state = state.missingDependency →
          contribution e.nodes id =
            [GoError.ErrMissingDependency
              (n.dependencies.filter (fun d => (mapGet e.nodes d).isNone))])) := by
  have hs : ∀ w : Event, settled e.nodes w = w.NodeIds.all (settles e.nodes) := by
    intro w
    simp [settled, checkTargets_eq]
  have hv : ∀ w : Event, verdict e.nodes w =
      composeError (w.NodeIds.map (contribution e.nodes)).flatten := by
    intro w
    simp [verdict, checkTargets_eq]
  refine ⟨?_, ?_, ?_, ?_, ?_⟩
  · rw [checkDone_sent]
    congr 1
    have : settled e.nodes = fun w => w.NodeIds.all (settles e.nodes) := funext hs
    rw [this]
    apply List.map_congr_left
    intro w _
    rw [hv]
  · rw [checkDone_waiting]
    congr 1
    funext w
    rw [hs]
  · intro id
    unfold settles
    cases hget : mapGet e.nodes id with
    | none => simp
    | some n => cases hst : n.state <;> simp [hst]
  · intro id hget
    simp [contribution, hget]
  · intro id n hget
    refine ⟨fun h => ?_, fun h => ?_, fun h => ?_⟩
    · simp [contribution, hget, h]
    · rcases h with h | h <;> simp [contribution, hget, h]
    · simp [contribution, hget, h]

theorem checkDone_replies_iff_all_settle_witness :
    (checkDone missingDepEngine).sent =
        missingDepEngine.sent ++
          (missingDepEngine.waiting.filter
            (fun w => w.NodeIds.all (settles missingDepEngine.nodes))).map
            (fun w => (w.channel,
              composeError (w.NodeIds.map (contribution missingDepEngine.nodes)).flatten)) ∧
      (checkDone missingDepEngine).sent =
        [(0, GoError.ErrMissingDependency ["two", "three"])] :=
  ⟨(checkDone_replies_iff_all_settle missingDepEngine).1, by decide⟩

/-! ## Claims about the decision of the walker -/

/-- C15: a call of `walkChildren` on a node `n` that needs evaluation, with fuel for the
keys not yet visited, returns; with `st2` the walker state its dependency loop ends in
(the unvisited dependencies evaluated), the record of `n` becomes `decided st2.1.nodes n`:
`missingDependency` with `err` kept if some dependency id is absent, otherwise `blocked`
with `err` the `composeError` of the `err`s of the blocking dependency occurrences in
declaration order, otherwise `dispatched` if every dependency is done (so for an empty
list), otherwise unchanged.  No other record changes, a worker is started exactly when
every dependency is done, and the accumulators never have `isBlocked` and `allDone`
together. -/
theorem walkChildren_decision (fuel : Nat) (n : node) (st : engine × List String)
    (hwk : wellKeyed st.1.nodes) (hget : mapGet st.1.nodes n.id = some n)
    (hne : n.state.needsEvaluation = true)
    (hfuel : unvisited st.1.nodes (n.id :: st.2) < fuel) :
    ∃ st1 st2, walkChildren fuel n st = some st1 ∧
      Scanned n.dependencies (st.1, n.id :: st.2) st2 Flags.init
        (foldFlags st2.1.nodes n.dependencies Flags.init) ∧
      mapGet st2.1.nodes n.id = some n ∧
      (∀ k, mapGet st1.1.nodes k =
        if k = n.id then some (decided st2.1.nodes n) else mapGet st2.1.nodes k) ∧
      st1.1.spawned =
        st2.1.spawned ++
          (if n.dependencies.all (depDone st2.1.nodes) then
            [{ node := n, seen := st2.1.nodes }] else []) ∧
      st1.2 = st2.2 ∧
      ((foldFlags st2.1.nodes n.dependencies Flags.init).isBlocked = true →
        (foldFlags st2.1.nodes n.dependencies Flags.init).allDone = false) ∧
      (n.dependencies = [] → decided st2.1.nodes n = { n with state := state.dispatched }) := by
  obtain ⟨st1, h⟩ := walkChildren_terminates fuel n st hwk ⟨n.id, hget⟩ (by omega)
    (fun _ => hfuel)
  obtain ⟨st2, hs, hg2, hst1⟩ := walkChildren_shape fuel n st st1 hwk hget hne h
  obtain ⟨c1, c2⟩ := conclude_decided st2.1 n hg2
  subst hst1
  refine ⟨_, st2, h, hs, hg2, c1, c2, rfl, ?_, ?_⟩
  · rw [foldFlags_eq]
    simp only [Flags.init, Bool.false_or, Bool.true_and]
    intro hb
    cases hall : n.dependencies.all (depDone st2.1.nodes) with
    | false => rfl
    | true =>
      rw [(depDone_not_absent hall).2] at hb
      cases hb
  · intro hd
    simp [decided, hd]

theorem walkChildren_decision_witness :
    ∃ st1 st2,
      walkChildren 3 { node.zero with id := "2", dependencies := ["1"] } (depDoneEngine, []) =
        some st1 ∧
      Scanned ["1"] (depDoneEngine, ["2"]) st2 Flags.init
        (foldFlags st2.1.nodes ["1"] Flags.init) ∧
      mapGet st2.1.nodes "2" = some { node.zero with id := "2", dependencies := ["1"] } ∧
      (∀ k, mapGet st1.1.nodes k =
        if k = "2" then
          some (decided st2.1.nodes { node.zero with id := "2", dependencies := ["1"] })
        else mapGet st2.1.nodes k) ∧
      st1.1.spawned =
        st2.1.spawned ++
          (if ["1"].all (depDone st2.1.nodes) then
            [{ node := { node.zero with id := "2", dependencies := ["1"] },
               seen := st2.1.nodes }] else []) ∧
      st1.2 = st2.2 ∧
      ((foldFlags st2.1.nodes ["1"] Flags.init).isBlocked = true →
        (foldFlags st2.1.nodes ["1"] Flags.init).allDone = false) ∧
      (["1"] = [] →
        decided st2.1.nodes { node.zero with id := "2", dependencies := ["1"] } =
          { node.zero with id := "2", dependencies := ["1"], state := state.dispatched }) :=
  walkChildren_decision 3 { node.zero with id := "2", dependencies := ["1"] }
    (depDoneEngine, []) (by decide) rfl rfl (by decide)

/-! ## Claims about `missingDependency` -/

/-- C12, counterexample: "1" is watched and `missingDependency` when its only dependency "2"
is submitted; in the walker pass of that event "2" is present, not blocking and not done
(it is dispatched by the pass), and "1" is still `missingDependency` after the pass, not
`submitted`. -/
theorem missingDependency_not_lifted :
    ((loop NewDefault (lateDepRun.take 2)).bind (fun e => mapGet e.nodes "1")).map
        (fun n => n.state) = some state.missingDependency ∧
      ((loop NewDefault lateDepRun).bind (fun e => mapGet e.nodes "2")).map
        (fun n => n.state) = some state.dispatched ∧
      ((loop NewDefault lateDepRun).bind (fun e => mapGet e.nodes "1")).map
        (fun n => n.state) = some state.missingDependency := by
  decide

/-- C12, amended: a walker pass never sets a state to `submitted`.  A node that is
`missingDependency` before the pass is `missingDependency`, `blocked` or `dispatched`
after it, and whenever, after the pass, none of its dependencies is blocking and not all
of them are done, its record is unchanged: it is still `missingDependency`. -/
theorem missingDependency_stays (e : engine) (order : List String) (x : String) (n : node)
    (hwk : wellKeyed e.nodes) (hget : mapGet e.nodes x = some n)
    (hs : n.state = state.missingDependency) :
    ∃ e1, walk e order = some e1 ∧
      (∃ n1, mapGet e1.nodes x = some n1 ∧
        (n1.state = state.missingDependency ∨ n1.state = state.blocked ∨
          n1.state = state.dispatched)) ∧
      (n.dependencies.any (depBlocking e1.nodes) = false →
        n.dependencies.all (depDone e1.nodes) = false → mapGet e1.nodes x = some n) := by
  obtain ⟨e1, v, h1, hI, hw⟩ := walk_invariant (pendingInv e x n)
    (fun st id hI => ⟨hI.1.trans (Walked.of_visited _ (fun k hk => List.mem_cons_of_mem _ hk)),
      hI.2⟩)
    (fun st m _ hI hg hne => by
      have hc := conclude_walked_fold st m hg hne
      refine ⟨hI.1.trans hc, ?_⟩
      rcases hI.2 with hrec | hbad | hbad
      · by_cases hmx : x = m.id
        · subst hmx
          rw [hg] at hrec
          cases hrec
          cases hb : n.dependencies.any (depBlocking st.1.nodes) with
          | true => exact Or.inr (Or.inl (hc.any_depBlocking hb))
          | false =>
            cases hd : n.dependencies.all (depDone st.1.nodes) with
            | true => exact Or.inr (Or.inr (hc.all_depDone hd))
            | false =>
              left
              show mapGet (conclude _ _ _).nodes n.id = _
              rw [(conclude_decided st.1 n hg).1, if_pos rfl, decided_of_pending _ _ hs hb hd]
        · left
          show mapGet (conclude _ _ _).nodes x = _
          rw [(conclude_decided st.1 m hg).1, if_neg hmx]
          exact hrec
      · exact Or.inr (Or.inl (hc.any_depBlocking hbad))
      · exact Or.inr (Or.inr (hc.all_depDone hbad)))
    e order hwk ⟨Walked.refl _, Or.inl hget⟩
  refine ⟨e1, h1, ?_, ?_⟩
  · obtain ⟨n1, hn1, _, _, _, hmv⟩ := hw.moved x n hget
    refine ⟨n1, hn1, ?_⟩
    rcases hmv with h | ⟨_, h, _⟩
    · rw [h]; exact Or.inl hs
    · exact h
  · intro hb hd
    rcases hI.2 with h | h | h
    · exact h
    · have h2 : n.dependencies.any (depBlocking e1.nodes) = true := h
      rw [hb] at h2
      cases h2
    · have h2 : n.dependencies.all (depDone e1.nodes) = true := h
      rw [hd] at h2
      cases h2

theorem missingDependency_stays_witness :
    ∃ e1, walk lateDepEngine ["1"] = some e1 ∧
      (∃ n1, mapGet e1.nodes "1" = some n1 ∧
        (n1.state = state.missingDependency ∨ n1.state = state.blocked ∨
          n1.state = state.dispatched)) ∧
      (["2"].any (depBlocking e1.nodes) = false → ["2"].all (depDone e1.nodes) = false →
        mapGet e1.nodes "1" =
          some { node.zero with
            id := "1", state := state.missingDependency, dependencies := ["2"] }) :=
  missingDependency_stays lateDepEngine ["1"] "1"
    { node.zero with id := "1", state := state.missingDependency, dependencies := ["2"] }
    (by decide) rfl rfl

/-- C13, failing input: after `Submit("1", t, "2")`, `Execute("1")`, `Submit("2", t)` and
`Wait("1")` every declared dependency of "1" is present, and the waiter is sent an
`ErrMissingDependency` whose `Ids` is empty. -/
theorem missingDependency_error_without_missing_id :
    (loop NewDefault lateDepWaitRun).map (fun e => e.sent) =
        some [(0, GoError.ErrMissingDependency [])] ∧
      ((loop NewDefault lateDepWaitRun).bind (fun e => mapGet e.nodes "2")).isSome = true := by
  decide

/-- C14, counterexample: "n" depends on "d", which is `missingDependency` because "x" was
never submitted; after the walker and settlement passes of `Wait("n")` the node "n" is
still `submitted` with nil `err`, and the waiter has had no reply and is still waiting. -/
theorem missingDependency_dep_does_not_block :
    ((loop NewDefault (transitiveMissingRun.take 3)).bind (fun e => mapGet e.nodes "d")).map
        (fun n => n.state) = some state.missingDependency ∧
      ((loop NewDefault transitiveMissingRun).bind (fun e => mapGet e.nodes "n")).map
        (fun n => (n.state, n.err)) = some (state.submitted, GoError.nil) ∧
      (loop NewDefault transitiveMissingRun).map (fun e => e.sent) = some [] ∧
      (loop NewDefault transitiveMissingRun).map (fun e => e.waiting.map (fun w => w.channel)) =
        some [0] := by
  decide

/-- C14, amended: let `x` need evaluation with every declared dependency present, one of
them, `d`, being `missingDependency` with a dependency of its own absent.  A walker pass
returns and does not block `x` on account of `d`: `d` stays `missingDependency`, no worker
is started for `x`, and `x` keeps its record unless it becomes `blocked` because one of its
dependencies is errored or blocked.  When `x` is `submitted` and keeps its record, the
settlement pass that follows replies to no waiter that has `x` among its targets and keeps
it in `waiting`. -/
theorem missingDependency_dep_leaves_waiting (e : engine) (order : List String)
    (x d y : String) (n dn : node) (hwk : wellKeyed e.nodes)
    (hx : mapGet e.nodes x = some n) (hne : n.state.needsEvaluation = true)
    (hpres : ∀ k ∈ n.dependencies, ∃ r, mapGet e.nodes k = some r)
    (hd : d ∈ n.dependencies) (hdn : mapGet e.nodes d = some dn)
    (hds : dn.state = state.missingDependency)
    (hy : y ∈ dn.dependencies) (hyabs : mapGet e.nodes y = none) :
    ∃ e1, walk e order = some e1 ∧
      (∃ d1, mapGet e1.nodes d = some d1 ∧ d1.state = state.missingDependency) ∧
      x ∉ (e1.spawned.drop e.spawned.length).map (fun w => w.node.id) ∧
      (mapGet e1.nodes x = some n ∨
        ∃ n1, mapGet e1.nodes x = some n1 ∧ n1.state = state.blocked ∧
          n.dependencies.any (depBlocking e1.nodes) = true) ∧
      (mapGet e1.nodes x = some n → n.state = state.submitted →
        ∀ w ∈ e1.waiting, x ∈ w.NodeIds →
          settled e1.nodes w = false ∧ w ∈ (checkDone e1).waiting) := by
  obtain ⟨e1, v, h1, hI, hw⟩ := walk_invariant (transitiveInv e x d n)
    (fun st id hI => ⟨hI.1.trans (Walked.of_visited _ (fun k hk => List.mem_cons_of_mem _ hk)),
      hI.2⟩)
    (fun st m _ hI hg hnem => by
      have hc := conclude_walked_fold st m hg hnem
      obtain ⟨hW, ⟨d1, hd1, hd1s⟩, hxrec⟩ := hI
      have hget := (conclude_decided st.1 m hg).1
      -- the dependency `d` is `missingDependency` after the decision on `m`
      have hdnew : ∃ d2, mapGet (conclude st.1 m
          (foldFlags st.1.nodes m.dependencies Flags.init)).nodes d = some d2 ∧
          d2.state = state.missingDependency := by
        by_cases hmd : d = m.id
        · subst hmd
          rw [hg] at hd1
          cases hd1
          obtain ⟨m1, hm1, mv⟩ := hW.moved _ _ hdn
          have hm1' : mapGet st.1.nodes m.id = some m1 := hm1
          rw [hg] at hm1'
          cases hm1'
          have hdeps : m.dependencies = dn.dependencies := mv.2.1
          have hab : m.dependencies.any (depAbsent st.1.nodes) = true := by
            rw [List.any_eq_true]
            refine ⟨y, hdeps.symm ▸ hy, ?_⟩
            simp [depAbsent, hW.absent y hyabs]
          refine ⟨{ m with state := state.missingDependency }, ?_, rfl⟩
          rw [hget, if_pos rfl]
          simp [decided, hab]
        · exact ⟨d1, by rw [hget, if_neg hmd]; exact hd1, hd1s⟩
      refine ⟨hW.trans hc, hdnew, ?_⟩
      rcases hxrec with hrec | ⟨n1, hn1, hn1s, hbl⟩
      · by_cases hmx : x = m.id
        · subst hmx
          rw [hg] at hrec
          cases hrec
          have hab : n.dependencies.any (depAbsent st.1.nodes) = false := by
            rw [List.any_eq_false]
            intro k hk
            obtain ⟨r, hr⟩ := hpres k hk
            obtain ⟨r1, hr1, _⟩ := hW.moved _ _ hr
            simp [depAbsent, hr1]
          have hnd : n.dependencies.all (depDone st.1.nodes) = false := by
            rw [List.all_eq_false]
            refine ⟨d, hd, ?_⟩
            simp [depDone, hd1, hd1s]
          cases hb : n.dependencies.any (depBlocking st.1.nodes) with
          | true =>
            right
            refine ⟨_, by rw [hget, if_pos rfl], ?_, hc.any_depBlocking hb⟩
            simp [decided, hab, hb]
          | false =>
            left
            rw [hget, if_pos rfl]
            simp [decided, hab, hb, hnd]
        · left
          rw [hget, if_neg hmx]
          exact hrec
      · right
        obtain ⟨n2, hn2, mv⟩ := hc.moved _ _ hn1
        have := nodeMoved_keep mv (by rw [hn1s]; rfl)
        subst this
        exact ⟨n2, hn2, hn1s, hc.any_depBlocking hbl⟩)
    e order hwk ⟨Walked.refl _, ⟨dn, hdn, hds⟩, Or.inl hx⟩
  obtain ⟨_, hdfin, hxfin⟩ := hI
  refine ⟨e1, h1, hdfin, ?_, hxfin, ?_⟩
  · obtain ⟨new, hnew, _, hok⟩ := hw.spawned
    have hnew1 : e1.spawned = e.spawned ++ new := hnew
    intro hmem
    rw [hnew1, List.drop_left] at hmem
    obtain ⟨w, hwm, hid⟩ := List.mem_map.mp hmem
    obtain ⟨_, ⟨n1, hn1, hdisp⟩, _⟩ := hok w hwm
    have hid1 : w.node.id = x := hid
    rw [hid1] at hn1
    have hn1' : mapGet e1.nodes x = some n1 := hn1
    rcases hxfin with h | ⟨n2, hn2, hs2, _⟩
    · have h' : mapGet e1.nodes x = some n := h
      rw [h'] at hn1'
      cases hn1'
      rw [hdisp] at hne
      cases hne
    · have h' : mapGet e1.nodes x = some n2 := hn2
      rw [h'] at hn1'
      cases hn1'
      rw [hs2] at hdisp
      cases hdisp
  · intro hrec hsub w hwm hxw
    have hst : settles e1.nodes x = false := by simp [settles, hrec, hsub]
    have hs : settled e1.nodes w = false := by
      simp only [settled, checkTargets_eq, Bool.true_and]
      rw [List.all_eq_false]
      exact ⟨x, hxw, by simp [hst]⟩
    refine ⟨hs, ?_⟩
    rw [checkDone_waiting]
    exact List.mem_filter.mpr ⟨hwm, by simp [hs]⟩

theorem missingDependency_dep_leaves_waiting_witness :
    ∃ e1, walk transitiveMissingEngine ["n"] = some e1 ∧
      (∃ d1, mapGet e1.nodes "d" = some d1 ∧ d1.state = state.missingDependency) ∧
      "n" ∉ (e1.spawned.drop transitiveMissingEngine.spawned.length).map
        (fun w => w.node.id) ∧
      (mapGet e1.nodes "n" = some { node.zero with id := "n", dependencies := ["d"] } ∨
        ∃ n1, mapGet e1.nodes "n" = some n1 ∧ n1.state = state.blocked ∧
          ["d"].any (depBlocking e1.nodes) = true) ∧
      (mapGet e1.nodes "n" = some { node.zero with id := "n", dependencies := ["d"] } →
        state.submitted = state.submitted →
        ∀ w ∈ e1.waiting, "n" ∈ w.NodeIds →
          settled e1.nodes w = false ∧ w ∈ (checkDone e1).waiting) :=
  missingDependency_dep_leaves_waiting transitiveMissingEngine ["n"] "n" "d" "x"
    { node.zero with id := "n", dependencies := ["d"] }
    { node.zero with id := "d", state := state.missingDependency, dependencies := ["x"] }
    (by decide) rfl rfl
    (fun k hk => by
      rw [List.mem_singleton.mp hk]
      exact ⟨_, rfl⟩)
    (List.mem_singleton.mpr rfl) rfl rfl (List.mem_singleton.mpr rfl) rfl

/-! ## Claims about whole walker passes -/

/-- C19, failing input: "A" depends on "B", "B" on the absent "X", both are watched and the
pass takes "A" first.  "B" is evaluated once as the dependency of "A" and once more as a
watched id: the single walker pass of the `Execute` event assigns its state twice. -/
theorem watched_dependency_evaluated_twice :
    (loop NewDefault (twiceRun.take 2)).map (fun e => stateChanges e "B") = some 0 ∧
      (loop NewDefault twiceRun).map (fun e => stateChanges e "B") = some 2 := by
  decide

/-- C18: let the nodes of `s` be `submitted`, each declaring exactly one dependency that is
itself in `s` (a node depending on itself, two nodes depending on each other, any longer
cycle).  Then any number of walker passes, each followed by its settlement pass, returns;
the records of the nodes of `s` are unchanged, so they are still `submitted`; none of the
workers started belongs to a node of `s`; every waiter with a target in `s` is still in
`waiting`, and every value sent went to a waiter with no target in `s`. -/
theorem cycle_never_dispatched (e : engine) (s : List String) (orders : List (List String))
    (hwk : wellKeyed e.nodes) (hst : stuck e.nodes s) :
    ∃ e1, passes e orders = some e1 ∧
      (∀ a ∈ s, mapGet e1.nodes a = mapGet e.nodes a) ∧
      (∃ new, e1.spawned = e.spawned ++ new ∧ ∀ w ∈ new, w.node.id ∉ s) ∧
      (∀ w ∈ e.waiting, (∃ a ∈ s, a ∈ w.NodeIds) → w ∈ e1.waiting) ∧
      (∀ w ∈ e1.waiting, w ∈ e.waiting) ∧
      (∃ news, e1.sent = e.sent ++ news ∧
        ∀ p ∈ news, ∃ w ∈ e.waiting, p.1 = w.channel ∧ ∀ a ∈ s, a ∉ w.NodeIds) := by
  induction orders generalizing e with
  | nil =>
    exact ⟨e, rfl, fun _ _ => rfl, ⟨[], by simp, by simp⟩, fun w hw _ => hw, fun w hw => hw,
      ⟨[], by simp, by simp⟩⟩
  | cons order rest ih =>
    obtain ⟨e1, h1, hwk1, hrec1, ⟨new1, hnew1, hnot1⟩, hwait1, hsent1⟩ :=
      walk_stuck e s order hwk hst
    have hst1 : stuck e1.nodes s := by
      intro a ha
      rw [hrec1 a ha]
      exact hst a ha
    have hst2 : stuck (checkDone e1).nodes s := hst1
    obtain ⟨e2, h2, hrec2, ⟨new2, hnew2, hnot2⟩, hkeep2, hsub2, ⟨news2, hsent2, hrep2⟩⟩ :=
      ih (checkDone e1) hwk1 hst2
    refine ⟨e2, by simp [passes, h1, h2], ?_, ?_, ?_, ?_, ?_⟩
    · intro a ha
      rw [hrec2 a ha]
      exact hrec1 a ha
    · refine ⟨new1 ++ new2, ?_, ?_⟩
      · rw [hnew2, checkDone_spawned, hnew1, List.append_assoc]
      · intro w hw
        rcases List.mem_append.mp hw with hw | hw
        · exact hnot1 w hw
        · exact hnot2 w hw
    · intro w hw hex
      apply hkeep2 w _ hex
      rw [checkDone_waiting, hwait1]
      obtain ⟨a, ha, haw⟩ := hex
      exact List.mem_filter.mpr ⟨hw, by simp [settled_false_of_stuck hst1 ha haw]⟩
    · intro w hw
      have := hsub2 w hw
      rw [checkDone_waiting, hwait1] at this
      exact (List.mem_filter.mp this).1
    · refine ⟨(e1.waiting.filter (settled e1.nodes)).map
          (fun w => (w.channel, verdict e1.nodes w)) ++ news2, ?_, ?_⟩
      · rw [hsent2, checkDone_sent, hsent1, List.append_assoc]
      · intro p hp
        rcases List.mem_append.mp hp with hp | hp
        · obtain ⟨w, hwf, rfl⟩ := List.mem_map.mp hp
          obtain ⟨hw, hs⟩ := List.mem_filter.mp hwf
          refine ⟨w, hwait1 ▸ hw, rfl, ?_⟩
          intro a ha haw
          rw [settled_false_of_stuck hst1 ha haw] at hs
          cases hs
        · obtain ⟨w, hw, hpw, hno⟩ := hrep2 p hp
          rw [checkDone_waiting, hwait1] at hw
          exact ⟨w, (List.mem_filter.mp hw).1, hpw, hno⟩

theorem cycle_never_dispatched_witness :
    ∃ e1, passes cycleEngine [["A"], ["A"]] = some e1 ∧
      (∀ a ∈ ["A", "B"], mapGet e1.nodes a = mapGet cycleEngine.nodes a) ∧
      (∃ new, e1.spawned = cycleEngine.spawned ++ new ∧
        ∀ w ∈ new, w.node.id ∉ ["A", "B"]) ∧
      (∀ w ∈ cycleEngine.waiting, (∃ a ∈ ["A", "B"], a ∈ w.NodeIds) → w ∈ e1.waiting) ∧
      (∀ w ∈ e1.waiting, w ∈ cycleEngine.waiting) ∧
      (∃ news, e1.sent = cycleEngine.sent ++ news ∧
        ∀ p ∈ news, ∃ w ∈ cycleEngine.waiting, p.1 = w.channel ∧
          ∀ a ∈ ["A", "B"], a ∉ w.NodeIds) :=
  cycle_never_dispatched cycleEngine ["A", "B"] [["A"], ["A"]] (by decide)
    (fun a ha => by
      rcases List.mem_cons.mp ha with rfl | ha
      · exact ⟨_, rfl, rfl, "B", by simp, rfl⟩
      · rw [List.mem_singleton.mp ha]
        exact ⟨_, rfl, rfl, "A", by simp, rfl⟩)

/-- C20: on an engine whose nodes are stored under their own ids, whatever the dependency
graph (self-references, duplicate dependencies and cycles included), a walker pass
returns, and the number of calls of `walkChildren` it makes, the top-level ones included,
is at most the number of keys of `nodes` plus the number of watched ids iterated. -/
theorem walk_terminates_within_calls (e : engine) (order : List String)
    (hsk : selfKeyed e.nodes) :
    ∃ e1 c, walk e order = some e1 ∧ walkCalls e order = some c ∧
      c ≤ keyCount e.nodes + order.length := by
  obtain ⟨st1, h⟩ := walkFrom_terminates (e.nodes.length + 1) order (e, [])
    (selfKeyed_wellKeyed hsk) (Nat.lt_succ_self _)
  refine ⟨st1.1, st1.2.length, by simp [walk, h], by simp [walkCalls, h], ?_⟩
  have hb : callBudget (e.nodes.map Prod.fst) st1.2 ≤
      callBudget (e.nodes.map Prod.fst) [] + order.length :=
    walkFrom_budget _ _ order (e, []) st1 hsk rfl h
  have h0 : callBudget (e.nodes.map Prod.fst) [] = keyCount e.nodes := by
    simp [callBudget, keyCount]
  rw [h0] at hb
  have : st1.2.length ≤ callBudget (e.nodes.map Prod.fst) st1.2 := Nat.le_add_right _ _
  omega

theorem walk_terminates_within_calls_witness :
    selfKeyed knotEngine.nodes ∧
    ∃ e1 c, walk knotEngine ["A", "B"] = some e1 ∧ walkCalls knotEngine ["A", "B"] = some c ∧
      c ≤ keyCount knotEngine.nodes + ["A", "B"].length :=
  ⟨by decide, walk_terminates_within_calls knotEngine ["A", "B"] (by decide)⟩

/-! ## Claims about the worker protocol -/

/-- C17, counterexample: `Submit("1")`, `Execute("1")` and a second `Submit("1")` before the
first worker has reported start two workers for "1"; the first sends `TaskStart` and a
`TaskExit` with the error "boom", the second then sends its `TaskStart`: node "1" is
`running` with `err` "boom".  Every event is one of the public API or the next event of a
started worker. -/
theorem running_node_keeps_err :
    Reaches workerTurn NewDefault (raceAt 6) ∧
      (mapGet (raceAt 6).nodes "1").map (fun n => (n.state, n.err)) =
        some (state.running, GoError.errorString "boom") :=
  have h1 : Reaches workerTurn NewDefault (raceAt 1) :=
    Reaches.step (Reaches.refl NewDefault)
      (Admissible.submit "1" (fun _ => GoError.errorString "boom") []) (by decide)
      (List.Perm.refl _)
      (rfl : loopStep NewDefault (Submit "1" (fun _ => GoError.errorString "boom") []) [] =
        some (raceAt 1))
  have h2 : Reaches workerTurn NewDefault (raceAt 2) :=
    Reaches.step h1 (Admissible.execute ["1"]) (by decide) (List.Perm.refl _)
      (rfl : loopStep (raceAt 1) (Execute ["1"]) ["1"] = some (raceAt 2))
  have h3 : Reaches workerTurn NewDefault (raceAt 3) :=
    Reaches.step h2 (Admissible.submit "1" (fun _ => GoError.errorString "boom") [])
      (by decide) (List.Perm.refl _)
      (rfl : loopStep (raceAt 2) (Submit "1" (fun _ => GoError.errorString "boom") []) ["1"] =
        some (raceAt 3))
  have h4 : Reaches workerTurn NewDefault (raceAt 4) :=
    Reaches.step h3 (Admissible.taskStart "1" (by decide)) (by decide) (List.Perm.refl _)
      (rfl : loopStep (raceAt 3) (TaskStart "1") ["1"] = some (raceAt 4))
  have h5 : Reaches workerTurn NewDefault (raceAt 5) :=
    Reaches.step h4 (Admissible.taskExit "1" (GoError.errorString "boom") (by decide))
      (by decide) (List.Perm.refl _)
      (rfl : loopStep (raceAt 4) (TaskExit "1" (GoError.errorString "boom")) ["1"] =
        some (raceAt 5))
  have h6 : Reaches workerTurn NewDefault (raceAt 6) :=
    Reaches.step h5 (Admissible.taskStart "1" (by decide)) (by decide) (List.Perm.refl _)
      (rfl : loopStep (raceAt 5) (TaskStart "1") ["1"] = some (raceAt 6))
  ⟨h6, by decide⟩

/-- C17, amended: in every engine state reached from the fresh engine by events of the
public API (`Submit`, `Execute`, `Wait`) and of workers, where no `Submit` names an id that
`nodes` already holds and every worker event is the next one of a started worker
(`TaskStart` first, then `TaskExit`, once each), each node has a non-nil `err` if and only
if its state is `errored` or `blocked`. -/
theorem err_set_iff_errored_or_blocked (e : engine) (h : Reaches onceInTurn NewDefault e)
    (k : String) (n : node) (hget : mapGet e.nodes k = some n) :
    n.err ≠ GoError.nil ↔ (n.state = state.errored ∨ n.state = state.blocked) :=
  (Reaches.stays_inFlight h inFlight_NewDefault).2.1 k n hget

theorem err_set_iff_errored_or_blocked_witness :
    Reaches onceInTurn NewDefault (failAt 5) ∧
      mapGet (failAt 5).nodes "2" = some { node.zero with
        id := "2", state := state.blocked, err := GoError.errorString "boom",
        dependencies := ["1"] } ∧
      (GoError.errorString "boom" ≠ GoError.nil ↔
        (state.blocked = state.errored ∨ state.blocked = state.blocked)) :=
  have h1 : Reaches onceInTurn NewDefault (failAt 1) :=
    Reaches.step (Reaches.refl NewDefault)
      (Admissible.submit "1" (fun _ => GoError.errorString "boom") [])
      ⟨fun _ => rfl, by decide⟩ (List.Perm.refl _)
      (rfl : loopStep NewDefault (Submit "1" (fun _ => GoError.errorString "boom") []) [] =
        some (failAt 1))
  have h2 : Reaches onceInTurn NewDefault (failAt 2) :=
    Reaches.step h1 (Admissible.submit "2" (fun _ => GoError.nil) ["1"])
      ⟨fun _ => rfl, by decide⟩ (List.Perm.refl _)
      (rfl : loopStep (failAt 1) (Submit "2" (fun _ => GoError.nil) ["1"]) [] =
        some (failAt 2))
  have h3 : Reaches onceInTurn NewDefault (failAt 3) :=
    Reaches.step h2 (Admissible.execute ["2"]) ⟨fun h => (by cases h), by decide⟩
      (List.Perm.refl _)
      (rfl : loopStep (failAt 2) (Execute ["2"]) ["2"] = some (failAt 3))
  have h4 : Reaches onceInTurn NewDefault (failAt 4) :=
    Reaches.step h3 (Admissible.taskStart "1" (by decide)) ⟨fun h => (by cases h), by decide⟩
      (List.Perm.refl _)
      (rfl : loopStep (failAt 3) (TaskStart "1") ["2"] = some (failAt 4))
  have h5 : Reaches onceInTurn NewDefault (failAt 5) :=
    Reaches.step h4 (Admissible.taskExit "1" (GoError.errorString "boom") (by decide))
      ⟨fun h => (by cases h), by decide⟩ (List.Perm.refl _)
      (rfl : loopStep (failAt 4) (TaskExit "1" (GoError.errorString "boom")) ["2"] =
        some (failAt 5))
  ⟨h5, rfl, err_set_iff_errored_or_blocked (failAt 5) h5 "2" _ rfl⟩

end Reactor
